import Mathlib

/-!
# cFastSieve: a segmented sieve of Eratosthenes, verified

Shallow embedding of the two engines of the repository:

* `src/sieve_eratosthenes.c` (namespace `Sieve`): the byte-array engine, which
  prints every prime up to `limit` and then the number of primes it printed;
* `src/bit_sieve_eratosthenes.c` (namespace `BitSieve`): the bit-packed
  engine, which only counts.

Conventions of the embedding.

* C integers are natural numbers (`count` is an `Int`) and the arithmetic is
  exact. The subtractions that the C code performs on possibly smaller
  minuends (`s * s - low`, `j - segment_size`, `n - low`, `high - low`) are
  checked: going below zero is the fault `underflow`.
* Arrays are lists of cells; every read and write is bounds checked and an
  access outside the buffer is the fault `out_of_bounds`. A `bool` cell is a
  byte holding `0` or `1`, as `memset(data, true, n)` writes it.
* Every C loop is a recursive function on a fuel argument that decreases by one
  per evaluation of the loop condition; running out is the fault `out_of_fuel`.
  A loop function takes the budget `F` handed to the loops nested in it and its
  own fuel.
* `sqrt` is the C library function; `isqrt` is the integer square root it
  computes on the inputs for which the conversion to `double` is exact.
* `approximate_size` works in floating point and only fixes the initial
  capacity of the two growable arrays; the engines take that capacity as the
  parameter `approx_arr_size` (the C function returns a value `>= 1`).
* `printf` is modelled by the list of printed numbers.
-/

namespace CFastSieve

/-- Ways in which a run stops without a result. -/
inductive Fault where
  | out_of_fuel
  | out_of_bounds
  | underflow
  deriving DecidableEq, Repr

deriving instance DecidableEq for Except

/-! ## Memory and arithmetic primitives -/

/-- Read of `data[i]`. -/
def load (data : List Nat) (i : Nat) : Except Fault Nat :=
  match data[i]? with
  | some v => .ok v
  | none => .error .out_of_bounds

/-- Write `data[i] = v`. -/
def store (data : List Nat) (i v : Nat) : Except Fault (List Nat) :=
  if i < data.length then .ok (data.set i v) else .error .out_of_bounds

/-- Subtraction `a - b` that must not go below zero. -/
def usub (a b : Nat) : Except Fault Nat :=
  if b ≤ a then .ok (a - b) else .error .underflow

/-- The call `memset(data, v, n)`: the first `n` cells become `v`. -/
def memset (data : List Nat) (v n : Nat) : Except Fault (List Nat) :=
  if n ≤ data.length then .ok (List.replicate n v ++ data.drop n)
  else .error .out_of_bounds

/-- The call `realloc(data, n * sizeof(uint64_t))`: the old cells are kept, the
new ones are unspecified (zero here). -/
def realloc (data : List Nat) (n : Nat) : List Nat :=
  data.take n ++ List.replicate (n - data.length) 0

/-- Linear search for the integer square root, downwards from `r`. -/
def isqrt_from : Nat → Nat → Nat
  | 0, _ => 0
  | r + 1, n => if (r + 1) * (r + 1) ≤ n then r + 1 else isqrt_from r n

/-- Modelled from the spec: `sqrtval = floor(sqrt(N))`, the value of the C
library call `(uint64_t)sqrt(limit)`, which is not repository code. -/
def isqrt (n : Nat) : Nat := isqrt_from n n

/-! ## The growable array `uint64vec_t` (identical in both files) -/

/-- The struct `uint64_vector`: `data` is the heap buffer. -/
structure uint64vec_t where
  data : List Nat
  capacity : Nat
  size : Nat
  deriving DecidableEq, Repr

/-- The function `create_uint64_vector`: a buffer of `size` cells, no element stored. -/
def create_uint64_vector (size : Nat) : uint64vec_t :=
  { data := List.replicate size 0, capacity := size, size := 0 }

/-- The function `uint64_vector_append`: store at index `size` when `size + 1 < capacity`,
otherwise double the capacity, reallocate and store. -/
def uint64_vector_append (vector : uint64vec_t) (data : Nat) :
    Except Fault uint64vec_t :=
  if vector.size + 1 < vector.capacity then
    match store vector.data vector.size data with
    | .ok d => .ok { vector with data := d, size := vector.size + 1 }
    | .error e => .error e
  else
    let capacity := vector.capacity * 2
    match store (realloc vector.data capacity) vector.size data with
    | .ok d => .ok { data := d, capacity := capacity, size := vector.size + 1 }
    | .error e => .error e

/-- The structs `bool_vector` and `uint8_vector`: a byte buffer with its
size; `count` is set to `0` at creation and never used. -/
structure uint8vec_t where
  data : List Nat
  size : Nat
  count : Nat
  deriving DecidableEq, Repr

/-! ## The loops shared by the two engines

Lines 125-151 of `sieve_eratosthenes.c` and 155-181 of
`bit_sieve_eratosthenes.c` are the same text, up to the statement that clears a
position of the working sieve. -/

/-- The upper bound of a segment: `high = low + segment_size - 1;
high = high < limit ? high : limit;`. The sum is unsigned: for
`low + segment_size = 0` it wraps to `2^64 - 1`. -/
def segment_high (low segment_size limit : Nat) : Nat :=
  let high := if low + segment_size = 0 then 2 ^ 64 - 1 else low + segment_size - 1
  if high < limit then high else limit

/-- The loop `for (j = i * i; j <= sqrtval; j += i) is_prime.data[j] = false;`.
Arguments: fuel, `is_prime.data`, `j`. -/
def mark_loop (sqrtval i : Nat) : Nat → List Nat → Nat → Except Fault (List Nat)
  | 0, _, _ => .error .out_of_fuel
  | fuel + 1, is_prime, j =>
    if j ≤ sqrtval then
      match store is_prime j 0 with
      | .ok d => mark_loop sqrtval i fuel d (j + i)
      | .error e => .error e
    else .ok is_prime

/-- The loop `for (; i * i <= high; i += 2)` that extends the base sieve.
Arguments: fuel, `is_prime.data`, `i`; the result is the table and `i`. -/
def base_loop (F sqrtval high : Nat) :
    Nat → List Nat → Nat → Except Fault (List Nat × Nat)
  | 0, _, _ => .error .out_of_fuel
  | fuel + 1, is_prime, i =>
    if i * i ≤ high then
      match load is_prime i with
      | .ok v =>
        if v ≠ 0 then
          match mark_loop sqrtval i F is_prime (i * i) with
          | .ok d => base_loop F sqrtval high fuel d (i + 2)
          | .error e => .error e
        else base_loop F sqrtval high fuel is_prime (i + 2)
      | .error e => .error e
    else .ok (is_prime, i)

/-- The loop `for (; s * s <= high; s += 2)` that appends the new sieving
primes and their first offsets. Arguments: fuel, `prime_arr`, `multiples`,
`s`. -/
def append_loop (is_prime : List Nat) (low high : Nat) :
    Nat → uint64vec_t → uint64vec_t → Nat →
      Except Fault (uint64vec_t × uint64vec_t × Nat)
  | 0, _, _, _ => .error .out_of_fuel
  | fuel + 1, prime_arr, multiples, s =>
    if s * s ≤ high then
      match load is_prime s with
      | .ok v =>
        if v ≠ 0 then
          match uint64_vector_append prime_arr s with
          | .ok pa =>
            match usub (s * s) low with
            | .ok off =>
              match uint64_vector_append multiples off with
              | .ok mu => append_loop is_prime low high fuel pa mu (s + 2)
              | .error e => .error e
            | .error e => .error e
          | .error e => .error e
        else append_loop is_prime low high fuel prime_arr multiples (s + 2)
      | .error e => .error e
    else .ok (prime_arr, multiples, s)

/-- The loop `for (k = ...; j < segment_size; j += k) <clear position j>;`.
Arguments: fuel, `sieve.data`, `j`; the result is the sieve and the final
`j`. -/
def clear_loop (clear : List Nat → Nat → Except Fault (List Nat))
    (segment_size k : Nat) : Nat → List Nat → Nat → Except Fault (List Nat × Nat)
  | 0, _, _ => .error .out_of_fuel
  | fuel + 1, sieve, j =>
    if j < segment_size then
      match clear sieve j with
      | .ok d => clear_loop clear segment_size k fuel d (j + k)
      | .error e => .error e
    else .ok (sieve, j)

/-- The loop `for (i_size = 0; i_size < prime_arr.size; i_size++)` that crosses
off the multiples of every sieving prime and carries the offsets.
Arguments: fuel, `sieve.data`, `multiples.data`, `i_size`. -/
def cross_off_loop (clear : List Nat → Nat → Except Fault (List Nat))
    (F segment_size : Nat) (prime_arr : uint64vec_t) :
    Nat → List Nat → List Nat → Nat → Except Fault (List Nat × List Nat)
  | 0, _, _, _ => .error .out_of_fuel
  | fuel + 1, sieve, multiples, i_size =>
    if i_size < prime_arr.size then
      match load multiples i_size with
      | .ok j =>
        match load prime_arr.data i_size with
        | .ok p =>
          match clear_loop clear segment_size (p * 2) F sieve j with
          | .ok (d, j1) =>
            match usub j1 segment_size with
            | .ok r =>
              match store multiples i_size r with
              | .ok m => cross_off_loop clear F segment_size prime_arr fuel d m (i_size + 1)
              | .error e => .error e
            | .error e => .error e
          | .error e => .error e
        | .error e => .error e
      | .error e => .error e
    else .ok (sieve, multiples)

/-! ## The byte-array engine: `sieve_eratosthenes.c` -/

namespace Sieve

/-- The struct `bool_vector`; a `bool` cell is a byte. -/
abbrev boolvec_t := uint8vec_t

/-- The function `create_bool_vector`: `size` cells, all set to `true`. -/
def create_bool_vector (size : Nat) : boolvec_t :=
  { data := List.replicate size 1, size := size, count := 0 }

/-- The statement `sieve.data[j] = false;` of the crossing-off loop. -/
def clear_flag (sieve : List Nat) (j : Nat) : Except Fault (List Nat) :=
  store sieve j 0

/-- The loop `for (; n <= high; n += 2)` that prints the live odd numbers.
Arguments: fuel, printed numbers, `count`, `n`. -/
def harvest_loop (sieve : List Nat) (low high : Nat) :
    Nat → List Nat → Int → Nat → Except Fault (List Nat × Int × Nat)
  | 0, _, _, _ => .error .out_of_fuel
  | fuel + 1, out, count, n =>
    if n ≤ high then
      match usub n low with
      | .ok off =>
        match load sieve off with
        | .ok v =>
          if v ≠ 0 then harvest_loop sieve low high fuel (out ++ [n]) (count + 1) (n + 2)
          else harvest_loop sieve low high fuel out count (n + 2)
        | .error e => .error e
      | .error e => .error e
    else .ok (out, count, n)

/-- The local variables of `segmented_sieve` that live across segments, and
the numbers printed so far. -/
structure State where
  low : Nat
  i : Nat
  s : Nat
  n : Nat
  count : Int
  out : List Nat
  is_prime : boolvec_t
  prime_arr : uint64vec_t
  multiples : uint64vec_t
  sieve : boolvec_t
  deriving DecidableEq, Repr

/-- The body of the segment loop (lines 122-159). -/
def segment_body (F limit sqrtval segment_size : Nat) (st : State) :
    Except Fault State :=
  match memset st.sieve.data 1 st.sieve.size with
  | .error e => .error e
  | .ok sv0 =>
    let high := segment_high st.low segment_size limit
    match base_loop F sqrtval high F st.is_prime.data st.i with
    | .error e => .error e
    | .ok (ip, i) =>
      match append_loop ip st.low high F st.prime_arr st.multiples st.s with
      | .error e => .error e
      | .ok (pa, mu, s) =>
        match cross_off_loop clear_flag F segment_size pa F sv0 mu.data 0 with
        | .error e => .error e
        | .ok (sv, md) =>
          match harvest_loop sv st.low high F st.out st.count st.n with
          | .error e => .error e
          | .ok (out, count, n) =>
            .ok { low := st.low, i := i, s := s, n := n, count := count, out := out,
                  is_prime := { st.is_prime with data := ip },
                  prime_arr := pa,
                  multiples := { mu with data := md },
                  sieve := { st.sieve with data := sv } }

/-- The loop `for (low = 0; low <= limit; low += segment_size)`. -/
def segment_loop (F limit sqrtval segment_size : Nat) :
    Nat → State → Except Fault State
  | 0, _ => .error .out_of_fuel
  | fuel + 1, st =>
    if st.low ≤ limit then
      match segment_body F limit sqrtval segment_size st with
      | .ok st1 =>
        segment_loop F limit sqrtval segment_size fuel
          { st1 with low := st1.low + segment_size }
      | .error e => .error e
    else .ok st

/-- The state before the segment loop (lines 109-119), `2` already printed. -/
def init_state (L1D_CACHE approx_arr_size limit : Nat) : State :=
  let sqrtval := isqrt limit
  let segment_size := if sqrtval < L1D_CACHE then L1D_CACHE else sqrtval
  { low := 0, i := 3, s := 3, n := 3, count := 1, out := [2],
    is_prime := create_bool_vector (sqrtval + 1),
    prime_arr := create_uint64_vector approx_arr_size,
    multiples := create_uint64_vector approx_arr_size,
    sieve := create_bool_vector segment_size }

/-- The function `segmented_sieve(limit)` of `sieve_eratosthenes.c`: the printed numbers, in
order, and the printed count. -/
def segmented_sieve (F L1D_CACHE approx_arr_size limit : Nat) :
    Except Fault (List Nat × Int) :=
  let sqrtval := isqrt limit
  let segment_size := if sqrtval < L1D_CACHE then L1D_CACHE else sqrtval
  match segment_loop F limit sqrtval segment_size F
      (init_state L1D_CACHE approx_arr_size limit) with
  | .ok st => .ok (st.out, st.count)
  | .error e => .error e

end Sieve

/-! ## The bit-packed engine: `bit_sieve_eratosthenes.c` -/

namespace BitSieve

/-- The table `unset_bit[16]`. -/
def unset_bit : List Int :=
  [~~~((1 <<< 0 : Nat) : Int), ~~~((1 <<< 0 : Nat) : Int),
   ~~~((1 <<< 1 : Nat) : Int), ~~~((1 <<< 1 : Nat) : Int),
   ~~~((1 <<< 2 : Nat) : Int), ~~~((1 <<< 2 : Nat) : Int),
   ~~~((1 <<< 3 : Nat) : Int), ~~~((1 <<< 3 : Nat) : Int),
   ~~~((1 <<< 4 : Nat) : Int), ~~~((1 <<< 4 : Nat) : Int),
   ~~~((1 <<< 5 : Nat) : Int), ~~~((1 <<< 5 : Nat) : Int),
   ~~~((1 <<< 6 : Nat) : Int), ~~~((1 <<< 6 : Nat) : Int),
   ~~~((1 <<< 7 : Nat) : Int), ~~~((1 <<< 7 : Nat) : Int)]

/-- The table `popcnt[256]`. -/
def popcnt : List Int :=
  [0, 1, 1, 2, 1, 2, 2, 3, 1, 2, 2, 3, 2, 3, 3, 4,
   1, 2, 2, 3, 2, 3, 3, 4, 2, 3, 3, 4, 3, 4, 4, 5,
   1, 2, 2, 3, 2, 3, 3, 4, 2, 3, 3, 4, 3, 4, 4, 5,
   2, 3, 3, 4, 3, 4, 4, 5, 3, 4, 4, 5, 4, 5, 5, 6,
   1, 2, 2, 3, 2, 3, 3, 4, 2, 3, 3, 4, 3, 4, 4, 5,
   2, 3, 3, 4, 3, 4, 4, 5, 3, 4, 4, 5, 4, 5, 5, 6,
   2, 3, 3, 4, 3, 4, 4, 5, 3, 4, 4, 5, 4, 5, 5, 6,
   3, 4, 4, 5, 4, 5, 5, 6, 4, 5, 5, 6, 5, 6, 6, 7,
   1, 2, 2, 3, 2, 3, 3, 4, 2, 3, 3, 4, 3, 4, 4, 5,
   2, 3, 3, 4, 3, 4, 4, 5, 3, 4, 4, 5, 4, 5, 5, 6,
   2, 3, 3, 4, 3, 4, 4, 5, 3, 4, 4, 5, 4, 5, 5, 6,
   3, 4, 4, 5, 4, 5, 5, 6, 4, 5, 5, 6, 5, 6, 6, 7,
   2, 3, 3, 4, 3, 4, 4, 5, 3, 4, 4, 5, 4, 5, 5, 6,
   3, 4, 4, 5, 4, 5, 5, 6, 4, 5, 5, 6, 5, 6, 6, 7,
   3, 4, 4, 5, 4, 5, 5, 6, 4, 5, 5, 6, 5, 6, 6, 7,
   4, 5, 5, 6, 5, 6, 6, 7, 5, 6, 6, 7, 6, 7, 7, 8]

/-- The function `create_uint8_vector`: `size` bytes, all set to `0xff`. -/
def create_uint8_vector (size : Nat) : uint8vec_t :=
  { data := List.replicate size 255, size := size, count := 0 }

/-- The 64 bits of an `int64_t` value (two's complement), as a number. -/
def bits64 (x : Int) : Nat := (x % 2 ^ 64).toNat

/-- The conversion of a 64-bit pattern to `uint8_t`: its low byte. -/
def to_uint8 (x : Nat) : Nat := x % 256

/-- The statement `sieve.data[j >> 4] &= unset_bit[j & 15];` of the
crossing-off loop. -/
def clear_bit (sieve : List Nat) (j : Nat) : Except Fault (List Nat) :=
  match load sieve (j >>> 4) with
  | .ok b =>
    match unset_bit[j &&& 15]? with
    | some m => store sieve (j >>> 4) (to_uint8 (b &&& bits64 m))
    | none => .error .out_of_bounds
  | .error e => .error e

/-- The statements `bits = 0xff << (limit % 16 + 1) / 2;
sieve.data[sieve_size - 1] &= ~bits;` guarded by `high == limit`. -/
def mask_tail (limit high sieve_size : Nat) (sieve : List Nat) :
    Except Fault (List Nat) :=
  if high = limit then
    let bits : Int := ((0xff <<< ((limit % 16 + 1) / 2) : Nat) : Int)
    match load sieve (sieve_size - 1) with
    | .ok b => store sieve (sieve_size - 1) (to_uint8 (b &&& bits64 (~~~bits)))
    | .error e => .error e
  else .ok sieve

/-- The loop `for (n = 0; n < sieve_size; n++) count += popcnt[sieve.data[n]];`.
Arguments: fuel, `count`, `n`. -/
def count_loop (sieve : List Nat) (sieve_size : Nat) :
    Nat → Int → Nat → Except Fault Int
  | 0, _, _ => .error .out_of_fuel
  | fuel + 1, count, n =>
    if n < sieve_size then
      match load sieve n with
      | .ok b =>
        match popcnt[b]? with
        | some c => count_loop sieve sieve_size fuel (count + c) (n + 1)
        | none => .error .out_of_bounds
      | .error e => .error e
    else .ok count

/-- The local variables of `segmented_sieve` that live across segments. -/
structure State where
  low : Nat
  i : Nat
  s : Nat
  count : Int
  is_prime : uint8vec_t
  prime_arr : uint64vec_t
  multiples : uint64vec_t
  sieve : uint8vec_t
  deriving DecidableEq, Repr

/-- The body of the segment loop (lines 151-190). -/
def segment_body (F limit sqrtval segment_size : Nat) (st : State) :
    Except Fault State :=
  match memset st.sieve.data 0xff st.sieve.size with
  | .error e => .error e
  | .ok sv0 =>
    let high := segment_high st.low segment_size limit
    match usub high st.low with
    | .error e => .error e
    | .ok width =>
      let sieve_size := width / 16 + 1
      match base_loop F sqrtval high F st.is_prime.data st.i with
      | .error e => .error e
      | .ok (ip, i) =>
        match append_loop ip st.low high F st.prime_arr st.multiples st.s with
        | .error e => .error e
        | .ok (pa, mu, s) =>
          match cross_off_loop clear_bit F segment_size pa F sv0 mu.data 0 with
          | .error e => .error e
          | .ok (sv, md) =>
            match mask_tail limit high sieve_size sv with
            | .error e => .error e
            | .ok sv1 =>
              match count_loop sv1 sieve_size F st.count 0 with
              | .error e => .error e
              | .ok count =>
                .ok { low := st.low, i := i, s := s, count := count,
                      is_prime := { st.is_prime with data := ip },
                      prime_arr := pa,
                      multiples := { mu with data := md },
                      sieve := { st.sieve with data := sv1 } }

/-- The loop `for (low = 0; low <= limit; low += segment_size)`. -/
def segment_loop (F limit sqrtval segment_size : Nat) :
    Nat → State → Except Fault State
  | 0, _ => .error .out_of_fuel
  | fuel + 1, st =>
    if st.low ≤ limit then
      match segment_body F limit sqrtval segment_size st with
      | .ok st1 =>
        segment_loop F limit sqrtval segment_size fuel
          { st1 with low := st1.low + segment_size }
      | .error e => .error e
    else .ok st

/-- The state before the segment loop (lines 140-148). The product
`sieve_size * 16` is a `uint64_t`: it is taken modulo `2^64`. -/
def init_state (L1D_CACHE approx_arr_size limit : Nat) : State :=
  let sqrtval := isqrt limit
  let sieve_size := if sqrtval < L1D_CACHE then L1D_CACHE else sqrtval
  let segment_size := sieve_size * 16 % 2 ^ 64
  { low := 0, i := 3, s := 3, count := if limit = 1 then -1 else 0,
    is_prime := create_uint8_vector (sqrtval + 1),
    prime_arr := create_uint64_vector approx_arr_size,
    multiples := create_uint64_vector approx_arr_size,
    sieve := create_uint8_vector segment_size }

/-- The function `segmented_sieve(limit)` of `bit_sieve_eratosthenes.c`: the printed
count. The segment size is the `uint64_t` product `sieve_size * 16`, taken
modulo `2^64`. -/
def segmented_sieve (F L1D_CACHE approx_arr_size limit : Nat) : Except Fault Int :=
  let sqrtval := isqrt limit
  let sieve_size := if sqrtval < L1D_CACHE then L1D_CACHE else sqrtval
  let segment_size := sieve_size * 16 % 2 ^ 64
  match segment_loop F limit sqrtval segment_size F
      (init_state L1D_CACHE approx_arr_size limit) with
  | .ok st => .ok st.count
  | .error e => .error e

end BitSieve


/-! ## Specification vocabulary -/

/-- The elements stored in a growable array, in order. -/
def uint64vec_t.vals (v : uint64vec_t) : List Nat := v.data.take v.size

/-- A growable array is well formed when its buffer has `capacity` cells, with
`capacity >= 1`, and holds at most `capacity` elements. -/
def uint64vec_t.WF (v : uint64vec_t) : Prop :=
  1 ≤ v.capacity ∧ v.size ≤ v.capacity ∧ v.data.length = v.capacity

/-- The number `m` is a multiple, not below the square, of an odd prime below
`i`: the cells of `is_prime` cleared once the base sieve has reached `i`. -/
def Crossed (i m : Nat) : Prop :=
  ∃ q, Nat.Prime q ∧ q ≠ 2 ∧ q < i ∧ q ∣ m ∧ q * q ≤ m

/-- The base sieve table when the cursor of the base sieve is `i`. -/
def BaseInv (sqrtval i : Nat) (is_prime : List Nat) : Prop :=
  is_prime.length = sqrtval + 1 ∧
    ∀ m, m ≤ sqrtval → (is_prime[m]? = some 0 ↔ Crossed i m)

/-- The odd primes below `n`, ascending. -/
def oddPrimesBelow (n : Nat) : List Nat :=
  (List.range n).filter (fun q => decide (q ≠ 2 ∧ Nat.Prime q))

/-- The offset `off` of the prime `p` in the segment that starts at `low`
designates the least odd multiple of `p` that is at least `p * p` and at least
`low`. -/
def OffOK (low p off : Nat) : Prop :=
  ∃ t, low + off = p * p + 2 * p * t ∧ (t = 0 ∨ p * p + 2 * p * t < low + 2 * p)

/-- Position `x` of the segment that starts at `low` holds an odd multiple of
`p` that is at least `p * p`. -/
def Hit (low p x : Nat) : Prop := ∃ v, low + x = p * p + 2 * p * v

/-- The carried offsets: `multiples` has as many elements as `prime_arr`, and
element `idx` is the offset of prime `idx` in the segment that starts at
`low`. -/
def OffInv (low : Nat) (prime_arr multiples : uint64vec_t) : Prop :=
  multiples.size = prime_arr.size ∧
    ∀ idx, idx < prime_arr.size → ∃ p off, prime_arr.data[idx]? = some p ∧
      multiples.data[idx]? = some off ∧ OffOK low p off

/-- What both engines ask of the statement that clears position `j` of the
working sieve: on a well-formed sieve (`Good`), at an admissible position
(`Pos`) inside the segment, it succeeds, and among the admissible positions it
kills `j` and nothing else (`Live`). -/
def ClearSpec (clear : List Nat → Nat → Except Fault (List Nat))
    (Good : List Nat → Prop) (Live : List Nat → Nat → Prop) (Pos : Nat → Prop)
    (segment_size : Nat) : Prop :=
  ∀ sv j, Good sv → j < segment_size → Pos j →
    ∃ sv1, clear sv j = .ok sv1 ∧ Good sv1 ∧
      ∀ x, Pos x → x < segment_size → (Live sv1 x ↔ (Live sv x ∧ x ≠ j))

namespace Sieve

/-- Executions of the body of the segment loop, `k` times in a row, each
followed by `low += segment_size`. -/
def segment_steps (F limit sqrtval segment_size : Nat) :
    Nat → State → Except Fault State
  | 0, st => .ok st
  | k + 1, st =>
    match segment_body F limit sqrtval segment_size st with
    | .ok st1 =>
      segment_steps F limit sqrtval segment_size k { st1 with low := st1.low + segment_size }
    | .error e => .error e

/-- A working sieve of the byte-array engine has one cell per position. -/
def GoodB (segment_size : Nat) (sieve : List Nat) : Prop := sieve.length = segment_size

/-- Position `x` of the byte-array sieve is live. -/
def LiveB (sieve : List Nat) (x : Nat) : Prop := sieve[x]? ≠ some 0

/-- The state of the byte-array engine at the head of the segment loop. -/
structure Inv (limit segment_size : Nat) (st : State) : Prop where
  base : BaseInv (isqrt limit) st.i st.is_prime.data
  i_odd : st.i % 2 = 1
  i_ge : 3 ≤ st.i
  pa_wf : st.prime_arr.WF
  mu_wf : st.multiples.WF
  s_odd : st.s % 2 = 1
  s_ge : 3 ≤ st.s
  s_le : st.s ≤ isqrt limit + 3
  vals : st.prime_arr.vals = oddPrimesBelow st.s
  off : OffInv st.low st.prime_arr st.multiples
  sieve_size : st.sieve.size = segment_size
  sieve_len : st.sieve.data.length = segment_size
  n_odd : st.n % 2 = 1
  n_ge : 3 ≤ st.n
  n_le : (st.n ≤ st.low + 1 ∧ st.n ≤ limit + 2) ∨ st.n = 3
  out : st.out = 2 :: oddPrimesBelow st.n
  count : st.count = (st.out.length : Int)
  live : st.low ≤ limit → st.low ≤ st.s * st.s ∧ st.low ≤ st.n
  done : limit < st.low → limit < st.n

end Sieve


namespace BitSieve

/-- Executions of the body of the segment loop, `k` times in a row, each
followed by `low += segment_size`. -/
def segment_steps (F limit sqrtval segment_size : Nat) :
    Nat → State → Except Fault State
  | 0, st => .ok st
  | k + 1, st =>
    match segment_body F limit sqrtval segment_size st with
    | .ok st1 =>
      segment_steps F limit sqrtval segment_size k { st1 with low := st1.low + segment_size }
    | .error e => .error e

/-- A working sieve of the bit-packed engine: `segment_size` bytes. -/
def GoodP (segment_size : Nat) (sieve : List Nat) : Prop :=
  sieve.length = segment_size ∧ ∀ b, b ∈ sieve → b < 256

/-- Position `x` of the bit-packed sieve is live: bit `(x mod 16) / 2` of byte
`x / 16` is set. -/
def LiveP (sieve : List Nat) (x : Nat) : Prop :=
  ∃ b, sieve[x / 16]? = some b ∧ b.testBit (x % 16 / 2) = true

/-- The integers whose bit is counted by the engine: `1` and the odd primes, up
to `limit`. -/
def Counted (limit m : Nat) : Prop :=
  m % 2 = 1 ∧ m ≤ limit ∧ (m = 1 ∨ Nat.Prime m)

instance (limit : Nat) : DecidablePred (Counted limit) := fun m => by
  unfold Counted
  infer_instance

/-- The state of the bit-packed engine at the head of the segment loop. -/
structure Inv (limit segment_size : Nat) (st : State) : Prop where
  base : BaseInv (isqrt limit) st.i st.is_prime.data
  i_odd : st.i % 2 = 1
  i_ge : 3 ≤ st.i
  pa_wf : st.prime_arr.WF
  mu_wf : st.multiples.WF
  s_odd : st.s % 2 = 1
  s_ge : 3 ≤ st.s
  s_le : st.s ≤ isqrt limit + 3
  vals : st.prime_arr.vals = oddPrimesBelow st.s
  off : OffInv st.low st.prime_arr st.multiples
  sieve_size : st.sieve.size = segment_size
  sieve_len : st.sieve.data.length = segment_size
  low16 : st.low % 16 = 0
  count : st.count = (if limit = 1 then -1 else 0) + (Nat.count (Counted limit) st.low : Int)
  live : st.low ≤ limit → st.low ≤ st.s * st.s

end BitSieve


/-- Reference definition for the count claim: `n` is a prime by trial division,
that is `n >= 2` and no `d` with `2 <= d < n` divides `n`. -/
def trial_division_prime (n : Nat) : Bool :=
  decide (2 ≤ n) && (List.range n).all (fun d => decide (d < 2) || decide (n % d ≠ 0))

/-- Reference definition for the count claim: the number of `n <= N` that trial
division finds prime. -/
def trial_division_count (N : Nat) : Nat :=
  ((List.range (N + 1)).filter trial_division_prime).length


/-- Calls of `uint64_vector_append` in a row, one per element of the list. -/
def append_all : uint64vec_t → List Nat → Except Fault uint64vec_t
  | vector, [] => .ok vector
  | vector, x :: xs =>
    match uint64_vector_append vector x with
    | .ok w => append_all w xs
    | .error e => .error e

namespace Sieve

/-- The local `segment_size` of the byte-array engine (line 114):
`sqrtval < L1D_CACHE ? L1D_CACHE : sqrtval`. -/
def segment_size (L1D_CACHE limit : Nat) : Nat :=
  if isqrt limit < L1D_CACHE then L1D_CACHE else isqrt limit

/-- The state of the byte-array engine at the head of the segment loop when
`k` segments have been processed. -/
def segment_start (F L1D_CACHE approx_arr_size limit k : Nat) : Except Fault State :=
  segment_steps F limit (isqrt limit) (segment_size L1D_CACHE limit) k
    (init_state L1D_CACHE approx_arr_size limit)

end Sieve

namespace BitSieve

/-- The local `segment_size` of the bit-packed engine (lines 143-144):
`(sqrtval < L1D_CACHE ? L1D_CACHE : sqrtval) * 16`, a `uint64_t` product, taken
modulo `2^64`. -/
def segment_size (L1D_CACHE limit : Nat) : Nat :=
  (if isqrt limit < L1D_CACHE then L1D_CACHE else isqrt limit) * 16 % 2 ^ 64

/-- The state of the bit-packed engine at the head of the segment loop when
`k` segments have been processed. -/
def segment_start (F L1D_CACHE approx_arr_size limit k : Nat) : Except Fault State :=
  segment_steps F limit (isqrt limit) (segment_size L1D_CACHE limit) k
    (init_state L1D_CACHE approx_arr_size limit)

/-- The number of set bits among the eight bits of a byte. -/
def bit_count (b : Nat) : Nat := Nat.count (fun k => b.testBit k = true) 8

/-- The clearing statement of the bit-packed engine, made to fault at an even
offset: a run on which it agrees with `clear_bit` clears at odd offsets
only. -/
def clear_bit_odd_only (sieve : List Nat) (j : Nat) : Except Fault (List Nat) :=
  if j % 2 = 1 then clear_bit sieve j else .error .out_of_bounds

end BitSieve


/-- The values that the shared loops of one segment compute. -/
structure Sweep where
  -- The table `is_prime.data` after the base sieve loop.
  is_prime : List Nat
  -- The cursor `i` after the base sieve loop.
  i : Nat
  -- The vector `prime_arr` after the append loop.
  prime_arr : uint64vec_t
  -- The vector `multiples` after the append loop, when crossing-off begins.
  multiples : uint64vec_t
  -- The cursor `s` after the append loop.
  s : Nat
  -- The working sieve `sieve.data` after crossing-off.
  sieve : List Nat
  -- The buffer `multiples.data` after crossing-off.
  offsets : List Nat

/-- The three shared loops of the segment that starts at `low`, run as the body
of the segment loop runs them, from the table `is_prime0`, the cursors `i0` and
`s0`, the vectors `prime_arr0` and `multiples0` and the reset sieve `sieve0`,
return the values `w`. -/
structure SweepRuns (clear : List Nat → Nat → Except Fault (List Nat))
    (F limit segment_size low : Nat) (is_prime0 : List Nat) (i0 s0 : Nat)
    (prime_arr0 multiples0 : uint64vec_t) (sieve0 : List Nat) (w : Sweep) : Prop where
  run_base : base_loop F (isqrt limit) (segment_high low segment_size limit) F is_prime0 i0
    = .ok (w.is_prime, w.i)
  run_append : append_loop w.is_prime low (segment_high low segment_size limit) F
    prime_arr0 multiples0 s0 = .ok (w.prime_arr, w.multiples, w.s)
  run_cross : cross_off_loop clear F segment_size w.prime_arr F sieve0 w.multiples.data 0
    = .ok (w.sieve, w.offsets)

/-- The number `c` is the least odd multiple of `p` that is at least `p * p`
and at least `low`. -/
def LeastOddMultiple (p low c : Nat) : Prop :=
  (p ∣ c ∧ c % 2 = 1 ∧ p * p ≤ c ∧ low ≤ c) ∧
    ∀ m, p ∣ m → m % 2 = 1 → p * p ≤ m → low ≤ m → c ≤ m

/-- What holds of the values `w` computed by the shared loops of the segment
`[low, high]`. -/
structure SweepFacts (clear : List Nat → Nat → Except Fault (List Nat))
    (F limit segment_size low : Nat) (s0 : Nat)
    (prime_arr0 multiples0 : uint64vec_t) (w : Sweep) : Prop where
  pa_wf : w.prime_arr.WF
  vals : w.prime_arr.vals = oddPrimesBelow w.s
  high_lt : segment_high low segment_size limit < w.s * w.s
  sq_le : ∀ p, p ∈ w.prime_arr.vals → p * p ≤ segment_high low segment_size limit
  size_eq : w.multiples.size = w.prime_arr.size
  size_le : prime_arr0.size ≤ w.prime_arr.size
  off : OffInv low w.prime_arr w.multiples
  kept : ∀ idx, idx < prime_arr0.size → w.prime_arr.data[idx]? = prime_arr0.data[idx]? ∧
    w.multiples.data[idx]? = multiples0.data[idx]?
  appended : ∀ idx, prime_arr0.size ≤ idx → idx < w.prime_arr.size →
    ∃ p, w.prime_arr.data[idx]? = some p ∧ w.multiples.data[idx]? = some (p * p - low) ∧
      low ≤ p * p ∧ p * p ≤ segment_high low segment_size limit ∧
      usub (p * p) low = .ok (p * p - low)
  carried : ∀ idx, idx < w.prime_arr.size →
    ∃ p off sieveA sieveB j, w.prime_arr.data[idx]? = some p ∧
      w.multiples.data[idx]? = some off ∧
      clear_loop clear segment_size (p * 2) F sieveA off = .ok (sieveB, j) ∧
      segment_size ≤ j ∧ usub j segment_size = .ok (j - segment_size) ∧
      w.offsets[idx]? = some (j - segment_size) ∧
      ∃ u, j = off + p * 2 * u ∧ (u = 0 ∨ j < segment_size + p * 2)
  s_mono : s0 ≤ w.s
  s_le : w.s ≤ isqrt limit + 3
  mu_len : w.prime_arr.size ≤ w.multiples.data.length


/-- The three shared loops of one segment, run in the order of the body of the
segment loop (base sieve, append, crossing-off) from the locals at the head of
the loop and the reset sieve. -/
def sweep_segment (clear : List Nat → Nat → Except Fault (List Nat))
    (F limit segment_size low : Nat) (is_prime : List Nat) (i s : Nat)
    (prime_arr multiples : uint64vec_t) (sieve0 : List Nat) : Except Fault Sweep :=
  let high := segment_high low segment_size limit
  match base_loop F (isqrt limit) high F is_prime i with
  | .error e => .error e
  | .ok (ip, i1) =>
    match append_loop ip low high F prime_arr multiples s with
    | .error e => .error e
    | .ok (pa, mu, s1) =>
      match cross_off_loop clear F segment_size pa F sieve0 mu.data 0 with
      | .error e => .error e
      | .ok (sv, md) =>
        .ok { is_prime := ip, i := i1, prime_arr := pa, multiples := mu, s := s1,
              sieve := sv, offsets := md }

namespace Sieve

/-- The values that the shared loops compute in segment number `k` of a run of
the byte-array engine (lines 122-151, from the state at the head of the
loop). -/
def segment_sweep (F L1D_CACHE approx_arr_size limit k : Nat) : Except Fault Sweep :=
  match segment_start F L1D_CACHE approx_arr_size limit k with
  | .error e => .error e
  | .ok st =>
    match memset st.sieve.data 1 st.sieve.size with
    | .error e => .error e
    | .ok sv0 =>
      sweep_segment clear_flag F limit (segment_size L1D_CACHE limit) st.low st.is_prime.data
        st.i st.s st.prime_arr st.multiples sv0

end Sieve

namespace BitSieve

/-- The values that the shared loops compute in segment number `k` of a run of
the bit-packed engine (lines 151-181, from the state at the head of the loop),
for a given clearing statement. -/
def segment_sweep_with (clear : List Nat → Nat → Except Fault (List Nat))
    (F L1D_CACHE approx_arr_size limit k : Nat) : Except Fault Sweep :=
  match segment_start F L1D_CACHE approx_arr_size limit k with
  | .error e => .error e
  | .ok st =>
    match memset st.sieve.data 0xff st.sieve.size with
    | .error e => .error e
    | .ok sv0 =>
      sweep_segment clear F limit (segment_size L1D_CACHE limit) st.low st.is_prime.data
        st.i st.s st.prime_arr st.multiples sv0

/-- The values that the shared loops compute in segment number `k` of a run of
the bit-packed engine. -/
def segment_sweep (F L1D_CACHE approx_arr_size limit k : Nat) : Except Fault Sweep :=
  segment_sweep_with clear_bit F L1D_CACHE approx_arr_size limit k

/-- The working sieve of segment number `k` of a run of the bit-packed engine
when the harvest loop begins: crossed off and tail masked (lines 151-186). -/
def segment_masked (F L1D_CACHE approx_arr_size limit k : Nat) : Except Fault (List Nat) :=
  match segment_start F L1D_CACHE approx_arr_size limit k with
  | .error e => .error e
  | .ok st =>
    match segment_sweep F L1D_CACHE approx_arr_size limit k with
    | .error e => .error e
    | .ok w =>
      let high := segment_high st.low (segment_size L1D_CACHE limit) limit
      match usub high st.low with
      | .error e => .error e
      | .ok width => mask_tail limit high (width / 16 + 1) w.sieve

end BitSieve


/-! ## Primitives -/

theorem load_eq_ok {d : List Nat} {i v : Nat} : load d i = .ok v ↔ d[i]? = some v := by
  unfold load
  cases h : d[i]? <;> simp

theorem load_of_lt {d : List Nat} {i : Nat} (h : i < d.length) :
    ∃ v, load d i = .ok v ∧ d[i]? = some v := by
  refine ⟨d[i], ?_, List.getElem?_eq_getElem h⟩
  rw [load_eq_ok]; exact List.getElem?_eq_getElem h

theorem store_of_lt {d : List Nat} {i : Nat} (v : Nat) (h : i < d.length) :
    store d i v = .ok (d.set i v) := by
  simp [store, h]

theorem usub_of_le {a b : Nat} (h : b ≤ a) : usub a b = .ok (a - b) := by
  simp [usub, h]

theorem isqrt_from_spec (n : Nat) : ∀ r, isqrt_from r n * isqrt_from r n ≤ n ∧
    ∀ m, m ≤ r → m * m ≤ n → m ≤ isqrt_from r n := by
  intro r
  induction r with
  | zero => simp [isqrt_from]
  | succ r ih =>
    unfold isqrt_from
    split
    · rename_i h
      exact ⟨h, fun m hm _ => hm⟩
    · rename_i h
      refine ⟨ih.1, fun m hm hmm => ?_⟩
      rcases Nat.lt_or_ge m (r + 1) with hlt | hge
      · exact ih.2 m (by omega) hmm
      · have : m = r + 1 := by omega
        subst this; exact absurd hmm h

theorem le_isqrt_iff {m n : Nat} : m ≤ isqrt n ↔ m * m ≤ n := by
  have hs := isqrt_from_spec n n
  constructor
  · intro h
    exact le_trans (Nat.mul_self_le_mul_self h) hs.1
  · intro h
    refine hs.2 m ?_ h
    rcases Nat.eq_zero_or_pos m with h0 | hpos
    · omega
    · exact le_trans (Nat.le_mul_of_pos_left m hpos) h

theorem isqrt_eq_sqrt (n : Nat) : isqrt n = Nat.sqrt n := by
  apply le_antisymm
  · rw [Nat.le_sqrt, ← le_isqrt_iff]
  · rw [le_isqrt_iff, ← Nat.le_sqrt]

theorem isqrt_pos {n : Nat} (h : 1 ≤ n) : 1 ≤ isqrt n := by
  rw [le_isqrt_iff]; omega

theorem isqrt_le (n : Nat) : isqrt n ≤ n := by
  rw [isqrt_eq_sqrt]; exact Nat.sqrt_le_self n

/-! ## The growable array -/

theorem create_uint64_vector_WF {c : Nat} (h : 1 ≤ c) : (create_uint64_vector c).WF := by
  simp [create_uint64_vector, uint64vec_t.WF, h]

theorem create_uint64_vector_vals (c : Nat) : (create_uint64_vector c).vals = [] := by
  simp [create_uint64_vector, uint64vec_t.vals]

/-- Appending to a well-formed array succeeds, keeps it well formed, writes the
value at index `size` and changes no cell below. -/
theorem append_spec (v : uint64vec_t) (x : Nat) (h : v.WF) :
    ∃ w, uint64_vector_append v x = .ok w ∧ w.WF ∧ w.size = v.size + 1 ∧
      w.data[v.size]? = some x ∧ (∀ i, i < v.size → w.data[i]? = v.data[i]?) ∧
      (w.capacity = if v.size + 1 < v.capacity then v.capacity else v.capacity * 2) := by
  obtain ⟨h1, h2, h3⟩ := h
  unfold uint64_vector_append
  split
  · rename_i hlt
    have hs : v.size < v.data.length := by omega
    rw [store_of_lt x hs]
    refine ⟨_, rfl, ⟨h1, by simp; omega, by simp [h3]⟩, rfl, ?_, ?_, ?_⟩
    · simp [List.getElem?_set_self hs]
    · intro i hi
      simp only
      rw [List.getElem?_set_ne (by omega)]
    · simp [hlt]
  · rename_i hge
    have hlen : (realloc v.data (v.capacity * 2)).length = v.capacity * 2 := by
      simp [realloc, List.length_take, h3]; omega
    have hs : v.size < (realloc v.data (v.capacity * 2)).length := by omega
    simp only
    rw [store_of_lt x hs]
    refine ⟨_, rfl, ⟨by simp; omega, by simp; omega, by simp [hlen]⟩, rfl, ?_, ?_, ?_⟩
    · simp [List.getElem?_set_self hs]
    · intro i hi
      simp only
      rw [List.getElem?_set_ne (by omega)]
      unfold realloc
      rw [List.getElem?_append_left (by simp [List.length_take, h3]; omega)]
      rw [List.getElem?_take]; simp; omega
    · simp [hge]

theorem vals_getElem? (v : uint64vec_t) (i : Nat) (hi : i < v.size) :
    v.vals[i]? = v.data[i]? := by
  simp [uint64vec_t.vals, List.getElem?_take, hi]

theorem vals_length (v : uint64vec_t) (h : v.WF) : v.vals.length = v.size := by
  simp [uint64vec_t.vals, List.length_take]; have := h.2.1; have := h.2.2; omega

theorem append_vals (v w : uint64vec_t) (x : Nat) (h : v.WF) (hw : w.WF)
    (hsize : w.size = v.size + 1) (hx : w.data[v.size]? = some x)
    (hfr : ∀ i, i < v.size → w.data[i]? = v.data[i]?) : w.vals = v.vals ++ [x] := by
  apply List.ext_getElem?
  intro i
  rcases Nat.lt_trichotomy i v.size with hlt | heq | hgt
  · rw [vals_getElem? w i (by omega), hfr i hlt,
      List.getElem?_append_left (by rw [vals_length v h]; exact hlt), vals_getElem? v i hlt]
  · subst heq
    rw [vals_getElem? w _ (by omega), hx,
      List.getElem?_append_right (by rw [vals_length v h])]
    simp [vals_length v h]
  · rw [List.getElem?_eq_none (by rw [vals_length w hw]; omega),
      List.getElem?_eq_none (by simp [vals_length v h]; omega)]


/-! ## Number theory of the base sieve -/

theorem odd_prime_ge_three {q : Nat} (hq : Nat.Prime q) (h2 : q ≠ 2) : 3 ≤ q ∧ q % 2 = 1 := by
  have := hq.two_le
  rcases hq.eq_two_or_odd with h | h
  · exact absurd h h2
  · omega

theorem prime_of_odd_ne_two {q : Nat} (hq : Nat.Prime q) (hodd : q % 2 = 1) : q ≠ 2 := by
  intro h; subst h; omega

/-- An odd composite number at least `3` has an odd prime factor whose square
does not exceed it. -/
theorem exists_odd_prime_factor {m : Nat} (hodd : m % 2 = 1) (h3 : 3 ≤ m)
    (hnp : ¬ Nat.Prime m) :
    ∃ q, Nat.Prime q ∧ q ≠ 2 ∧ q ∣ m ∧ q * q ≤ m := by
  refine ⟨m.minFac, Nat.minFac_prime (by omega), ?_, Nat.minFac_dvd m, ?_⟩
  · intro h2
    have hd := Nat.minFac_dvd m
    rw [h2] at hd
    omega
  · have := Nat.minFac_sq_le_self (by omega : 0 < m) hnp
    simpa [sq] using this

theorem crossed_iff_not_prime {i s : Nat} (hodd : s % 2 = 1) (h3 : 3 ≤ s) (hsi : s ≤ i) :
    Crossed i s ↔ ¬ Nat.Prime s := by
  constructor
  · rintro ⟨q, hq, _, _, hdvd, hsq⟩ hs
    rcases hs.eq_one_or_self_of_dvd q hdvd with h | h
    · exact hq.one_lt.ne' h
    · subst h
      have := hq.two_le
      nlinarith
  · intro hnp
    obtain ⟨q, hq, hq2, hdvd, hsq⟩ := exists_odd_prime_factor hodd h3 hnp
    refine ⟨q, hq, hq2, ?_, hdvd, hsq⟩
    have := hq.two_le
    nlinarith

theorem crossed_succ {i m : Nat} (hodd : i % 2 = 1) :
    Crossed (i + 2) m ↔ Crossed i m ∨ (Nat.Prime i ∧ i ∣ m ∧ i * i ≤ m) := by
  constructor
  · rintro ⟨q, hq, hq2, hlt, hdvd, hsq⟩
    have hq' := odd_prime_ge_three hq hq2
    rcases Nat.lt_or_ge q i with h | h
    · exact Or.inl ⟨q, hq, hq2, h, hdvd, hsq⟩
    · have : q = i := by omega
      subst this
      exact Or.inr ⟨hq, hdvd, hsq⟩
  · rintro (⟨q, hq, hq2, hlt, hdvd, hsq⟩ | ⟨hp, hdvd, hsq⟩)
    · exact ⟨q, hq, hq2, by omega, hdvd, hsq⟩
    · exact ⟨i, hp, prime_of_odd_ne_two hp hodd, by omega, hdvd, hsq⟩

theorem crossed_mono {i j m : Nat} (h : i ≤ j) : Crossed i m → Crossed j m := by
  rintro ⟨q, hq, hq2, hlt, hdvd, hsq⟩
  exact ⟨q, hq, hq2, by omega, hdvd, hsq⟩

theorem multiple_from_square {i m : Nat} :
    (∃ t, m = i * i + i * t) ↔ (i ∣ m ∧ i * i ≤ m) := by
  constructor
  · rintro ⟨t, rfl⟩
    exact ⟨⟨i + t, by ring⟩, by omega⟩
  · rintro ⟨⟨r, rfl⟩, hsq⟩
    rcases Nat.eq_zero_or_pos i with h0 | hpos
    · subst h0; exact ⟨0, by simp⟩
    · have hr : i ≤ r := Nat.le_of_mul_le_mul_left hsq hpos
      exact ⟨r - i, by rw [← Nat.mul_add]; congr 1; omega⟩

/-! ## The base sieve loops -/

theorem mark_loop_spec (sqrtval i : Nat) (hi : 0 < i) :
    ∀ fuel d j, d.length = sqrtval + 1 → 1 ≤ fuel → sqrtval + 2 ≤ fuel + j →
      ∃ d1, mark_loop sqrtval i fuel d j = .ok d1 ∧ d1.length = sqrtval + 1 ∧
        ∀ m, d1[m]? = some 0 ↔ (d[m]? = some 0 ∨ (m ≤ sqrtval ∧ ∃ t, m = j + i * t)) := by
  intro fuel
  induction fuel with
  | zero => intro d j _ h; omega
  | succ fuel ih =>
    intro d j hlen _ hfuel
    unfold mark_loop
    split
    · rename_i hj
      rw [store_of_lt 0 (by omega : j < d.length)]
      simp only
      obtain ⟨d1, hrun, hlen1, hspec⟩ :=
        ih (d.set j 0) (j + i) (by simp [hlen]) (by omega) (by omega)
      refine ⟨d1, hrun, hlen1, fun m => ?_⟩
      rw [hspec m, List.getElem?_set]
      constructor
      · rintro (h | ⟨hm, t, ht⟩)
        · split at h
          · rename_i hjm
            subst hjm
            exact Or.inr ⟨hj, 0, by simp⟩
          · exact Or.inl h
        · exact Or.inr ⟨hm, t + 1, by rw [ht]; ring⟩
      · rintro (h | ⟨hm, t, ht⟩)
        · left
          split
          · simp; omega
          · exact h
        · rcases t with _ | t
          · left
            have : j = m := by simpa using ht.symm
            simp [this]; omega
          · right
            exact ⟨hm, t, by rw [ht]; ring⟩
    · rename_i hj
      refine ⟨d, rfl, hlen, fun m => ?_⟩
      constructor
      · exact Or.inl
      · rintro (h | ⟨hm, t, ht⟩)
        · exact h
        · exfalso
          have : j ≤ m := by rw [ht]; exact Nat.le_add_right _ _
          omega

theorem base_loop_spec (F sqrtval high : Nat) (hF : sqrtval + 2 ≤ F)
    (hsq : ∀ x, x * x ≤ high → x ≤ sqrtval) :
    ∀ fuel d i, BaseInv sqrtval i d → i % 2 = 1 → 3 ≤ i → 1 ≤ fuel →
      sqrtval + 2 ≤ fuel + i →
      ∃ d1 i1, base_loop F sqrtval high fuel d i = .ok (d1, i1) ∧ BaseInv sqrtval i1 d1 ∧
        i1 % 2 = 1 ∧ i ≤ i1 ∧ high < i1 * i1 ∧ (i1 = i ∨ (i1 - 2) * (i1 - 2) ≤ high) := by
  intro fuel
  induction fuel with
  | zero => intro d i _ _ _ h; omega
  | succ fuel ih =>
    intro d i hinv hodd h3 _ hfuel
    unfold base_loop
    split
    · rename_i hii
      have hile : i ≤ sqrtval := hsq i hii
      obtain ⟨v, hload, hget⟩ := load_of_lt (by rw [hinv.1]; omega : i < d.length)
      rw [hload]
      simp only
      have hv : v ≠ 0 ↔ Nat.Prime i := by
        have h1 := hinv.2 i hile
        rw [hget, crossed_iff_not_prime hodd h3 le_rfl] at h1
        constructor
        · intro hv0
          by_contra hnp
          exact hv0 (by simpa using h1.2 hnp)
        · intro hp hv0
          subst hv0
          exact h1.1 rfl hp
      have hstep : ∀ d2, BaseInv sqrtval (i + 2) d2 →
          ∃ d1 i1, base_loop F sqrtval high fuel d2 (i + 2) = .ok (d1, i1) ∧
            BaseInv sqrtval i1 d1 ∧ i1 % 2 = 1 ∧ i ≤ i1 ∧ high < i1 * i1 ∧
            (i1 = i ∨ (i1 - 2) * (i1 - 2) ≤ high) := by
        intro d2 hinv2
        obtain ⟨d1, i1, hrun, hb, ho, hle, hhi, hlast⟩ :=
          ih d2 (i + 2) hinv2 (by omega) (by omega) (by omega) (by omega)
        refine ⟨d1, i1, hrun, hb, ho, by omega, hhi, Or.inr ?_⟩
        rcases hlast with h | h
        · subst h; simpa using hii
        · exact h
      split
      · rename_i hv0
        have hp : Nat.Prime i := hv.1 hv0
        obtain ⟨d2, hrun, hlen2, hspec⟩ :=
          mark_loop_spec sqrtval i (by omega) F d (i * i) hinv.1 (by omega) (by omega)
        rw [hrun]
        simp only
        apply hstep
        refine ⟨hlen2, fun m hm => ?_⟩
        rw [hspec m, hinv.2 m hm, crossed_succ hodd, multiple_from_square]
        constructor
        · rintro (h | ⟨_, h1, h2⟩)
          · exact Or.inl h
          · exact Or.inr ⟨hp, h1, h2⟩
        · rintro (h | ⟨_, h1, h2⟩)
          · exact Or.inl h
          · exact Or.inr ⟨hm, h1, h2⟩
      · rename_i hv0
        have hnp : ¬ Nat.Prime i := fun hp => hv0 (hv.2 hp)
        apply hstep
        refine ⟨hinv.1, fun m hm => ?_⟩
        rw [hinv.2 m hm, crossed_succ hodd]
        constructor
        · exact Or.inl
        · rintro (h | ⟨hp, _⟩)
          · exact h
          · exact absurd hp hnp
    · rename_i hii
      exact ⟨d, i, rfl, hinv, hodd, le_rfl, by omega, Or.inl rfl⟩


/-! ## The list of sieving primes -/

theorem mem_oddPrimesBelow {n p : Nat} :
    p ∈ oddPrimesBelow n ↔ p < n ∧ p ≠ 2 ∧ Nat.Prime p := by
  simp [oddPrimesBelow]

theorem oddPrimesBelow_succ2 {s : Nat} (hodd : s % 2 = 1) :
    oddPrimesBelow (s + 2) = oddPrimesBelow s ++ (if Nat.Prime s then [s] else []) := by
  have hs2 : s ≠ 2 := by omega
  have heven : ¬ (s + 1 ≠ 2 ∧ Nat.Prime (s + 1)) := by
    rintro ⟨h2, hp⟩
    have := (odd_prime_ge_three hp h2).2
    omega
  have hA : List.filter (fun q => decide (q ≠ 2 ∧ Nat.Prime q)) [s + 1] = [] := by
    rw [List.filter_eq_nil_iff]
    intro a ha
    simp only [List.mem_singleton] at ha
    subst ha
    simpa using heven
  have hB : List.filter (fun q => decide (q ≠ 2 ∧ Nat.Prime q)) [s] =
      if Nat.Prime s then [s] else [] := by
    by_cases hp : Nat.Prime s
    · simp [List.filter, hp, hs2]
    · simp [List.filter, hp]
  unfold oddPrimesBelow
  rw [show s + 2 = (s + 1) + 1 from rfl, List.range_succ, List.range_succ, List.filter_append,
    List.filter_append, hA, hB, List.append_nil]

theorem oddPrimesBelow_three : oddPrimesBelow 3 = [] := by
  have : ¬ Nat.Prime 0 := by decide
  have : ¬ Nat.Prime 1 := by decide
  simp [oddPrimesBelow, List.range_succ, List.filter, *]

theorem oddPrimesBelow_length_le (n : Nat) : (oddPrimesBelow n).length ≤ n := by
  unfold oddPrimesBelow
  exact le_trans (List.length_filter_le _ _) (by simp)

theorem mem_vals_iff (v : uint64vec_t) (h : v.WF) (p : Nat) :
    p ∈ v.vals ↔ ∃ idx, idx < v.size ∧ v.data[idx]? = some p := by
  rw [List.mem_iff_getElem?]
  constructor
  · rintro ⟨n, hn⟩
    have hlt : n < v.size := by
      by_contra hge
      rw [List.getElem?_eq_none (by rw [vals_length v h]; omega)] at hn
      cases hn
    exact ⟨n, hlt, by rw [← vals_getElem? v n hlt]; exact hn⟩
  · rintro ⟨n, hlt, hn⟩
    exact ⟨n, by rw [vals_getElem? v n hlt]; exact hn⟩

/-! ## The loop that appends the sieving primes -/

theorem append_loop_spec (d : List Nat) (sqrtval i low high : Nat)
    (hbase : BaseInv sqrtval i d) (hhi : high < i * i)
    (hsq : ∀ x, x * x ≤ high → x ≤ sqrtval) :
    ∀ fuel pa mu s, pa.WF → mu.WF → s % 2 = 1 → 3 ≤ s → low ≤ s * s →
      pa.vals = oddPrimesBelow s → OffInv low pa mu → 1 ≤ fuel → sqrtval + 2 ≤ fuel + s →
      ∃ pa1 mu1 s1, append_loop d low high fuel pa mu s = .ok (pa1, mu1, s1) ∧
        pa1.WF ∧ mu1.WF ∧ s1 % 2 = 1 ∧ s ≤ s1 ∧ high < s1 * s1 ∧
        (s1 = s ∨ (s1 - 2) * (s1 - 2) ≤ high) ∧
        pa1.vals = oddPrimesBelow s1 ∧ OffInv low pa1 mu1 := by
  intro fuel
  induction fuel with
  | zero => intro pa mu s _ _ _ _ _ _ _ h; omega
  | succ fuel ih =>
    intro pa mu s hpa hmu hodd h3 hlow hvals hoff _ hfuel
    unfold append_loop
    split
    · rename_i hss
      have hsle : s ≤ sqrtval := hsq s hss
      have hsi : s ≤ i := by
        by_contra hcon
        have : i * i ≤ s * s := Nat.mul_self_le_mul_self (by omega)
        omega
      obtain ⟨v, hload, hget⟩ := load_of_lt (by rw [hbase.1]; omega : s < d.length)
      rw [hload]
      simp only
      have hv : v ≠ 0 ↔ Nat.Prime s := by
        have h1 := hbase.2 s hsle
        rw [hget, crossed_iff_not_prime hodd h3 hsi] at h1
        constructor
        · intro hv0
          by_contra hnp
          exact hv0 (by simpa using h1.2 hnp)
        · intro hp hv0
          subst hv0
          exact h1.1 rfl hp
      have hlow2 : low ≤ (s + 2) * (s + 2) := by nlinarith
      have hstep : ∀ pa2 mu2, pa2.WF → mu2.WF → pa2.vals = oddPrimesBelow (s + 2) →
          OffInv low pa2 mu2 →
          ∃ pa1 mu1 s1, append_loop d low high fuel pa2 mu2 (s + 2) = .ok (pa1, mu1, s1) ∧
            pa1.WF ∧ mu1.WF ∧ s1 % 2 = 1 ∧ s ≤ s1 ∧ high < s1 * s1 ∧
            (s1 = s ∨ (s1 - 2) * (s1 - 2) ≤ high) ∧
            pa1.vals = oddPrimesBelow s1 ∧ OffInv low pa1 mu1 := by
        intro pa2 mu2 hpa2 hmu2 hvals2 hoff2
        obtain ⟨pa1, mu1, s1, hrun, h1, h2, h4, h5, h6, h7, h8, h9⟩ :=
          ih pa2 mu2 (s + 2) hpa2 hmu2 (by omega) (by omega) hlow2 hvals2 hoff2
            (by omega) (by omega)
        refine ⟨pa1, mu1, s1, hrun, h1, h2, h4, by omega, h6, Or.inr ?_, h8, h9⟩
        rcases h7 with h | h
        · subst h; simpa using hss
        · exact h
      split
      · rename_i hv0
        have hp : Nat.Prime s := hv.1 hv0
        obtain ⟨pa2, hrun1, hwf1, hsz1, hx1, hfr1, _⟩ := append_spec pa s hpa
        rw [hrun1]
        simp only
        rw [usub_of_le hlow]
        simp only
        obtain ⟨mu2, hrun2, hwf2, hsz2, hx2, hfr2, _⟩ := append_spec mu (s * s - low) hmu
        rw [hrun2]
        simp only
        apply hstep pa2 mu2 hwf1 hwf2
        · rw [append_vals pa pa2 s hpa hwf1 hsz1 hx1 hfr1, hvals, oddPrimesBelow_succ2 hodd]
          simp [hp]
        · refine ⟨by rw [hsz1, hsz2, hoff.1], fun idx hidx => ?_⟩
          rcases Nat.lt_or_ge idx pa.size with hlt | hge
          · obtain ⟨p, off, hp1, hm1, hok⟩ := hoff.2 idx hlt
            exact ⟨p, off, by rw [hfr1 idx hlt]; exact hp1,
              by rw [hfr2 idx (by rw [hoff.1]; exact hlt)]; exact hm1, hok⟩
          · have hidx' : idx = pa.size := by omega
            subst hidx'
            refine ⟨s, s * s - low, hx1, by rw [← hoff.1]; exact hx2, 0, by omega, Or.inl rfl⟩
      · rename_i hv0
        have hnp : ¬ Nat.Prime s := fun hp => hv0 (hv.2 hp)
        apply hstep pa mu hpa hmu _ hoff
        rw [hvals, oddPrimesBelow_succ2 hodd]
        simp [hnp]
    · rename_i hss
      exact ⟨pa, mu, s, rfl, hpa, hmu, hodd, le_rfl, by omega, Or.inl rfl, hvals, hoff⟩


/-! ## Crossing off, for any clearing statement -/

theorem hit_iff_step {low p off x : Nat} (hoff : OffOK low p off) :
    (∃ w, x = off + p * 2 * w) ↔ Hit low p x := by
  obtain ⟨t, ht, hmin⟩ := hoff
  constructor
  · rintro ⟨w, rfl⟩
    exact ⟨t + w, by linarith⟩
  · rintro ⟨v, hv⟩
    have htv : t ≤ v := by
      rcases hmin with h0 | hlt
      · omega
      · by_contra hcon
        have h1 : 2 * p * (v + 1) ≤ 2 * p * t := Nat.mul_le_mul_left _ (by omega)
        nlinarith
    obtain ⟨w, rfl⟩ : ∃ w, v = t + w := ⟨v - t, by omega⟩
    exact ⟨w, by linarith⟩

theorem offok_carry {low seg p off u : Nat} (hoff : OffOK low p off)
    (hge : seg ≤ off + p * 2 * u) (hlast : u = 0 ∨ off + p * 2 * u < seg + p * 2) :
    OffOK (low + seg) p (off + p * 2 * u - seg) := by
  obtain ⟨t, ht, hmin⟩ := hoff
  refine ⟨t + u, ?_, ?_⟩
  · have : low + seg + (off + p * 2 * u - seg) = low + off + p * 2 * u := by omega
    rw [this, ht]; ring
  · rcases hlast with h0 | hlt
    · subst h0
      rcases hmin with h0 | hlt
      · exact Or.inl (by omega)
      · right; simp only [Nat.add_zero]; omega
    · right
      have : p * p + 2 * p * (t + u) = low + off + p * 2 * u := by rw [ht]; ring
      rw [this]; omega

section CrossOff

variable (clear : List Nat → Nat → Except Fault (List Nat))
variable (Good : List Nat → Prop) (Live : List Nat → Nat → Prop) (Pos : Nat → Prop)
variable (segment_size : Nat)

theorem clear_loop_spec (hclear : ClearSpec clear Good Live Pos segment_size)
    (k : Nat) (hk : 0 < k) (hpos : ∀ x, Pos x → Pos (x + k)) :
    ∀ fuel sv j, Good sv → Pos j → 1 ≤ fuel → segment_size + 1 ≤ fuel + j →
      ∃ sv1 u, clear_loop clear segment_size k fuel sv j = .ok (sv1, j + k * u) ∧ Good sv1 ∧
        segment_size ≤ j + k * u ∧ (u = 0 ∨ j + k * u < segment_size + k) ∧
        ∀ x, Pos x → x < segment_size → (Live sv1 x ↔ (Live sv x ∧ ¬ ∃ w, x = j + k * w)) := by
  intro fuel
  induction fuel with
  | zero => intro sv j _ _ h; omega
  | succ fuel ih =>
    intro sv j hgood hpj _ hfuel
    unfold clear_loop
    split
    · rename_i hj
      obtain ⟨sv2, hrun, hgood2, hlive2⟩ := hclear sv j hgood hj hpj
      rw [hrun]
      simp only
      obtain ⟨sv1, u, hrun1, hgood1, hge, hlast, hlive1⟩ :=
        ih sv2 (j + k) hgood2 (hpos j hpj) (by omega) (by omega)
      have hju : j + k + k * u = j + k * (u + 1) := by ring
      refine ⟨sv1, u + 1, by rw [hrun1, hju], hgood1, by omega, Or.inr ?_, fun x hx hxs => ?_⟩
      · rcases hlast with h0 | hlt
        · subst h0; simp; omega
        · omega
      · rw [hlive1 x hx hxs, hlive2 x hx hxs]
        constructor
        · rintro ⟨⟨hl, hne⟩, hno⟩
          refine ⟨hl, ?_⟩
          rintro ⟨w, hw⟩
          rcases w with _ | w
          · exact hne (by simpa using hw)
          · exact hno ⟨w, by rw [hw]; ring⟩
        · rintro ⟨hl, hno⟩
          refine ⟨⟨hl, ?_⟩, ?_⟩
          · intro hxj
            exact hno ⟨0, by simpa using hxj⟩
          · rintro ⟨w, hw⟩
            exact hno ⟨w + 1, by rw [hw]; ring⟩
    · rename_i hj
      refine ⟨sv, 0, by simp, hgood, by omega, Or.inl rfl, fun x hx hxs => ?_⟩
      constructor
      · intro hl
        refine ⟨hl, ?_⟩
        rintro ⟨w, hw⟩
        have : j ≤ x := by rw [hw]; exact Nat.le_add_right _ _
        omega
      · exact fun h => h.1

theorem cross_off_loop_spec (hclear : ClearSpec clear Good Live Pos segment_size)
    (F low : Nat) (pa : uint64vec_t) (hF : segment_size + 1 ≤ F)
    (hpos : ∀ x p, Pos x → Pos (x + p * 2)) :
    ∀ fuel sv md t, Good sv → t ≤ pa.size → pa.size + 1 ≤ fuel + t →
      (∀ idx, t ≤ idx → idx < pa.size → ∃ p off, pa.data[idx]? = some p ∧
        md[idx]? = some off ∧ 0 < p ∧ Pos off ∧ OffOK low p off) →
      ∃ sv1 md1, cross_off_loop clear F segment_size pa fuel sv md t = .ok (sv1, md1) ∧
        Good sv1 ∧ md1.length = md.length ∧
        (∀ idx, idx < t ∨ pa.size ≤ idx → md1[idx]? = md[idx]?) ∧
        (∀ idx, t ≤ idx → idx < pa.size → ∃ p off, pa.data[idx]? = some p ∧
          md1[idx]? = some off ∧ OffOK (low + segment_size) p off) ∧
        ∀ x, Pos x → x < segment_size →
          (Live sv1 x ↔ (Live sv x ∧
            ¬ ∃ idx p, t ≤ idx ∧ idx < pa.size ∧ pa.data[idx]? = some p ∧ Hit low p x)) := by
  intro fuel
  induction fuel with
  | zero => intro sv md t _ _ h; omega
  | succ fuel ih =>
    intro sv md t hgood ht hfuel hpre
    unfold cross_off_loop
    split
    · rename_i hlt
      obtain ⟨p, off, hp, hm, hp0, hposoff, hok⟩ := hpre t le_rfl hlt
      rw [load_eq_ok.2 hm]
      simp only
      rw [load_eq_ok.2 hp]
      simp only
      obtain ⟨sv2, u, hrun, hgood2, hge, hlast, hlive2⟩ :=
        clear_loop_spec clear Good Live Pos segment_size hclear (p * 2) (by omega)
          (fun x hx => hpos x p hx) F sv off hgood hposoff (by omega) (by omega)
      rw [hrun]
      simp only
      rw [usub_of_le hge]
      simp only
      have htlen : t < md.length := by
        by_contra hcon
        rw [List.getElem?_eq_none (by omega)] at hm
        cases hm
      rw [store_of_lt _ htlen]
      simp only
      obtain ⟨sv1, md1, hrun1, hgood1, hlen1, hframe1, hoff1, hlive1⟩ :=
        ih sv2 (md.set t (off + p * 2 * u - segment_size)) (t + 1) hgood2 (by omega) (by omega)
          (by
            intro idx hge1 hlt1
            obtain ⟨q, o, h1, h2, h3, h4, h5⟩ := hpre idx (by omega) hlt1
            exact ⟨q, o, h1, by rw [List.getElem?_set_ne (by omega)]; exact h2, h3, h4, h5⟩)
      refine ⟨sv1, md1, hrun1, hgood1, by rw [hlen1]; simp, ?_, ?_, ?_⟩
      · intro idx hidx
        rw [hframe1 idx (by omega), List.getElem?_set_ne (by omega)]
      · intro idx hge1 hlt1
        rcases Nat.eq_or_lt_of_le hge1 with heq | hgt
        · subst heq
          refine ⟨p, off + p * 2 * u - segment_size, hp, ?_, offok_carry hok hge hlast⟩
          rw [hframe1 t (by omega), List.getElem?_set_self htlen]
        · exact hoff1 idx hgt hlt1
      · intro x hx hxs
        rw [hlive1 x hx hxs, hlive2 x hx hxs, hit_iff_step hok]
        constructor
        · rintro ⟨⟨hl, hnh⟩, hno⟩
          refine ⟨hl, ?_⟩
          rintro ⟨idx, q, hge1, hlt1, hq, hhit⟩
          rcases Nat.eq_or_lt_of_le hge1 with heq | hgt
          · subst heq
            rw [hp] at hq
            cases hq
            exact hnh hhit
          · exact hno ⟨idx, q, hgt, hlt1, hq, hhit⟩
        · rintro ⟨hl, hno⟩
          refine ⟨⟨hl, fun hhit => hno ⟨t, p, le_rfl, hlt, hp, hhit⟩⟩, ?_⟩
          rintro ⟨idx, q, hge1, hlt1, hq, hhit⟩
          exact hno ⟨idx, q, by omega, hlt1, hq, hhit⟩
    · rename_i hge
      refine ⟨sv, md, rfl, hgood, rfl, fun _ _ => rfl, fun idx h1 h2 => by omega, fun x _ _ => ?_⟩
      constructor
      · intro hl
        refine ⟨hl, ?_⟩
        rintro ⟨idx, q, h1, h2, _⟩
        omega
      · exact fun h => h.1

end CrossOff


/-! ## What survives the crossing-off of a segment -/

theorem segment_high_eq (low segment_size limit : Nat) (hseg : 1 ≤ segment_size) :
    segment_high low segment_size limit = min (low + segment_size - 1) limit := by
  unfold segment_high
  have h0 : low + segment_size ≠ 0 := by omega
  simp only [h0, if_false]
  split <;> omega

theorem not_hit_iff (low x s high : Nat) (hodd : (low + x) % 2 = 1) (hle : low + x ≤ high)
    (hhigh : high < s * s) :
    (¬ ∃ p, p ∈ oddPrimesBelow s ∧ Hit low p x) ↔ (low + x = 1 ∨ Nat.Prime (low + x)) := by
  unfold Hit
  generalize low + x = m at hodd hle ⊢
  constructor
  · intro hno
    by_contra hcon
    push_neg at hcon
    obtain ⟨hm1, hnp⟩ := hcon
    obtain ⟨q, hq, hq2, ⟨r, hr⟩, hsq⟩ := exists_odd_prime_factor hodd (by omega) hnp
    have hqpos : 0 < q := hq.pos
    have hqr : q ≤ r := by
      rw [hr] at hsq
      exact Nat.le_of_mul_le_mul_left hsq hqpos
    have hrodd : r % 2 = 1 := by
      rcases Nat.mod_two_eq_zero_or_one r with h0 | h1
      · exfalso
        have : (q * r) % 2 = 0 := by rw [Nat.mul_mod, h0]; simp
        rw [← hr] at this
        omega
      · exact h1
    have hqodd := (odd_prime_ge_three hq hq2).2
    have hqs : q < s := by
      rw [← Nat.mul_self_lt_mul_self_iff]
      omega
    refine hno ⟨q, mem_oddPrimesBelow.2 ⟨hqs, hq2, hq⟩, (r - q) / 2, ?_⟩
    have hr2 : r = q + 2 * ((r - q) / 2) := by omega
    rw [hr]
    conv_lhs => rw [hr2]
    ring
  · rintro hm ⟨p, hp, v, hv⟩
    obtain ⟨_, hp2, hpp⟩ := mem_oddPrimesBelow.1 hp
    have hp3 := (odd_prime_ge_three hpp hp2).1
    rcases hm with h1 | hprime
    · have : 9 ≤ p * p := by nlinarith
      omega
    · have hfac : m = p * (p + 2 * v) := by rw [hv]; ring
      rw [hfac] at hprime
      exact Nat.not_prime_mul (by omega) (by omega) hprime

section Sweep

variable (clear : List Nat → Nat → Except Fault (List Nat))
variable (Good : List Nat → Prop) (Live : List Nat → Nat → Prop) (Pos : Nat → Prop)

/-- The three shared loops of a segment: the base sieve is extended, the new
sieving primes are appended and every position holding an odd multiple, from
the square on, of a sieving prime is cleared. -/
theorem sweep_spec (segment_size limit F low : Nat)
    (hclear : ClearSpec clear Good Live Pos segment_size)
    (hposstep : ∀ x p, Pos x → Pos (x + p * 2))
    (hposoff : ∀ p off, p % 2 = 1 → OffOK low p off → Pos off)
    (hseg : 1 ≤ segment_size)
    (hF1 : isqrt limit + 4 ≤ F) (hF2 : segment_size + 2 ≤ F)
    (ip : List Nat) (i s : Nat) (pa mu : uint64vec_t) (sv0 : List Nat)
    (hbase : BaseInv (isqrt limit) i ip) (hi : i % 2 = 1) (hi3 : 3 ≤ i)
    (hpa : pa.WF) (hmu : mu.WF) (hs : s % 2 = 1) (hs3 : 3 ≤ s)
    (hsle : s ≤ isqrt limit + 3) (hlows : low ≤ s * s)
    (hvals : pa.vals = oddPrimesBelow s) (hoff : OffInv low pa mu) (hgood : Good sv0) :
    ∃ ip1 i1 pa1 mu1 s1 sv1 md1,
      base_loop F (isqrt limit) (segment_high low segment_size limit) F ip i = .ok (ip1, i1) ∧
      append_loop ip1 low (segment_high low segment_size limit) F pa mu s
        = .ok (pa1, mu1, s1) ∧
      cross_off_loop clear F segment_size pa1 F sv0 mu1.data 0 = .ok (sv1, md1) ∧
      BaseInv (isqrt limit) i1 ip1 ∧ i1 % 2 = 1 ∧ 3 ≤ i1 ∧
      pa1.WF ∧ ({ mu1 with data := md1 } : uint64vec_t).WF ∧
      s1 % 2 = 1 ∧ 3 ≤ s1 ∧ s1 ≤ isqrt limit + 3 ∧
      segment_high low segment_size limit < s1 * s1 ∧
      pa1.vals = oddPrimesBelow s1 ∧
      OffInv (low + segment_size) pa1 { mu1 with data := md1 } ∧ Good sv1 ∧
      ∀ x, Pos x → x < segment_size →
        (Live sv1 x ↔ (Live sv0 x ∧ ¬ ∃ p, p ∈ oddPrimesBelow s1 ∧ Hit low p x)) := by
  have hhigh := segment_high_eq low segment_size limit hseg
  generalize segment_high low segment_size limit = high at hhigh ⊢
  have hhl : high ≤ limit := by omega
  have hsq : ∀ x, x * x ≤ high → x ≤ isqrt limit := fun x hx =>
    le_isqrt_iff.2 (le_trans hx hhl)
  obtain ⟨ip1, i1, hrun1, hbase1, hi1, hile, hhi1, _⟩ :=
    base_loop_spec F (isqrt limit) high (by omega) hsq F ip i hbase hi hi3 (by omega) (by omega)
  obtain ⟨pa1, mu1, s1, hrun2, hpa1, hmu1, hs1, hsle1, hhs1, hlast, hvals1, hoff1⟩ :=
    append_loop_spec ip1 (isqrt limit) i1 low high hbase1 hhi1 hsq F pa mu s hpa hmu hs hs3
      hlows hvals hoff (by omega) (by omega)
  have hs1le : s1 ≤ isqrt limit + 3 := by
    rcases hlast with h | h
    · omega
    · have := hsq _ h
      omega
  have hsize : pa1.size ≤ isqrt limit + 3 := by
    have h1 := vals_length pa1 hpa1
    have h2 := oddPrimesBelow_length_le s1
    rw [hvals1] at h1
    omega
  have hodd_of_mem : ∀ idx p, idx < pa1.size → pa1.data[idx]? = some p →
      p ∈ oddPrimesBelow s1 := by
    intro idx p hidx hp
    rw [← hvals1, mem_vals_iff pa1 hpa1]
    exact ⟨idx, hidx, hp⟩
  obtain ⟨sv1, md1, hrun3, hgood1, hlen1, _, hoffs, hlive⟩ :=
    cross_off_loop_spec clear Good Live Pos segment_size hclear F low pa1 (by omega) hposstep
      F sv0 mu1.data 0 hgood (by omega) (by omega)
      (by
        intro idx _ hidx
        obtain ⟨p, off, hp, hm, hok⟩ := hoff1.2 idx hidx
        obtain ⟨_, hp2, hpp⟩ := mem_oddPrimesBelow.1 (hodd_of_mem idx p hidx hp)
        have hp3 := odd_prime_ge_three hpp hp2
        exact ⟨p, off, hp, hm, by omega, hposoff p off hp3.2 hok, hok⟩)
  refine ⟨ip1, i1, pa1, mu1, s1, sv1, md1, hrun1, hrun2, hrun3, hbase1, hi1, by omega, hpa1,
    ?_, hs1, by omega, hs1le, hhs1, hvals1, ?_, hgood1, ?_⟩
  · obtain ⟨h1, h2, h3⟩ := hmu1
    exact ⟨h1, h2, by simp only; rw [hlen1]; exact h3⟩
  · refine ⟨hoff1.1, fun idx hidx => ?_⟩
    obtain ⟨p, off, hp, hm, hok⟩ := hoffs idx (by omega) hidx
    exact ⟨p, off, hp, hm, hok⟩
  · intro x hx hxs
    rw [hlive x hx hxs]
    constructor
    · rintro ⟨hl, hno⟩
      refine ⟨hl, ?_⟩
      rintro ⟨p, hp, hhit⟩
      rw [← hvals1, mem_vals_iff pa1 hpa1] at hp
      obtain ⟨idx, hidx, hpd⟩ := hp
      exact hno ⟨idx, p, by omega, hidx, hpd, hhit⟩
    · rintro ⟨hl, hno⟩
      refine ⟨hl, ?_⟩
      rintro ⟨idx, p, _, hidx, hpd, hhit⟩
      exact hno ⟨p, hodd_of_mem idx p hidx hpd, hhit⟩

end Sweep


theorem oddPrimesBelow_succ_even {a : Nat} (h : a % 2 = 0) :
    oddPrimesBelow (a + 1) = oddPrimesBelow a := by
  have hno : ¬ (a ≠ 2 ∧ Nat.Prime a) := by
    rintro ⟨h2, hp⟩
    have := (odd_prime_ge_three hp h2).2
    omega
  unfold oddPrimesBelow
  rw [List.range_succ, List.filter_append]
  have hA : List.filter (fun q => decide (q ≠ 2 ∧ Nat.Prime q)) [a] = [] := by
    rw [List.filter_eq_nil_iff]
    intro b hb
    simp only [List.mem_singleton] at hb
    subst hb
    simpa using hno
  rw [hA, List.append_nil]

theorem oddPrimesBelow_one : oddPrimesBelow 1 = [] := by
  have : ¬ Nat.Prime 0 := by decide
  simp [oddPrimesBelow, List.range_succ, List.filter, *]

/-- Once the cursor has passed `limit` by at most two, the odd primes below it
are the odd primes up to `limit`. -/
theorem oddPrimesBelow_cursor {limit n : Nat} (hodd : n % 2 = 1) (hgt : limit < n)
    (hle : n ≤ limit + 2 ∨ n = 3) : oddPrimesBelow n = oddPrimesBelow (limit + 1) := by
  rcases Nat.lt_or_ge (limit + 2) n with h3 | hle2
  · have hn : n = 3 := by omega
    have hl : limit = 0 := by omega
    subst hn hl
    rw [oddPrimesBelow_three, oddPrimesBelow_one]
  · rcases Nat.eq_or_lt_of_le hle2 with heq | hlt
    · subst heq
      exact oddPrimesBelow_succ_even (by omega)
    · have : n = limit + 1 := by omega
      rw [this]

theorem primes_upto_eq {N : Nat} (hN : 2 ≤ N) :
    (List.range (N + 1)).filter (fun p => decide (Nat.Prime p)) = 2 :: oddPrimesBelow (N + 1) := by
  induction N with
  | zero => omega
  | succ N ih =>
    rcases Nat.eq_or_lt_of_le hN with h2 | hgt
    · have hN1 : N = 1 := by omega
      subst hN1
      have h0 : ¬ Nat.Prime 0 := by decide
      have h1 : ¬ Nat.Prime 1 := by decide
      have h2 : Nat.Prime 2 := by decide
      simp [oddPrimesBelow, List.range_succ, List.filter, *]
    · have ih' := ih (by omega)
      have hcond : (decide (Nat.Prime (N + 1))) = decide (N + 1 ≠ 2 ∧ Nat.Prime (N + 1)) := by
        have : N + 1 ≠ 2 := by omega
        simp [this]
      unfold oddPrimesBelow at ih' ⊢
      rw [List.range_succ, List.filter_append, ih', List.filter_append]
      simp only [List.cons_append, List.filter, hcond]

namespace Sieve

/-! ## The byte-array engine -/

theorem clear_flag_spec (segment_size : Nat) :
    ClearSpec clear_flag (GoodB segment_size) LiveB (fun _ => True) segment_size := by
  intro sv j hgood hj _
  unfold GoodB at hgood
  refine ⟨sv.set j 0, ?_, by simp [GoodB, hgood], fun x _ _ => ?_⟩
  · unfold clear_flag
    exact store_of_lt 0 (by omega)
  · unfold LiveB
    rw [List.getElem?_set]
    constructor
    · intro h
      split at h
      · rename_i hjx
        rw [if_pos (by omega)] at h
        exact absurd rfl h
      · rename_i hjx
        exact ⟨h, fun hxj => hjx hxj.symm⟩
    · rintro ⟨h, hne⟩
      rw [if_neg (fun hjx => hne hjx.symm)]
      exact h

theorem harvest_loop_spec (sv : List Nat) (low high : Nat)
    (hsieve : ∀ n, n % 2 = 1 → 3 ≤ n → low ≤ n → n ≤ high →
      ∃ v, load sv (n - low) = .ok v ∧ (v ≠ 0 ↔ Nat.Prime n)) :
    ∀ fuel out (count : Int) n, n % 2 = 1 → 3 ≤ n → low ≤ n → out = 2 :: oddPrimesBelow n →
      count = (out.length : Int) → 1 ≤ fuel → high + 2 ≤ fuel + n →
      ∃ out1 count1 n1, harvest_loop sv low high fuel out count n = .ok (out1, count1, n1) ∧
        n1 % 2 = 1 ∧ n ≤ n1 ∧ high < n1 ∧ (n1 = n ∨ n1 ≤ high + 2) ∧
        out1 = 2 :: oddPrimesBelow n1 ∧ count1 = (out1.length : Int) := by
  intro fuel
  induction fuel with
  | zero => intro out count n _ _ _ _ _ h; omega
  | succ fuel ih =>
    intro out count n hodd h3 hlow hout hcount _ hfuel
    unfold harvest_loop
    split
    · rename_i hn
      rw [usub_of_le hlow]
      simp only
      obtain ⟨v, hload, hv⟩ := hsieve n hodd h3 hlow hn
      rw [hload]
      simp only
      have hstep : ∀ out2 (count2 : Int), out2 = 2 :: oddPrimesBelow (n + 2) →
          count2 = (out2.length : Int) →
          ∃ out1 count1 n1, harvest_loop sv low high fuel out2 count2 (n + 2)
              = .ok (out1, count1, n1) ∧
            n1 % 2 = 1 ∧ n ≤ n1 ∧ high < n1 ∧ (n1 = n ∨ n1 ≤ high + 2) ∧
            out1 = 2 :: oddPrimesBelow n1 ∧ count1 = (out1.length : Int) := by
        intro out2 count2 hout2 hcount2
        obtain ⟨out1, count1, n1, hrun, h1, h2, h4, h5, h6, h7⟩ :=
          ih out2 count2 (n + 2) (by omega) (by omega) (by omega) hout2 hcount2
            (by omega) (by omega)
        exact ⟨out1, count1, n1, hrun, h1, by omega, h4, Or.inr (by omega), h6, h7⟩
      split
      · rename_i hv0
        have hp : Nat.Prime n := hv.1 hv0
        apply hstep
        · rw [hout, oddPrimesBelow_succ2 hodd]
          simp [hp]
        · rw [hcount]
          simp
      · rename_i hv0
        have hnp : ¬ Nat.Prime n := fun hp => hv0 (hv.2 hp)
        apply hstep _ _ _ hcount
        rw [hout, oddPrimesBelow_succ2 hodd]
        simp [hnp]
    · rename_i hn
      exact ⟨out, count, n, rfl, hodd, le_rfl, by omega, Or.inl rfl, hout, hcount⟩

theorem byte_segment_body_spec (F limit segment_size : Nat) (hseg : 1 ≤ segment_size)
    (hF1 : isqrt limit + 4 ≤ F) (hF2 : segment_size + 2 ≤ F)
    (st : State) (hinv : Inv limit segment_size st) (hlow : st.low ≤ limit) :
    ∃ st1, segment_body F limit (isqrt limit) segment_size st = .ok st1 ∧
      st1.low = st.low ∧ Inv limit segment_size { st1 with low := st1.low + segment_size } := by
  have hhigh := segment_high_eq st.low segment_size limit hseg
  obtain ⟨hls, hln⟩ := hinv.live hlow
  have hmem : memset st.sieve.data 1 st.sieve.size = .ok (List.replicate segment_size 1) := by
    unfold memset
    rw [hinv.sieve_size, hinv.sieve_len]
    simp [← hinv.sieve_len]
  obtain ⟨ip1, i1, pa1, mu1, s1, sv1, md1, hrun1, hrun2, hrun3, hbase1, hi1, hi3, hpa1, hmu1,
      hs1, hs3, hsle1, hhs1, hvals1, hoff1, hgood1, hlive⟩ :=
    sweep_spec clear_flag (GoodB segment_size) LiveB (fun _ => True) segment_size limit F st.low
      (clear_flag_spec segment_size) (fun _ _ _ => trivial) (fun _ _ _ _ => trivial) hseg
      hF1 hF2 st.is_prime.data st.i st.s st.prime_arr st.multiples
      (List.replicate segment_size 1) hinv.base hinv.i_odd hinv.i_ge hinv.pa_wf hinv.mu_wf
      hinv.s_odd hinv.s_ge hinv.s_le hls hinv.vals hinv.off (by simp [GoodB])
  have hsieve : ∀ n, n % 2 = 1 → 3 ≤ n → st.low ≤ n →
      n ≤ segment_high st.low segment_size limit →
      ∃ v, load sv1 (n - st.low) = .ok v ∧ (v ≠ 0 ↔ Nat.Prime n) := by
    intro n hodd h3 hge hle
    have hx : n - st.low < segment_size := by omega
    obtain ⟨v, hload, hget⟩ := load_of_lt (by rw [hgood1]; exact hx : n - st.low < sv1.length)
    refine ⟨v, hload, ?_⟩
    have h1 := hlive (n - st.low) trivial hx
    have hn : st.low + (n - st.low) = n := by omega
    have h2 := not_hit_iff st.low (n - st.low) s1 _ (by rw [hn]; exact hodd)
      (by rw [hn]; exact hle) hhs1
    rw [hn] at h2
    have h0 : LiveB (List.replicate segment_size 1) (n - st.low) := by
      unfold LiveB
      rw [List.getElem?_replicate, if_pos hx]
      simp
    have h3' : LiveB sv1 (n - st.low) ↔ Nat.Prime n := by
      rw [h1, h2]
      constructor
      · rintro ⟨_, h | h⟩
        · omega
        · exact h
      · exact fun h => ⟨h0, Or.inr h⟩
    rw [← h3']
    unfold LiveB
    rw [hget]
    simp
  obtain ⟨out1, count1, n1, hrun4, hn1, hnle, hhn, hnlast, hout1, hcount1⟩ :=
    harvest_loop_spec sv1 st.low (segment_high st.low segment_size limit) hsieve F st.out
      st.count st.n hinv.n_odd hinv.n_ge hln hinv.out hinv.count (by omega) (by omega)
  unfold segment_body
  rw [hmem]
  simp only
  rw [hrun1]
  simp only
  rw [hrun2]
  simp only
  rw [hrun3]
  simp only
  rw [hrun4]
  refine ⟨_, rfl, rfl, ?_⟩
  constructor
  · exact hbase1
  · exact hi1
  · exact hi3
  · exact hpa1
  · exact hmu1
  · exact hs1
  · exact hs3
  · exact hsle1
  · exact hvals1
  · exact hoff1
  · exact hinv.sieve_size
  · exact hgood1
  · exact hn1
  · show 3 ≤ n1
    have := hinv.n_ge
    omega
  · show (n1 ≤ st.low + segment_size + 1 ∧ n1 ≤ limit + 2) ∨ n1 = 3
    rcases hnlast with h | h
    · rcases hinv.n_le with h' | h'
      · left; omega
      · right; omega
    · left; omega
  · exact hout1
  · exact hcount1
  · show st.low + segment_size ≤ limit → st.low + segment_size ≤ s1 * s1 ∧
      st.low + segment_size ≤ n1
    intro h
    omega
  · show limit < st.low + segment_size → limit < n1
    intro h
    omega

theorem byte_segment_loop_spec (F limit segment_size : Nat) (hseg : 1 ≤ segment_size)
    (hF1 : isqrt limit + 4 ≤ F) (hF2 : segment_size + 2 ≤ F) :
    ∀ fuel st, Inv limit segment_size st → 1 ≤ fuel → limit + 2 ≤ fuel + st.low →
      ∃ k st1, segment_loop F limit (isqrt limit) segment_size fuel st = .ok st1 ∧
        segment_steps F limit (isqrt limit) segment_size k st = .ok st1 ∧
        Inv limit segment_size st1 ∧ limit < st1.low ∧
        st1.low = st.low + k * segment_size ∧
        (k = 0 ∨ st.low + (k - 1) * segment_size ≤ limit) := by
  intro fuel
  induction fuel with
  | zero => intro st _ h; omega
  | succ fuel ih =>
    intro st hinv _ hfuel
    unfold segment_loop
    split
    · rename_i hlow
      obtain ⟨st2, hrun, hlow2, hinv2⟩ :=
        byte_segment_body_spec F limit segment_size hseg hF1 hF2 st hinv hlow
      rw [hrun]
      simp only
      obtain ⟨k, st1, hrun1, hsteps, hinv1, hdone, hlow1, hk⟩ :=
        ih { st2 with low := st2.low + segment_size } hinv2 (by omega)
          (by simp only; omega)
      refine ⟨k + 1, st1, hrun1, ?_, hinv1, hdone, ?_, Or.inr ?_⟩
      · unfold segment_steps
        rw [hrun]
        exact hsteps
      · rw [hlow1]
        simp only [hlow2]
        ring
      · simp only [hlow2] at hk hlow1
        rcases hk with h0 | hle
        · subst h0; simpa using hlow
        · have hk1 : 1 ≤ k := by
            by_contra hcon
            have : k = 0 := by omega
            subst this
            simp at hle
            omega
          have : st.low + (k + 1 - 1) * segment_size
              = st.low + segment_size + (k - 1) * segment_size := by
            obtain ⟨j, rfl⟩ : ∃ j, k = j + 1 := ⟨k - 1, by omega⟩
            simp only [Nat.add_sub_cancel]
            ring
          rw [this]
          exact hle
    · rename_i hlow
      exact ⟨0, st, rfl, rfl, hinv, by omega, by simp, Or.inl rfl⟩

end Sieve


theorem not_crossed_three (m : Nat) : ¬ Crossed 3 m := by
  rintro ⟨q, hq, hq2, hlt, _⟩
  have := (odd_prime_ge_three hq hq2).1
  omega

theorem baseInv_init (sqrtval v : Nat) (hv : v ≠ 0) :
    BaseInv sqrtval 3 (List.replicate (sqrtval + 1) v) := by
  refine ⟨by simp, fun m hm => ?_⟩
  rw [List.getElem?_replicate, if_pos (by omega)]
  constructor
  · intro h
    exact absurd (Option.some.inj h) hv
  · exact fun h => absurd h (not_crossed_three m)

theorem offInv_init (low c : Nat) :
    OffInv low (create_uint64_vector c) (create_uint64_vector c) := by
  refine ⟨rfl, fun idx hidx => ?_⟩
  simp [create_uint64_vector] at hidx

theorem steps_count {limit seg k : Nat} (hgt : limit < k * seg)
    (hk : k = 0 ∨ (k - 1) * seg ≤ limit) : k = limit / seg + 1 := by
  rcases hk with h0 | hle
  · subst h0; simp at hgt
  · have hk1 : 1 ≤ k := by
      by_contra hcon
      have : k = 0 := by omega
      subst this
      simp at hgt
    obtain ⟨j, rfl⟩ : ∃ j, k = j + 1 := ⟨k - 1, by omega⟩
    simp only [Nat.add_sub_cancel] at hle
    have := Nat.div_eq_of_lt_le hle hgt
    omega

namespace Sieve

theorem byte_init_inv (c a N : Nat) (ha : 1 ≤ a) :
    Inv N (if isqrt N < c then c else isqrt N) (init_state c a N) := by
  constructor
  · exact baseInv_init (isqrt N) 1 (by omega)
  · show 3 % 2 = 1
    rfl
  · exact le_rfl
  · exact create_uint64_vector_WF ha
  · exact create_uint64_vector_WF ha
  · show 3 % 2 = 1
    rfl
  · exact le_rfl
  · show 3 ≤ isqrt N + 3
    omega
  · show (create_uint64_vector a).vals = oddPrimesBelow 3
    rw [create_uint64_vector_vals, oddPrimesBelow_three]
  · exact offInv_init 0 a
  · rfl
  · simp [init_state, create_bool_vector]
  · show 3 % 2 = 1
    rfl
  · exact le_rfl
  · exact Or.inr rfl
  · rfl
  · rfl
  · intro _
    exact ⟨Nat.zero_le _, Nat.zero_le _⟩
  · intro h
    exact absurd h (Nat.not_lt_zero _)

/-- The run of the byte-array engine: with enough fuel the segment loop
returns after `N / segment_size + 1` executions of its body, having printed `2`
and then the odd primes up to `N` in ascending order. -/
theorem byte_run_spec (F c a N : Nat) (hseg : 1 ≤ N ∨ 1 ≤ c) (ha : 1 ≤ a)
    (hF : N + c + 4 ≤ F) :
    ∃ st1, segment_loop F N (isqrt N) (if isqrt N < c then c else isqrt N) F
        (init_state c a N) = .ok st1 ∧
      segment_steps F N (isqrt N) (if isqrt N < c then c else isqrt N)
        (N / (if isqrt N < c then c else isqrt N) + 1) (init_state c a N) = .ok st1 ∧
      N < st1.low ∧
      st1.low = (N / (if isqrt N < c then c else isqrt N) + 1)
        * (if isqrt N < c then c else isqrt N) ∧
      st1.out = 2 :: oddPrimesBelow (N + 1) ∧
      st1.count = ((2 :: oddPrimesBelow (N + 1)).length : Int) := by
  have hsq := isqrt_le N
  have hseg1 : 1 ≤ (if isqrt N < c then c else isqrt N) := by
    rcases hseg with h | h
    · have := isqrt_pos h
      split <;> omega
    · split <;> omega
  have hsegle : (if isqrt N < c then c else isqrt N) ≤ N + c := by
    split <;> omega
  obtain ⟨k, st1, hrun, hsteps, hinv, hdone, hlow, hk⟩ :=
    byte_segment_loop_spec F N (if isqrt N < c then c else isqrt N) hseg1 (by omega) (by omega) F
      (init_state c a N) (byte_init_inv c a N ha) (by omega) (by omega)
  have hlow0 : (init_state c a N).low = 0 := rfl
  rw [hlow0, Nat.zero_add] at hlow hk
  have hkeq := steps_count (by rw [← hlow]; exact hdone) hk
  have hout : st1.out = 2 :: oddPrimesBelow (N + 1) := by
    rw [hinv.out]
    congr 1
    refine oddPrimesBelow_cursor hinv.n_odd (hinv.done hdone) ?_
    rcases hinv.n_le with h | h
    · exact Or.inl h.2
    · exact Or.inr h
  refine ⟨st1, hrun, by rw [← hkeq]; exact hsteps, hdone, by rw [← hkeq]; exact hlow, hout, ?_⟩
  rw [hinv.count, hout]

theorem byte_segmented_sieve_spec (F c a N : Nat) (hseg : 1 ≤ N ∨ 1 ≤ c) (ha : 1 ≤ a)
    (hF : N + c + 4 ≤ F) :
    segmented_sieve F c a N =
      .ok (2 :: oddPrimesBelow (N + 1), ((2 :: oddPrimesBelow (N + 1)).length : Int)) := by
  obtain ⟨st1, hrun, _, _, _, hout, hcount⟩ := byte_run_spec F c a N hseg ha hF
  unfold segmented_sieve
  simp only
  rw [hrun]
  simp only [hout, hcount]

end Sieve


namespace BitSieve

/-! ## The bit-packed engine: tables and bit operations -/

set_option maxRecDepth 100000 in
theorem unset_bit_spec : ∀ r, r < 16 → r % 2 = 1 → ∀ k, k < 8 →
    (unset_bit[r]?.map fun m => (bits64 m).testBit k) = some (decide (k ≠ r / 2)) := by
  decide

set_option maxRecDepth 100000 in
theorem tail_mask_spec : ∀ e, e < 9 → ∀ k, k < 8 →
    (bits64 (~~~(((0xff <<< e : Nat) : Int)))).testBit k = decide (k < e) := by
  decide

set_option maxRecDepth 100000 in
theorem popcnt_spec : ∀ b, b < 256 →
    popcnt[b]? = some ((Nat.count (fun k => b.testBit k = true) 8 : Nat) : Int) := by
  decide

theorem testBit_to_uint8 (x k : Nat) (hk : k < 8) :
    (to_uint8 x).testBit k = x.testBit k := by
  unfold to_uint8
  rw [show (256 : Nat) = 2 ^ 8 from rfl, Nat.testBit_mod_two_pow]
  simp [hk]

theorem to_uint8_lt (x : Nat) : to_uint8 x < 256 := by
  unfold to_uint8
  omega

theorem goodP_set {segment_size : Nat} {sv : List Nat} (h : GoodP segment_size sv)
    (i v : Nat) (hv : v < 256) : GoodP segment_size (sv.set i v) := by
  refine ⟨by rw [List.length_set]; exact h.1, fun b hb => ?_⟩
  rcases List.mem_or_eq_of_mem_set hb with h1 | h1
  · exact h.2 b h1
  · rw [h1]; exact hv

theorem clear_bit_spec (segment_size : Nat) :
    ClearSpec clear_bit (GoodP segment_size) LiveP (fun x => x % 2 = 1) segment_size := by
  intro sv j hgood hj hodd
  have hshift : j >>> 4 = j / 16 := by rw [Nat.shiftRight_eq_div_pow]
  have hand : j &&& 15 = j % 16 := by
    have := Nat.and_pow_two_sub_one_eq_mod j 4
    simpa using this
  have hbyte : j / 16 < sv.length := by rw [hgood.1]; omega
  obtain ⟨b, hload, hget⟩ := load_of_lt hbyte
  have hr : j % 16 < 16 := Nat.mod_lt _ (by omega)
  have hr2 : j % 16 % 2 = 1 := by omega
  obtain ⟨m, hm⟩ : ∃ m, unset_bit[j % 16]? = some m := by
    have := unset_bit_spec (j % 16) hr hr2 0 (by omega)
    cases h : unset_bit[j % 16]? with
    | none => rw [h] at this; simp at this
    | some m => exact ⟨m, rfl⟩
  have hbits : ∀ k, k < 8 → (bits64 m).testBit k = decide (k ≠ j % 16 / 2) := by
    intro k hk
    have := unset_bit_spec (j % 16) hr hr2 k hk
    rw [hm] at this
    simpa using this
  refine ⟨sv.set (j / 16) (to_uint8 (b &&& bits64 m)), ?_,
    goodP_set hgood _ _ (to_uint8_lt _), fun x hx hxs => ?_⟩
  · unfold clear_bit
    rw [hshift, hand, hload]
    simp only
    rw [hm]
    simp only
    exact store_of_lt _ hbyte
  · unfold LiveP
    rw [List.getElem?_set]
    have hk : x % 16 / 2 < 8 := by omega
    by_cases hsame : j / 16 = x / 16
    · rw [if_pos hsame, if_pos hbyte, ← hsame, hget]
      have hne : x ≠ j ↔ x % 16 / 2 ≠ j % 16 / 2 := by omega
      constructor
      · rintro ⟨c, hc, hbit⟩
        have hc' : to_uint8 (b &&& bits64 m) = c := Option.some.inj hc
        rw [← hc', testBit_to_uint8 _ _ hk, Nat.testBit_land, hbits _ hk] at hbit
        simp only [Bool.and_eq_true, decide_eq_true_eq] at hbit
        exact ⟨⟨b, rfl, hbit.1⟩, hne.2 hbit.2⟩
      · rintro ⟨⟨c, hc, hbit⟩, hxj⟩
        have hc' : b = c := Option.some.inj hc
        refine ⟨_, rfl, ?_⟩
        rw [testBit_to_uint8 _ _ hk, Nat.testBit_land, hbits _ hk, hc']
        simp only [Bool.and_eq_true, decide_eq_true_eq]
        exact ⟨hbit, hne.1 hxj⟩
    · rw [if_neg hsame]
      constructor
      · intro h
        refine ⟨h, ?_⟩
        intro hxj
        rw [hxj] at hsame
        exact hsame rfl
      · exact fun h => h.1

/-! ## Counting the set bits -/

theorem count_odd_bits (Q : Nat → Prop) [DecidablePred Q] (T : Nat → Bool)
    (heven : ∀ j, ¬ Q (2 * j)) :
    ∀ n, (∀ k, k < n → (Q (2 * k + 1) ↔ T k = true)) →
      Nat.count Q (2 * n) = Nat.count (fun k => T k = true) n := by
  intro n
  induction n with
  | zero => intro _; simp
  | succ n ih =>
    intro h
    rw [show 2 * (n + 1) = 2 * n + 1 + 1 from by ring, Nat.count_succ, Nat.count_succ,
      Nat.count_succ, ih (fun k hk => h k (by omega))]
    rw [if_neg (heven n)]
    by_cases hq : Q (2 * n + 1)
    · rw [if_pos hq, if_pos ((h n (by omega)).1 hq)]
    · rw [if_neg hq, if_neg (fun ht => hq ((h n (by omega)).2 ht))]

/-- One byte of the harvest: the table gives the number of counted integers
among the sixteen that the byte stands for. -/
theorem byte_count (limit base byte : Nat) (hbase : base % 2 = 0) (hbyte : byte < 256)
    (hbits : ∀ k, k < 8 → (byte.testBit k = true ↔ Counted limit (base + (2 * k + 1)))) :
    ∃ c : Int, popcnt[byte]? = some c ∧
      (Nat.count (Counted limit) (base + 16) : Int) = Nat.count (Counted limit) base + c := by
  refine ⟨_, popcnt_spec byte hbyte, ?_⟩
  have h16 : Nat.count (fun t => Counted limit (base + t)) 16
      = Nat.count (fun k => byte.testBit k = true) 8 :=
    count_odd_bits (fun t => Counted limit (base + t)) (fun k => byte.testBit k)
      (fun j h => by
        have := h.1
        omega) 8 (fun k hk => (hbits k hk).symm)
  rw [Nat.count_add, h16]
  push_cast
  rfl

set_option maxRecDepth 100000 in
theorem count_loop_spec (limit low : Nat) (sv : List Nat) (sieve_size : Nat)
    (hbyte : ∀ b, b < sieve_size → ∃ byte c, sv[b]? = some byte ∧ popcnt[byte]? = some c ∧
      (Nat.count (Counted limit) (low + 16 * (b + 1)) : Int)
        = Nat.count (Counted limit) (low + 16 * b) + c) :
    ∀ fuel (count : Int) n, n ≤ sieve_size → 1 ≤ fuel → sieve_size + 1 ≤ fuel + n →
      ∃ count1, count_loop sv sieve_size fuel count n = .ok count1 ∧
        count1 + Nat.count (Counted limit) (low + 16 * n)
          = count + Nat.count (Counted limit) (low + 16 * sieve_size) := by
  intro fuel
  induction fuel with
  | zero => intro count n _ h; omega
  | succ fuel ih =>
    intro count n hn _ hfuel
    unfold count_loop
    split
    · rename_i hlt
      obtain ⟨byte, c, hget, hpop, hcnt⟩ := hbyte n hlt
      rw [load_eq_ok.2 hget]
      simp only
      rw [hpop]
      simp only
      obtain ⟨count1, hrun, hres⟩ := ih (count + c) (n + 1) (by omega) (by omega) (by omega)
      refine ⟨count1, hrun, ?_⟩
      rw [hcnt] at hres
      linarith
    · rename_i hge
      have : n = sieve_size := by omega
      subst this
      exact ⟨count, rfl, rfl⟩

theorem count_stable (limit : Nat) {a : Nat} (ha : limit < a) :
    Nat.count (Counted limit) a = Nat.count (Counted limit) (limit + 1) := by
  obtain ⟨d, rfl⟩ : ∃ d, a = limit + 1 + d := ⟨a - (limit + 1), by omega⟩
  induction d with
  | zero => rfl
  | succ d ih =>
    rw [show limit + 1 + (d + 1) = (limit + 1 + d) + 1 from rfl, Nat.count_succ, ih (by omega)]
    rw [if_neg]
    · rfl
    · intro h
      have := h.2.1
      omega

theorem count_counted_eq (N : Nat) : ∀ M, M ≤ N →
    Nat.count (Counted N) (M + 1) + (if 2 ≤ M then 1 else 0)
      = Nat.count Nat.Prime (M + 1) + (if 1 ≤ M then 1 else 0) := by
  intro M
  induction M with
  | zero =>
    intro _
    have h0 : ¬ Nat.Prime 0 := by decide
    have h1 : ¬ Counted N 0 := fun h => by have := h.1; omega
    simp [Nat.count_succ, h0, h1]
  | succ M ih =>
    intro hM
    have ih' := ih (by omega)
    rw [Nat.count_succ (Counted N), Nat.count_succ Nat.Prime]
    rcases Nat.eq_zero_or_pos M with hM0 | hMpos
    · subst hM0
      have h1 : ¬ Nat.Prime 1 := by decide
      have hc : Counted N 1 := ⟨rfl, hM, Or.inl rfl⟩
      simp [h1, hc] at ih' ⊢
      omega
    · rcases Nat.eq_or_lt_of_le hMpos with hM1 | hM2
      · subst hM1
        have h2 : Nat.Prime 2 := by decide
        have hc : ¬ Counted N 2 := fun h => by have := h.1; omega
        simp [h2, hc] at ih' ⊢
        omega
      · have hiff : Counted N (M + 1) ↔ Nat.Prime (M + 1) := by
          constructor
          · rintro ⟨_, _, h | h⟩
            · omega
            · exact h
          · intro hp
            refine ⟨?_, hM, Or.inr hp⟩
            exact (odd_prime_ge_three hp (by omega)).2
        have e1 : (if 2 ≤ M then 1 else 0) = 1 := if_pos (by omega)
        have e2 : (if 1 ≤ M then 1 else 0) = 1 := if_pos (by omega)
        have e3 : (if 2 ≤ M + 1 then 1 else 0) = 1 := if_pos (by omega)
        have e4 : (if 1 ≤ M + 1 then 1 else 0) = 1 := if_pos (by omega)
        rw [e1, e2] at ih'
        rw [e3, e4]
        by_cases hp : Nat.Prime (M + 1)
        · rw [if_pos hp, if_pos (hiff.2 hp)]
          omega
        · rw [if_neg hp, if_neg (fun h => hp (hiff.1 h))]
          omega

theorem counted_total (N : Nat) :
    (if N = 1 then -1 else 0) + (Nat.count (Counted N) (N + 1) : Int)
      = (Nat.primeCounting N : Int) := by
  have h := count_counted_eq N N le_rfl
  have hpc : Nat.primeCounting N = Nat.count Nat.Prime (N + 1) := rfl
  rw [hpc]
  rcases Nat.lt_or_ge N 1 with h0 | h1
  · have : N = 0 := by omega
    subst this
    simp at h ⊢
    omega
  · rcases Nat.eq_or_lt_of_le h1 with h1' | h2
    · subst h1'
      simp at h ⊢
      omega
    · have e1 : (if 2 ≤ N then 1 else 0) = 1 := if_pos (by omega)
      have e2 : (if 1 ≤ N then 1 else 0) = 1 := if_pos (by omega)
      rw [e1, e2] at h
      rw [if_neg (by omega)]
      omega

end BitSieve


namespace BitSieve

/-! ## The bit-packed engine: one segment -/

theorem testBit_255 : ∀ k, k < 8 → Nat.testBit 255 k = true := by decide

theorem odd_offset {low p off : Nat} (hlow : low % 2 = 0) (hp : p % 2 = 1)
    (hoff : OffOK low p off) : off % 2 = 1 := by
  obtain ⟨t, ht, _⟩ := hoff
  have h1 : (p * p) % 2 = 1 := by rw [Nat.mul_mod, hp]
  have h2 : (2 * p * t) % 2 = 0 := by rw [Nat.mul_assoc]; exact Nat.mul_mod_right 2 _
  omega

/-- After crossing off, the bit of an odd integer of the segment that does not
exceed `high` is set exactly when the integer is `1` or a prime. -/
theorem sieve_bits (low high s1 ss0 : Nat) (sv1 : List Nat)
    (hgood : GoodP (16 * ss0) sv1) (hhigh : high < s1 * s1)
    (hlive : ∀ x, x % 2 = 1 → x < 16 * ss0 →
      (LiveP sv1 x ↔ (LiveP (List.replicate (16 * ss0) 255) x ∧
        ¬ ∃ p, p ∈ oddPrimesBelow s1 ∧ Hit low p x)))
    (hlow : low % 2 = 0) :
    ∀ b k, b < ss0 → k < 8 → low + (16 * b + (2 * k + 1)) ≤ high →
      ∃ byte, sv1[b]? = some byte ∧ byte < 256 ∧
        (byte.testBit k = true ↔
          (low + (16 * b + (2 * k + 1)) = 1 ∨ Nat.Prime (low + (16 * b + (2 * k + 1))))) := by
  intro b k hb hk hle
  have hx1 : (16 * b + (2 * k + 1)) % 2 = 1 := by omega
  have hx2 : 16 * b + (2 * k + 1) < 16 * ss0 := by omega
  have hx3 : (16 * b + (2 * k + 1)) / 16 = b := by omega
  have hx4 : (16 * b + (2 * k + 1)) % 16 / 2 = k := by omega
  have hblen : b < sv1.length := by rw [hgood.1]; omega
  refine ⟨sv1[b], List.getElem?_eq_getElem hblen, hgood.2 _ (List.getElem_mem hblen), ?_⟩
  have h1 := hlive _ hx1 hx2
  have h2 := not_hit_iff low (16 * b + (2 * k + 1)) s1 high (by omega) hle hhigh
  have h0 : LiveP (List.replicate (16 * ss0) 255) (16 * b + (2 * k + 1)) := by
    refine ⟨255, ?_, ?_⟩
    · rw [hx3, List.getElem?_replicate, if_pos (by omega)]
    · rw [hx4]; exact testBit_255 k hk
  have h3 : LiveP sv1 (16 * b + (2 * k + 1)) ↔ sv1[b].testBit k = true := by
    unfold LiveP
    rw [hx3, hx4, List.getElem?_eq_getElem hblen]
    constructor
    · rintro ⟨c, hc, hbit⟩
      rw [Option.some.inj hc]; exact hbit
    · exact fun h => ⟨_, rfl, h⟩
  rw [← h3, h1, h2]
  constructor
  · exact fun h => h.2
  · exact fun h => ⟨h0, h⟩

theorem mask_tail_spec (limit high sieve_size segment_size : Nat) (sv : List Nat)
    (hgood : GoodP segment_size sv) (hss : sieve_size ≤ segment_size) (hss1 : 1 ≤ sieve_size) :
    ∃ sv2, mask_tail limit high sieve_size sv = .ok sv2 ∧ GoodP segment_size sv2 ∧
      (∀ b, (high ≠ limit ∨ b ≠ sieve_size - 1) → sv2[b]? = sv[b]?) ∧
      (high = limit → ∃ byte byte2, sv[sieve_size - 1]? = some byte ∧
        sv2[sieve_size - 1]? = some byte2 ∧
        ∀ k, k < 8 → byte2.testBit k = (byte.testBit k && decide (k < (limit % 16 + 1) / 2))) := by
  unfold mask_tail
  split
  · rename_i heq
    have hlen : sieve_size - 1 < sv.length := by rw [hgood.1]; omega
    obtain ⟨byte, hload, hget⟩ := load_of_lt hlen
    simp only
    rw [hload]
    simp only
    rw [store_of_lt _ hlen]
    refine ⟨_, rfl, goodP_set hgood _ _ (to_uint8_lt _), ?_, ?_⟩
    · intro b hb
      rcases hb with h | h
      · exact absurd heq h
      · rw [List.getElem?_set_ne (fun h' => h h'.symm)]
    · intro _
      refine ⟨byte, _, hget, List.getElem?_set_self hlen, fun k hk => ?_⟩
      rw [testBit_to_uint8 _ _ hk, Nat.testBit_land,
        tail_mask_spec ((limit % 16 + 1) / 2) (by omega) k hk]
  · rename_i hne
    refine ⟨sv, rfl, hgood, fun _ _ => rfl, fun h => absurd h hne⟩

/-- After the tail mask, the bit of an odd integer held by one of the first
`sieve_size` bytes is set exactly when the integer is counted. -/
theorem masked_bits (limit low high ss0 : Nat) (sv1 sv2 : List Nat)
    (hlow : low % 16 = 0) (hlh : low ≤ high) (hhl : high ≤ limit) (hss0 : 1 ≤ ss0)
    (hhs : high = min (low + 16 * ss0 - 1) limit)
    (hbits : ∀ b k, b < ss0 → k < 8 → low + (16 * b + (2 * k + 1)) ≤ high →
      ∃ byte, sv1[b]? = some byte ∧ byte < 256 ∧
        (byte.testBit k = true ↔
          (low + (16 * b + (2 * k + 1)) = 1 ∨ Nat.Prime (low + (16 * b + (2 * k + 1))))))
    (hgood2 : GoodP (16 * ss0) sv2)
    (hframe : ∀ b, (high ≠ limit ∨ b ≠ (high - low) / 16 + 1 - 1) → sv2[b]? = sv1[b]?)
    (hmask : high = limit → ∃ byte byte2, sv1[(high - low) / 16 + 1 - 1]? = some byte ∧
        sv2[(high - low) / 16 + 1 - 1]? = some byte2 ∧
        ∀ k, k < 8 → byte2.testBit k = (byte.testBit k && decide (k < (limit % 16 + 1) / 2))) :
    ∀ b, b < (high - low) / 16 + 1 → ∃ byte, sv2[b]? = some byte ∧ byte < 256 ∧
      ∀ k, k < 8 → (byte.testBit k = true ↔ Counted limit (low + 16 * b + (2 * k + 1))) := by
  intro b hb
  have hb0 : b < ss0 := by omega
  have hblen : b < sv2.length := by rw [hgood2.1]; omega
  refine ⟨sv2[b], List.getElem?_eq_getElem hblen, hgood2.2 _ (List.getElem_mem hblen), ?_⟩
  intro k hk
  have hodd : (low + 16 * b + (2 * k + 1)) % 2 = 1 := by omega
  by_cases hcase : high ≠ limit ∨ b ≠ (high - low) / 16 + 1 - 1
  · have hle : low + (16 * b + (2 * k + 1)) ≤ high := by
      rcases hcase with h | h
      · omega
      · omega
    obtain ⟨byte, hget, _, hiff⟩ := hbits b k hb0 hk hle
    have hsame : sv2[b] = byte := by
      have := hframe b hcase
      rw [List.getElem?_eq_getElem hblen, hget] at this
      exact Option.some.inj this
    rw [hsame, hiff, ← Nat.add_assoc]
    unfold Counted
    constructor
    · exact fun h => ⟨hodd, by omega, h⟩
    · exact fun h => h.2.2
  · push_neg at hcase
    obtain ⟨heq, hbeq⟩ := hcase
    obtain ⟨byte, byte2, hget1, hget2, hmk⟩ := hmask heq
    have hsame : sv2[b] = byte2 := by
      rw [← hbeq, List.getElem?_eq_getElem hblen] at hget2
      exact Option.some.inj hget2
    rw [hsame, hmk k hk]
    simp only [Bool.and_eq_true, decide_eq_true_eq]
    have hkle : k < (limit % 16 + 1) / 2 ↔ low + (16 * b + (2 * k + 1)) ≤ high := by
      omega
    unfold Counted
    constructor
    · rintro ⟨hbit, hklt⟩
      have hle := hkle.1 hklt
      obtain ⟨byte', hget', _, hiff⟩ := hbits b k hb0 hk hle
      rw [← hbeq, hget'] at hget1
      rw [← Option.some.inj hget1] at hbit
      exact ⟨hodd, by omega, by rw [Nat.add_assoc]; exact hiff.1 hbit⟩
    · rintro ⟨_, hle, hcnt⟩
      have hle' : low + (16 * b + (2 * k + 1)) ≤ high := by omega
      obtain ⟨byte', hget', _, hiff⟩ := hbits b k hb0 hk hle'
      rw [← hbeq, hget'] at hget1
      refine ⟨?_, hkle.2 hle'⟩
      rw [← Option.some.inj hget1]
      exact hiff.2 (by rw [← Nat.add_assoc]; exact hcnt)

end BitSieve


namespace BitSieve

theorem bit_segment_body_spec (F limit ss0 : Nat) (hss0 : 1 ≤ ss0)
    (hF1 : isqrt limit + 4 ≤ F) (hF2 : 16 * ss0 + 2 ≤ F)
    (st : State) (hinv : Inv limit (16 * ss0) st) (hlow : st.low ≤ limit) :
    ∃ st1, segment_body F limit (isqrt limit) (16 * ss0) st = .ok st1 ∧
      st1.low = st.low ∧ Inv limit (16 * ss0) { st1 with low := st1.low + 16 * ss0 } := by
  have hseg : 1 ≤ 16 * ss0 := by omega
  have hhigh := segment_high_eq st.low (16 * ss0) limit hseg
  have hls := hinv.live hlow
  have hlow16 := hinv.low16
  have hmem : memset st.sieve.data 0xff st.sieve.size
      = .ok (List.replicate (16 * ss0) 255) := by
    unfold memset
    rw [hinv.sieve_size, hinv.sieve_len]
    simp [← hinv.sieve_len]
  obtain ⟨ip1, i1, pa1, mu1, s1, sv1, md1, hrun1, hrun2, hrun3, hbase1, hi1, hi3, hpa1, hmu1,
      hs1, hs3, hsle1, hhs1, hvals1, hoff1, hgood1, hlive⟩ :=
    sweep_spec clear_bit (GoodP (16 * ss0)) LiveP (fun x => x % 2 = 1) (16 * ss0) limit F st.low
      (clear_bit_spec (16 * ss0)) (fun x p hx => by omega)
      (fun p off hp hoff => odd_offset (by omega) hp hoff) hseg
      hF1 hF2 st.is_prime.data st.i st.s st.prime_arr st.multiples
      (List.replicate (16 * ss0) 255) hinv.base hinv.i_odd hinv.i_ge hinv.pa_wf hinv.mu_wf
      hinv.s_odd hinv.s_ge hinv.s_le hls hinv.vals hinv.off
      ⟨by simp, fun b hb => by rw [List.eq_of_mem_replicate hb]; omega⟩
  unfold segment_body
  generalize segment_high st.low (16 * ss0) limit = high at hhigh hrun1 hrun2 hhs1 ⊢
  have hlh : st.low ≤ high := by omega
  have hhl : high ≤ limit := by omega
  have hbits := sieve_bits st.low high s1 ss0 sv1 hgood1 hhs1 hlive (by omega)
  obtain ⟨sv2, hrun4, hgood2, hframe, hmask⟩ :=
    mask_tail_spec limit high ((high - st.low) / 16 + 1) (16 * ss0) sv1 hgood1 (by omega)
      (by omega)
  have hfinal := masked_bits limit st.low high ss0 sv1 sv2 hlow16 hlh hhl hss0 hhigh hbits
    hgood2 hframe hmask
  have hbyte : ∀ b, b < (high - st.low) / 16 + 1 → ∃ byte c, sv2[b]? = some byte ∧
      popcnt[byte]? = some c ∧
      (Nat.count (Counted limit) (st.low + 16 * (b + 1)) : Int)
        = Nat.count (Counted limit) (st.low + 16 * b) + c := by
    intro b hb
    obtain ⟨byte, hget, hlt, hiff⟩ := hfinal b hb
    obtain ⟨c, hpop, hcnt⟩ := byte_count limit (st.low + 16 * b) byte (by omega) hlt hiff
    refine ⟨byte, c, hget, hpop, ?_⟩
    rw [show st.low + 16 * (b + 1) = st.low + 16 * b + 16 from by ring]
    exact hcnt
  obtain ⟨count1, hrun5, hcount1⟩ :=
    count_loop_spec limit st.low sv2 ((high - st.low) / 16 + 1) hbyte F st.count 0
      (by omega) (by omega) (by omega)
  have hcnt_next : Nat.count (Counted limit) (st.low + 16 * ((high - st.low) / 16 + 1))
      = Nat.count (Counted limit) (st.low + 16 * ss0) := by
    rcases Nat.lt_or_ge limit (st.low + 16 * ss0) with hlast | hmore
    · rw [count_stable limit (by omega : limit < st.low + 16 * ((high - st.low) / 16 + 1)),
        count_stable limit hlast]
    · have : (high - st.low) / 16 + 1 = ss0 := by omega
      rw [this]
  rw [hmem]
  simp only
  rw [usub_of_le hlh]
  simp only
  rw [hrun1]
  simp only
  rw [hrun2]
  simp only
  rw [hrun3]
  simp only
  rw [hrun4]
  simp only
  rw [hrun5]
  refine ⟨_, rfl, rfl, ?_⟩
  constructor
  · exact hbase1
  · exact hi1
  · exact hi3
  · exact hpa1
  · exact hmu1
  · exact hs1
  · exact hs3
  · exact hsle1
  · exact hvals1
  · exact hoff1
  · exact hinv.sieve_size
  · exact hgood2.1
  · show (st.low + 16 * ss0) % 16 = 0
    omega
  · show count1 = (if limit = 1 then -1 else 0)
      + (Nat.count (Counted limit) (st.low + 16 * ss0) : Int)
    rw [← hcnt_next]
    have h0 := hinv.count
    simp only [Nat.mul_zero, Nat.add_zero] at hcount1
    linarith
  · show st.low + 16 * ss0 ≤ limit → st.low + 16 * ss0 ≤ s1 * s1
    intro h
    omega

theorem bit_segment_loop_spec (F limit ss0 : Nat) (hss0 : 1 ≤ ss0)
    (hF1 : isqrt limit + 4 ≤ F) (hF2 : 16 * ss0 + 2 ≤ F) :
    ∀ fuel st, Inv limit (16 * ss0) st → 1 ≤ fuel → limit + 2 ≤ fuel + st.low →
      ∃ k st1, segment_loop F limit (isqrt limit) (16 * ss0) fuel st = .ok st1 ∧
        segment_steps F limit (isqrt limit) (16 * ss0) k st = .ok st1 ∧
        Inv limit (16 * ss0) st1 ∧ limit < st1.low ∧
        st1.low = st.low + k * (16 * ss0) ∧
        (k = 0 ∨ st.low + (k - 1) * (16 * ss0) ≤ limit) := by
  intro fuel
  induction fuel with
  | zero => intro st _ h; omega
  | succ fuel ih =>
    intro st hinv _ hfuel
    unfold segment_loop
    split
    · rename_i hlow
      obtain ⟨st2, hrun, hlow2, hinv2⟩ :=
        bit_segment_body_spec F limit ss0 hss0 hF1 hF2 st hinv hlow
      rw [hrun]
      simp only
      obtain ⟨k, st1, hrun1, hsteps, hinv1, hdone, hlow1, hk⟩ :=
        ih { st2 with low := st2.low + 16 * ss0 } hinv2 (by omega)
          (by simp only; omega)
      refine ⟨k + 1, st1, hrun1, ?_, hinv1, hdone, ?_, Or.inr ?_⟩
      · unfold segment_steps
        rw [hrun]
        exact hsteps
      · rw [hlow1]
        simp only [hlow2]
        ring
      · simp only [hlow2] at hk hlow1
        rcases hk with h0 | hle
        · subst h0; simpa using hlow
        · have hk1 : 1 ≤ k := by
            by_contra hcon
            have : k = 0 := by omega
            subst this
            simp at hle
            omega
          have : st.low + (k + 1 - 1) * (16 * ss0)
              = st.low + 16 * ss0 + (k - 1) * (16 * ss0) := by
            obtain ⟨j, rfl⟩ : ∃ j, k = j + 1 := ⟨k - 1, by omega⟩
            simp only [Nat.add_sub_cancel]
            ring
          rw [this]
          exact hle
    · rename_i hlow
      exact ⟨0, st, rfl, rfl, hinv, by omega, by simp, Or.inl rfl⟩

theorem segment_size_eq (c N : Nat) :
    segment_size c N = 16 * ((if isqrt N < c then c else isqrt N) % 2 ^ 60) := by
  unfold segment_size
  omega

/-- The product `sieve_size * 16` is exact when it is below `2^64`. -/
theorem segment_size_exact (c N : Nat)
    (hexact : (if isqrt N < c then c else isqrt N) * 16 < 2 ^ 64) :
    segment_size c N = (if isqrt N < c then c else isqrt N) * 16 := by
  unfold segment_size
  exact Nat.mod_eq_of_lt hexact

theorem segment_size_le (c N : Nat) : segment_size c N ≤ 16 * (N + c) := by
  have hsq := isqrt_le N
  have h := Nat.mod_le ((if isqrt N < c then c else isqrt N) * 16) (2 ^ 64)
  unfold segment_size
  split at h <;> split <;> omega

theorem bit_init_inv (c a N : Nat) (ha : 1 ≤ a) :
    Inv N (segment_size c N) (init_state c a N) := by
  constructor
  · exact baseInv_init (isqrt N) 255 (by omega)
  · show 3 % 2 = 1
    rfl
  · exact le_rfl
  · exact create_uint64_vector_WF ha
  · exact create_uint64_vector_WF ha
  · show 3 % 2 = 1
    rfl
  · exact le_rfl
  · show 3 ≤ isqrt N + 3
    omega
  · show (create_uint64_vector a).vals = oddPrimesBelow 3
    rw [create_uint64_vector_vals, oddPrimesBelow_three]
  · exact offInv_init 0 a
  · rfl
  · show (List.replicate ((if isqrt N < c then c else isqrt N) * 16 % 2 ^ 64) 255).length
      = segment_size c N
    rw [List.length_replicate]
    rfl
  · rfl
  · show (if N = 1 then (-1 : Int) else 0)
      = (if N = 1 then -1 else 0) + (Nat.count (Counted N) 0 : Int)
    simp
  · intro _
    exact Nat.zero_le _

/-- The run of the bit-packed engine: when the segment size is not `0`, with
enough fuel the segment loop returns after `N / segment_size + 1` executions of
its body with the number of primes up to `N` in `count`. -/
theorem bit_run_spec (F c a N : Nat) (hw : 1 ≤ segment_size c N) (ha : 1 ≤ a)
    (hF : 16 * (N + c) + 4 ≤ F) :
    ∃ st1, segment_loop F N (isqrt N) (segment_size c N) F (init_state c a N) = .ok st1 ∧
      segment_steps F N (isqrt N) (segment_size c N) (N / segment_size c N + 1)
        (init_state c a N) = .ok st1 ∧
      N < st1.low ∧
      st1.low = (N / segment_size c N + 1) * segment_size c N ∧
      st1.count = (Nat.primeCounting N : Int) := by
  have hsq := isqrt_le N
  have hle := segment_size_le c N
  have hinit := bit_init_inv c a N ha
  rw [segment_size_eq] at hw hle hinit ⊢
  obtain ⟨ss0, hss0⟩ : ∃ ss0, (if isqrt N < c then c else isqrt N) % 2 ^ 60 = ss0 := ⟨_, rfl⟩
  rw [hss0] at hw hle hinit ⊢
  obtain ⟨k, st1, hrun, hsteps, hinv, hdone, hlow, hk⟩ :=
    bit_segment_loop_spec F N ss0 (by omega) (by omega) (by omega) F
      (init_state c a N) hinit (by omega) (by omega)
  have hlow0 : (init_state c a N).low = 0 := rfl
  rw [hlow0, Nat.zero_add] at hlow hk
  have hkeq := steps_count (by rw [← hlow]; exact hdone) hk
  refine ⟨st1, hrun, by rw [← hkeq]; exact hsteps, hdone, by rw [← hkeq]; exact hlow, ?_⟩
  rw [hinv.count, count_stable N hdone, counted_total]

theorem bit_segmented_sieve_spec (F c a N : Nat) (hw : 1 ≤ segment_size c N) (ha : 1 ≤ a)
    (hF : 16 * (N + c) + 4 ≤ F) :
    segmented_sieve F c a N = .ok (Nat.primeCounting N : Int) := by
  obtain ⟨st1, hrun, _, _, _, hcount⟩ := bit_run_spec F c a N hw ha hF
  unfold segment_size at hrun
  unfold segmented_sieve
  simp only
  rw [hrun]
  simp only [hcount]

/-- The segment size of a budget `>= 1`, or of a limit `>= 1`, whose product
`sieve_size * 16` is exact is not `0`. -/
theorem segment_size_pos (c N : Nat) (hseg : 1 ≤ N ∨ 1 ≤ c)
    (hexact : (if isqrt N < c then c else isqrt N) * 16 < 2 ^ 64) :
    1 ≤ segment_size c N := by
  rw [segment_size_exact c N hexact]
  rcases hseg with h | h
  · have := isqrt_pos h
    split <;> omega
  · split <;> omega

end BitSieve


/-! ## A segment size of zero -/

theorem clear_loop_zero (clear : List Nat → Nat → Except Fault (List Nat)) (k : Nat)
    (fuel : Nat) (sv : List Nat) (j : Nat) :
    clear_loop clear 0 k (fuel + 1) sv j = .ok (sv, j) := by
  unfold clear_loop
  rw [if_neg (Nat.not_lt_zero j)]

theorem clear_loop_zero_inv (clear : List Nat → Nat → Except Fault (List Nat)) (k : Nat)
    (fuel : Nat) (sv : List Nat) (j : Nat) (sv1 : List Nat) (j1 : Nat)
    (h : clear_loop clear 0 k fuel sv j = .ok (sv1, j1)) : sv1 = sv ∧ j1 = j := by
  cases fuel with
  | zero => simp [clear_loop] at h
  | succ fuel =>
    rw [clear_loop_zero] at h
    have h1 := Except.ok.inj h
    exact ⟨(congrArg Prod.fst h1).symm, (congrArg Prod.snd h1).symm⟩

/-- With a segment size of `0` the crossing-off loop clears nothing. -/
theorem cross_off_loop_zero_sieve (clear : List Nat → Nat → Except Fault (List Nat))
    (F : Nat) (pa : uint64vec_t) :
    ∀ fuel sv md t sv1 md1, cross_off_loop clear F 0 pa fuel sv md t = .ok (sv1, md1) →
      sv1 = sv := by
  intro fuel
  induction fuel with
  | zero =>
    intro sv md t sv1 md1 h
    simp [cross_off_loop] at h
  | succ fuel ih =>
    intro sv md t sv1 md1 h
    unfold cross_off_loop at h
    split at h
    · split at h
      · split at h
        · split at h
          · rename_i d j1 hclear
            split at h
            · split at h
              · rename_i m _
                have := ih d m (t + 1) sv1 md1 h
                rw [this]
                exact (clear_loop_zero_inv clear _ _ _ _ _ _ hclear).1
              · cases h
            · cases h
          · cases h
        · cases h
      · cases h
    · have h1 := Except.ok.inj h
      exact (congrArg Prod.fst h1).symm

/-- With a segment size of `0` and enough fuel the crossing-off loop returns
the sieve and the offsets as they are. -/
theorem cross_off_loop_zero (clear : List Nat → Nat → Except Fault (List Nat))
    (F : Nat) (pa : uint64vec_t) (hF : 1 ≤ F) (hpa : pa.size ≤ pa.data.length) :
    ∀ fuel sv md t, pa.size ≤ md.length → pa.size ≤ fuel + t →
      cross_off_loop clear F 0 pa (fuel + 1) sv md t = .ok (sv, md) := by
  intro fuel
  induction fuel with
  | zero =>
    intro sv md t _ hfuel
    unfold cross_off_loop
    rw [if_neg (by omega)]
  | succ fuel ih =>
    intro sv md t hmd hfuel
    unfold cross_off_loop
    split
    · rename_i hlt
      obtain ⟨j, hj, hget⟩ := load_of_lt (show t < md.length by omega)
      obtain ⟨p, hp, _⟩ := load_of_lt (show t < pa.data.length by omega)
      obtain ⟨F1, rfl⟩ : ∃ F1, F = F1 + 1 := ⟨F - 1, by omega⟩
      rw [hj, hp]
      simp only
      rw [clear_loop_zero]
      simp only
      rw [usub_of_le (Nat.zero_le j)]
      simp only [Nat.sub_zero]
      rw [store_of_lt _ (show t < md.length by omega)]
      simp only
      have hset : md.set t j = md := by
        apply List.ext_getElem?
        intro n
        rw [List.getElem?_set]
        split
        · rename_i hn
          subst hn
          rw [if_pos (by omega), hget]
        · rfl
      rw [hset]
      exact ih sv md (t + 1) hmd (by omega)
    · rfl

namespace BitSieve

theorem bit_body_inv (F limit sqrtval segment_size : Nat) (st st1 : State)
    (h : segment_body F limit sqrtval segment_size st = .ok st1) :
    ∃ sv0 width ip i pa mu s sv md sv2 count,
      memset st.sieve.data 0xff st.sieve.size = .ok sv0 ∧
      usub (segment_high st.low segment_size limit) st.low = .ok width ∧
      base_loop F sqrtval (segment_high st.low segment_size limit) F st.is_prime.data st.i
        = .ok (ip, i) ∧
      append_loop ip st.low (segment_high st.low segment_size limit) F st.prime_arr
        st.multiples st.s = .ok (pa, mu, s) ∧
      cross_off_loop clear_bit F segment_size pa F sv0 mu.data 0 = .ok (sv, md) ∧
      mask_tail limit (segment_high st.low segment_size limit) (width / 16 + 1) sv = .ok sv2 ∧
      count_loop sv2 (width / 16 + 1) F st.count 0 = .ok count ∧
      st1.low = st.low ∧ st1.i = i ∧ st1.s = s ∧ st1.count = count ∧ st1.prime_arr = pa ∧
      st1.multiples.data = md ∧ st1.multiples.size = mu.size ∧
      st1.is_prime.data = ip ∧ st1.sieve.data = sv2 := by
  unfold segment_body at h
  split at h
  · cases h
  · rename_i sv0 hmem
    simp only at h
    split at h
    · cases h
    · rename_i width hwidth
      split at h
      · cases h
      · rename_i ip i hbase
        split at h
        · cases h
        · rename_i pa mu s happ
          split at h
          · cases h
          · rename_i sv md hcross
            split at h
            · cases h
            · rename_i sv2 hmask
              split at h
              · cases h
              · rename_i count hcount
                have h' := Except.ok.inj h
                subst h'
                exact ⟨sv0, width, ip, i, pa, mu, s, sv, md, sv2, count, hmem, hwidth, hbase,
                  happ, hcross, hmask, hcount, rfl, rfl, rfl, rfl, rfl, rfl, rfl, rfl, rfl⟩

/-- The body of the segment loop does not return when the segment size is `0`:
the sieve has no byte, and the tail mask or the first step of the harvest
faults at byte `0`. -/
theorem bit_body_zero_faults (F limit sqrtval : Nat) (st : State)
    (hdata : st.sieve.data = []) (hsize : st.sieve.size = 0) :
    ∀ st1, segment_body F limit sqrtval 0 st ≠ .ok st1 := by
  intro st1 h
  obtain ⟨sv0, width, ip, i, pa, mu, s, sv, md, sv2, count, hmem, _, _, _, hcross, hmask,
      hcount, _⟩ := bit_body_inv F limit sqrtval 0 st st1 h
  have hsv0 : sv0 = [] := by
    rw [hdata, hsize] at hmem
    simp [memset] at hmem
    exact hmem
  have hsv : sv = [] := by
    rw [cross_off_loop_zero_sieve clear_bit F pa F sv0 mu.data 0 sv md hcross, hsv0]
  subst hsv
  unfold mask_tail at hmask
  split at hmask
  · simp [load] at hmask
  · have hsv2 : sv2 = [] := (Except.ok.inj hmask).symm
    subst hsv2
    cases F with
    | zero => simp [count_loop] at hcount
    | succ F =>
      unfold count_loop at hcount
      rw [if_pos (by omega)] at hcount
      simp [load] at hcount

/-- The count engine returns no count when its segment size is `0`, whatever
the fuel. -/
theorem bit_zero_segment_faults (F c a N : Nat) (h0 : segment_size c N = 0) :
    (∀ st, segment_loop F N (isqrt N) (segment_size c N) F (init_state c a N) ≠ .ok st) ∧
      ∀ r, segmented_sieve F c a N ≠ .ok r := by
  have hdata : (init_state c a N).sieve.data = [] := by
    show List.replicate ((if isqrt N < c then c else isqrt N) * 16 % 2 ^ 64) 255 = []
    have : (if isqrt N < c then c else isqrt N) * 16 % 2 ^ 64 = 0 := h0
    rw [this]
    rfl
  have hsize : (init_state c a N).sieve.size = 0 := h0
  have hloop : ∀ st, segment_loop F N (isqrt N) (segment_size c N) F (init_state c a N)
      ≠ .ok st := by
    intro st h
    rw [h0] at h
    cases F with
    | zero => simp [segment_loop] at h
    | succ F =>
      unfold segment_loop at h
      rw [if_pos (show (init_state c a N).low ≤ N from Nat.zero_le N)] at h
      split at h
      · rename_i st1 hbody
        exact bit_body_zero_faults _ _ _ _ hdata hsize st1 hbody
      · cases h
  refine ⟨hloop, fun r h => ?_⟩
  unfold segmented_sieve at h
  simp only at h
  split at h
  · rename_i st hrun
    exact hloop st hrun
  · cases h

end BitSieve


/-! ## Reference counts -/

theorem trial_division_prime_iff (n : Nat) : trial_division_prime n = true ↔ Nat.Prime n := by
  unfold trial_division_prime
  rw [Nat.prime_def_lt]
  simp only [Bool.and_eq_true, decide_eq_true_eq, List.all_eq_true, List.mem_range,
    Bool.or_eq_true]
  constructor
  · rintro ⟨h2, hall⟩
    refine ⟨h2, fun m hm hdvd => ?_⟩
    rcases hall m hm with h | h
    · rcases Nat.eq_zero_or_pos m with h0 | hpos
      · subst h0
        have := Nat.eq_zero_of_zero_dvd hdvd
        omega
      · omega
    · exact absurd (Nat.mod_eq_zero_of_dvd hdvd) h
  · rintro ⟨h2, hall⟩
    refine ⟨h2, fun d hd => ?_⟩
    by_cases hd2 : d < 2
    · exact Or.inl hd2
    · right
      intro hmod
      have := hall d hd (Nat.dvd_of_mod_eq_zero hmod)
      omega

theorem count_eq_length_filter (p : Nat → Prop) [DecidablePred p] (n : Nat) :
    Nat.count p n = ((List.range n).filter (fun x => decide (p x))).length := by
  induction n with
  | zero => simp
  | succ n ih =>
    rw [Nat.count_succ, List.range_succ, List.filter_append, List.length_append, ih]
    by_cases h : p n
    · simp [List.filter, h]
    · simp [List.filter, h]

theorem primeCounting_eq_length (N : Nat) :
    Nat.primeCounting N = ((List.range (N + 1)).filter (fun p => decide (Nat.Prime p))).length :=
  count_eq_length_filter Nat.Prime (N + 1)

theorem trial_division_count_eq (N : Nat) : trial_division_count N = Nat.primeCounting N := by
  rw [primeCounting_eq_length]
  unfold trial_division_count
  congr 1
  apply List.filter_congr
  intro x _
  rw [Bool.eq_iff_iff, trial_division_prime_iff]
  simp

theorem primes_upto_sorted (N : Nat) :
    List.Pairwise (· < ·) ((List.range (N + 1)).filter (fun p => decide (Nat.Prime p))) :=
  List.Pairwise.filter _ (List.pairwise_lt_range _)

theorem no_small_divisor {p : Nat} (hp : Nat.Prime p) :
    ∀ d, 2 ≤ d → d * d ≤ p → ¬ d ∣ p := by
  intro d hd hdd hdvd
  rcases hp.eq_one_or_self_of_dvd d hdvd with h | h
  · omega
  · subst h
    nlinarith


/-! ## The claims -/

/-- C1: for every `N` (in particular every `N >= 2`) and every cache budget
whose segment size, the `uint64_t` product `sieve_size * 16`, is not `0` (in
particular every budget `>= 1` for which the product is exact, that is below
`2^64`), with enough fuel the count engine returns the number of primes
`p <= N`, which is the count that trial division finds. -/
theorem count_engine_matches_trial_division (F L1D_CACHE approx_arr_size N : Nat)
    (hw : BitSieve.segment_size L1D_CACHE N ≠ 0) (ha : 1 ≤ approx_arr_size)
    (hF : 16 * (N + L1D_CACHE) + 4 ≤ F) :
    BitSieve.segmented_sieve F L1D_CACHE approx_arr_size N
        = .ok ((Nat.primeCounting N : Nat) : Int) ∧
      Nat.primeCounting N = trial_division_count N :=
  ⟨BitSieve.bit_segmented_sieve_spec F L1D_CACHE approx_arr_size N (Nat.pos_of_ne_zero hw) ha hF,
    (trial_division_count_eq N).symm⟩

theorem count_engine_matches_trial_division_witness :
    BitSieve.segmented_sieve 180 1 1 10 = .ok ((Nat.primeCounting 10 : Nat) : Int) ∧
      Nat.primeCounting 10 = trial_division_count 10 :=
  count_engine_matches_trial_division 180 1 1 10 (by decide) (by decide) (by decide)

/-- C2: for every `N >= 2` and every cache budget `>= 1`, with enough fuel the
enumerate engine prints exactly the primes `p <= N`, in strictly ascending
order and without duplicate; no printed `p` has a divisor `d` with
`2 <= d` and `d * d <= p`; the printed count is the number of printed values. -/
theorem enumerate_engine_lists_primes (F L1D_CACHE approx_arr_size N : Nat)
    (hN : 2 ≤ N) (hc : 1 ≤ L1D_CACHE) (ha : 1 ≤ approx_arr_size)
    (hF : N + L1D_CACHE + 4 ≤ F) :
    ∃ out count, Sieve.segmented_sieve F L1D_CACHE approx_arr_size N = .ok (out, count) ∧
      out = (List.range (N + 1)).filter (fun p => decide (Nat.Prime p)) ∧
      List.Pairwise (· < ·) out ∧ out.Nodup ∧
      (∀ p, p ∈ out → ∀ d, 2 ≤ d → d * d ≤ p → ¬ d ∣ p) ∧
      count = (out.length : Int) := by
  have hrun := Sieve.byte_segmented_sieve_spec F L1D_CACHE approx_arr_size N (Or.inr hc) ha hF
  rw [← primes_upto_eq hN] at hrun
  refine ⟨_, _, hrun, rfl, primes_upto_sorted N, ?_, ?_, rfl⟩
  · exact (primes_upto_sorted N).imp (fun h => Nat.ne_of_lt h)
  · intro p hp
    have hprime : Nat.Prime p := by
      have := (List.mem_filter.1 hp).2
      simpa using this
    exact no_small_divisor hprime

theorem enumerate_engine_lists_primes_witness :
    ∃ out count, Sieve.segmented_sieve 20 1 1 10 = .ok (out, count) ∧
      out = (List.range (10 + 1)).filter (fun p => decide (Nat.Prime p)) ∧
      List.Pairwise (· < ·) out ∧ out.Nodup ∧
      (∀ p, p ∈ out → ∀ d, 2 ≤ d → d * d ≤ p → ¬ d ∣ p) ∧
      count = (out.length : Int) :=
  enumerate_engine_lists_primes 20 1 1 10 (by decide) (by decide) (by decide) (by decide)

/-- Support for C3: from `N = 2` on, for a cache budget `>= 1` whose segment
size in the count engine is not `0`, the count of the bit-packed engine is the
number of values that the byte-array engine prints. -/
theorem count_eq_length_enumerate_from_two (F L1D_CACHE approx_arr_size N : Nat)
    (hN : 2 ≤ N) (hc : 1 ≤ L1D_CACHE) (hw : BitSieve.segment_size L1D_CACHE N ≠ 0)
    (ha : 1 ≤ approx_arr_size) (hF : 16 * (N + L1D_CACHE) + 4 ≤ F) :
    ∃ out count, Sieve.segmented_sieve F L1D_CACHE approx_arr_size N = .ok (out, count) ∧
      BitSieve.segmented_sieve F L1D_CACHE approx_arr_size N = .ok (out.length : Int) := by
  refine ⟨_, _, Sieve.byte_segmented_sieve_spec F L1D_CACHE approx_arr_size N (Or.inr hc) ha
    (by omega), ?_⟩
  rw [BitSieve.bit_segmented_sieve_spec F L1D_CACHE approx_arr_size N (Nat.pos_of_ne_zero hw) ha hF,
    primeCounting_eq_length, primes_upto_eq hN]

set_option maxRecDepth 100000 in
/-- C3, at the failing input `N = 1`, cache budget `1`: the count engine
returns `0` while the enumerate engine prints one value, the number `2`. -/
theorem count_differs_from_enumerate_length_at_one :
    BitSieve.segmented_sieve 100 1 1 1 = .ok 0 ∧
      Sieve.segmented_sieve 100 1 1 1 = .ok ([2], 1) ∧
      ((0 : Int) ≠ (([2] : List Nat).length : Int)) := by
  decide

/-- Support for C4: for `N = 1` and every cache budget the enumerate engine
prints `2` and reports the count `1`. -/
theorem enumerate_one_any_cache (F L1D_CACHE approx_arr_size : Nat)
    (ha : 1 ≤ approx_arr_size) (hF : L1D_CACHE + 5 ≤ F) :
    Sieve.segmented_sieve F L1D_CACHE approx_arr_size 1 = .ok ([2], 1) := by
  have h := Sieve.byte_segmented_sieve_spec F L1D_CACHE approx_arr_size 1 (Or.inl le_rfl) ha
    (by omega)
  have h2 : oddPrimesBelow (1 + 1) = [] := by
    have h0 : ¬ Nat.Prime 0 := by decide
    have h1 : ¬ Nat.Prime 1 := by decide
    simp [oddPrimesBelow, List.range_succ, List.filter, h0, h1]
  rw [h2] at h
  exact h

set_option maxRecDepth 100000 in
/-- C4, at the failing input `N = 1`, cache budget `1`: the enumerate engine
prints the value `2` and reports the count `1`, not an empty result. -/
theorem enumerate_one_prints_two :
    Sieve.segmented_sieve 100 1 1 1 = .ok ([2], 1) := by
  decide


set_option maxRecDepth 1000000 in
theorem primeCounting_values :
    Nat.primeCounting 1 = 0 ∧ Nat.primeCounting 2 = 1 ∧ Nat.primeCounting 3 = 2 ∧
      Nat.primeCounting 10 = 4 ∧ Nat.primeCounting 100 = 25 := by
  decide

theorem isqrt_lt_of_lt_sq {N b : Nat} (h : N < b * b) : isqrt N < b := by
  by_contra hcon
  have := le_isqrt_iff.1 (Nat.le_of_not_lt hcon)
  omega

/-- The segment size of the count engine is not `0` when neither the budget
nor the square root is a multiple of `2^60`. -/
theorem segment_size_pos_of_mod (c N : Nat) (hN : 1 ≤ N) (hsq : isqrt N < 2 ^ 60)
    (hc : 1 ≤ c % 2 ^ 60) : 1 ≤ BitSieve.segment_size c N := by
  have hpos := isqrt_pos hN
  rw [BitSieve.segment_size_eq]
  split
  · omega
  · have : isqrt N % 2 ^ 60 = isqrt N := Nat.mod_eq_of_lt hsq
    omega

/-- C5, counterexample: the cache budget `2^60` is `>= 1`; its segment size
`2^60 * 16` wraps to `0`, and whatever the fuel the count engine does not
return `4` for `N = 10`. -/
theorem count_engine_fails_at_wrapped_budget :
    (1 : Nat) ≤ 2 ^ 60 ∧ BitSieve.segment_size (2 ^ 60) 10 = 0 ∧
      ∀ F approx_arr_size, BitSieve.segmented_sieve F (2 ^ 60) approx_arr_size 10 ≠ .ok 4 :=
  ⟨by decide, by decide, fun F a =>
    (BitSieve.bit_zero_segment_faults F (2 ^ 60) a 10 (by decide)).2 4⟩

/-- C5, amended: for every cache budget that is not a multiple of `2^60` (every
budget from `1` to `2^60 - 1` is one), with enough fuel the count engine
returns `0` for `N = 1`, `1` for `N = 2`, `2` for `N = 3`, `4` for `N = 10` and
`25` for `N = 100`; for `N = 1` the count starts at `-1`, and the tail mask of
that run keeps, of the eight bits of the first byte, only bit `0`, the bit of
the integer `1`. -/
theorem count_engine_small_values (F L1D_CACHE approx_arr_size : Nat)
    (hc : 1 ≤ L1D_CACHE % 2 ^ 60) (ha : 1 ≤ approx_arr_size)
    (hF : 16 * (100 + L1D_CACHE) + 4 ≤ F) :
    BitSieve.segmented_sieve F L1D_CACHE approx_arr_size 1 = .ok 0 ∧
      BitSieve.segmented_sieve F L1D_CACHE approx_arr_size 2 = .ok 1 ∧
      BitSieve.segmented_sieve F L1D_CACHE approx_arr_size 3 = .ok 2 ∧
      BitSieve.segmented_sieve F L1D_CACHE approx_arr_size 10 = .ok 4 ∧
      BitSieve.segmented_sieve F L1D_CACHE approx_arr_size 100 = .ok 25 ∧
      (BitSieve.init_state L1D_CACHE approx_arr_size 1).count = -1 ∧
      (∀ sieve b, sieve[0]? = some b → ∃ b1,
        BitSieve.mask_tail 1 1 1 sieve = .ok (sieve.set 0 b1) ∧
        ∀ k, k < 8 → b1.testBit k = (b.testBit k && decide (k = 0))) := by
  obtain ⟨h1, h2, h3, h10, h100⟩ := primeCounting_values
  have hrun : ∀ N, 1 ≤ N → N ≤ 100 → BitSieve.segmented_sieve F L1D_CACHE approx_arr_size N
      = .ok ((Nat.primeCounting N : Nat) : Int) := fun N hN1 hN =>
    BitSieve.bit_segmented_sieve_spec F L1D_CACHE approx_arr_size N
      (segment_size_pos_of_mod L1D_CACHE N hN1
        (lt_of_le_of_lt (isqrt_le N) (by omega)) hc) ha (by omega)
  refine ⟨?_, ?_, ?_, ?_, ?_, rfl, ?_⟩
  · rw [hrun 1 (by omega) (by omega), h1]; rfl
  · rw [hrun 2 (by omega) (by omega), h2]; rfl
  · rw [hrun 3 (by omega) (by omega), h3]; rfl
  · rw [hrun 10 (by omega) (by omega), h10]; rfl
  · rw [hrun 100 (by omega) (by omega), h100]; rfl
  · intro sieve b hb
    have hlen : 0 < sieve.length := by
      by_contra hcon
      rw [List.getElem?_eq_none (by omega)] at hb
      cases hb
    refine ⟨BitSieve.to_uint8 (b &&& BitSieve.bits64 (~~~(((0xff <<< ((1 % 16 + 1) / 2) : Nat)
      : Int)))), ?_, fun k hk => ?_⟩
    · unfold BitSieve.mask_tail
      rw [if_pos rfl]
      simp only [Nat.sub_self]
      rw [load_eq_ok.2 hb]
      simp only
      exact store_of_lt _ hlen
    · rw [BitSieve.testBit_to_uint8 _ _ hk, Nat.testBit_land,
        BitSieve.tail_mask_spec ((1 % 16 + 1) / 2) (by decide) k hk]
      have : (1 % 16 + 1) / 2 = 1 := by decide
      rw [this]
      congr 1
      simp only [decide_eq_decide]
      omega

theorem count_engine_small_values_witness :
    BitSieve.segmented_sieve 1620 1 1 1 = .ok 0 ∧
      BitSieve.segmented_sieve 1620 1 1 2 = .ok 1 ∧
      BitSieve.segmented_sieve 1620 1 1 3 = .ok 2 ∧
      BitSieve.segmented_sieve 1620 1 1 10 = .ok 4 ∧
      BitSieve.segmented_sieve 1620 1 1 100 = .ok 25 ∧
      (BitSieve.init_state 1 1 1).count = -1 ∧
      (∀ sieve b, sieve[0]? = some b → ∃ b1,
        BitSieve.mask_tail 1 1 1 sieve = .ok (sieve.set 0 b1) ∧
        ∀ k, k < 8 → b1.testBit k = (b.testBit k && decide (k = 0))) :=
  count_engine_small_values 1620 1 1 (by decide) (by decide) (by decide)

/-- Support for C7: from `N = 2` on, no value greater than `N` is printed by
the enumerate engine. -/
theorem enumerate_stays_below_limit_from_two (F L1D_CACHE approx_arr_size N : Nat)
    (hN : 2 ≤ N) (hc : 1 ≤ L1D_CACHE) (ha : 1 ≤ approx_arr_size)
    (hF : N + L1D_CACHE + 4 ≤ F) :
    ∃ out count, Sieve.segmented_sieve F L1D_CACHE approx_arr_size N = .ok (out, count) ∧
      ∀ p, p ∈ out → p ≤ N := by
  have hrun := Sieve.byte_segmented_sieve_spec F L1D_CACHE approx_arr_size N (Or.inr hc) ha hF
  rw [← primes_upto_eq hN] at hrun
  refine ⟨_, _, hrun, fun p hp => ?_⟩
  have := (List.mem_filter.1 hp).1
  rw [List.mem_range] at this
  omega

set_option maxRecDepth 100000 in
/-- C7, at the failing input `N = 1`, cache budget `1`: `N + 1` is prime and the
enumerate engine prints `2`, a value greater than `N`. -/
theorem enumerate_prints_above_limit_at_one :
    Nat.Prime (1 + 1) ∧ Sieve.segmented_sieve 100 1 1 1 = .ok ([2], 1) ∧
      (2 ∈ ([2] : List Nat) ∧ 1 < 2) := by
  decide


set_option maxRecDepth 100000 in
/-- C8, counterexample: with the cache budget `0` and `N = 4` both engines
return a result instead of an error (the count `2`; the values `2 3` and the
count `2`), and the segment loop of each engine executes its body (three times
in the enumerate engine, once in the count engine). -/
theorem invalid_input_is_processed :
    BitSieve.segmented_sieve 100 0 1 4 = .ok 2 ∧
      Sieve.segmented_sieve 100 0 1 4 = .ok ([2, 3], 2) ∧
      Sieve.segment_size 0 4 = 2 ∧ BitSieve.segment_size 0 4 = 32 ∧
      Sieve.segment_loop 100 4 (isqrt 4) 2 100 (Sieve.init_state 0 1 4)
        = Sieve.segment_steps 100 4 (isqrt 4) 2 3 (Sieve.init_state 0 1 4) ∧
      BitSieve.segment_loop 100 4 (isqrt 4) 32 100 (BitSieve.init_state 0 1 4)
        = BitSieve.segment_steps 100 4 (isqrt 4) 32 1 (BitSieve.init_state 0 1 4) := by
  decide

/-- C8, amended: a cache budget of `0` is not rejected. For the cache budget
`0` and every `N` with `2 <= N < 2^63`, each engine runs its sweep with the
segment size that the square root alone gives: with enough fuel the segment
loop executes `N / segment_size + 1` segments and the engine returns its
result, the number of primes up to `N` for the count engine, and the primes up
to `N` for the enumerate engine. -/
theorem zero_budget_is_swept (F approx_arr_size N : Nat)
    (hN : 2 ≤ N) (hN63 : N < 2 ^ 63) (ha : 1 ≤ approx_arr_size) (hF : 16 * N + 4 ≤ F) :
    (BitSieve.segment_size 0 N = isqrt N * 16 ∧
      ∃ st, BitSieve.segment_loop F N (isqrt N) (BitSieve.segment_size 0 N) F
          (BitSieve.init_state 0 approx_arr_size N) = .ok st ∧
        BitSieve.segment_steps F N (isqrt N) (BitSieve.segment_size 0 N)
          (N / BitSieve.segment_size 0 N + 1) (BitSieve.init_state 0 approx_arr_size N)
          = .ok st ∧
        BitSieve.segmented_sieve F 0 approx_arr_size N
          = .ok ((Nat.primeCounting N : Nat) : Int)) ∧
      (Sieve.segment_size 0 N = isqrt N ∧
        ∃ st, Sieve.segment_loop F N (isqrt N) (Sieve.segment_size 0 N) F
            (Sieve.init_state 0 approx_arr_size N) = .ok st ∧
          Sieve.segment_steps F N (isqrt N) (Sieve.segment_size 0 N)
            (N / Sieve.segment_size 0 N + 1) (Sieve.init_state 0 approx_arr_size N)
            = .ok st ∧
          ∃ count, Sieve.segmented_sieve F 0 approx_arr_size N
            = .ok ((List.range (N + 1)).filter (fun p => decide (Nat.Prime p)), count)) := by
  have hsq : isqrt N < 2 ^ 32 := isqrt_lt_of_lt_sq (by omega)
  have hpos := isqrt_pos (show 1 ≤ N by omega)
  have hexact : (if isqrt N < 0 then 0 else isqrt N) * 16 < 2 ^ 64 := by
    rw [if_neg (Nat.not_lt_zero _)]
    omega
  have hseg : BitSieve.segment_size 0 N = isqrt N * 16 := by
    rw [BitSieve.segment_size_exact 0 N hexact, if_neg (Nat.not_lt_zero _)]
  have hw : 1 ≤ BitSieve.segment_size 0 N := by omega
  have hseg2 : Sieve.segment_size 0 N = isqrt N := by
    unfold Sieve.segment_size
    rw [if_neg (Nat.not_lt_zero _)]
  obtain ⟨st1, hrun1, hsteps1, _⟩ :=
    BitSieve.bit_run_spec F 0 approx_arr_size N hw ha (by omega)
  obtain ⟨st2, hrun2, hsteps2, _⟩ :=
    Sieve.byte_run_spec F 0 approx_arr_size N (Or.inl (by omega)) ha (by omega)
  have hbyte := Sieve.byte_segmented_sieve_spec F 0 approx_arr_size N (Or.inl (by omega)) ha
    (by omega)
  rw [← primes_upto_eq hN] at hbyte
  exact ⟨⟨hseg, st1, hrun1, hsteps1,
      BitSieve.bit_segmented_sieve_spec F 0 approx_arr_size N hw ha (by omega)⟩,
    ⟨hseg2, st2, hrun2, hsteps2, _, hbyte⟩⟩

theorem zero_budget_is_swept_witness :
    (BitSieve.segment_size 0 4 = isqrt 4 * 16 ∧
      ∃ st, BitSieve.segment_loop 100 4 (isqrt 4) (BitSieve.segment_size 0 4) 100
          (BitSieve.init_state 0 1 4) = .ok st ∧
        BitSieve.segment_steps 100 4 (isqrt 4) (BitSieve.segment_size 0 4)
          (4 / BitSieve.segment_size 0 4 + 1) (BitSieve.init_state 0 1 4)
          = .ok st ∧
        BitSieve.segmented_sieve 100 0 1 4
          = .ok ((Nat.primeCounting 4 : Nat) : Int)) ∧
      (Sieve.segment_size 0 4 = isqrt 4 ∧
        ∃ st, Sieve.segment_loop 100 4 (isqrt 4) (Sieve.segment_size 0 4) 100
            (Sieve.init_state 0 1 4) = .ok st ∧
          Sieve.segment_steps 100 4 (isqrt 4) (Sieve.segment_size 0 4)
            (4 / Sieve.segment_size 0 4 + 1) (Sieve.init_state 0 1 4)
            = .ok st ∧
          ∃ count, Sieve.segmented_sieve 100 0 1 4
            = .ok ((List.range (4 + 1)).filter (fun p => decide (Nat.Prime p)), count)) :=
  zero_budget_is_swept 100 1 4 (by decide) (by decide) (by decide) (by decide)

/-- C10: on a vector with `capacity >= 1` and `size <= capacity` (the buffer
having `capacity` cells), `uint64_vector_append` succeeds; afterwards the size
is the old size plus one, the cell at the old size holds the appended value,
every cell below the old size is unchanged and the capacity has not
decreased. -/
theorem append_preserves_content (vector : uint64vec_t) (x : Nat)
    (hcap : 1 ≤ vector.capacity) (hsize : vector.size ≤ vector.capacity)
    (hbuf : vector.data.length = vector.capacity) :
    ∃ w, uint64_vector_append vector x = .ok w ∧ w.size = vector.size + 1 ∧
      w.data[vector.size]? = some x ∧
      (∀ i, i < vector.size → w.data[i]? = vector.data[i]?) ∧
      vector.capacity ≤ w.capacity := by
  obtain ⟨w, hrun, _, hsz, hx, hfr, hcapw⟩ := append_spec vector x ⟨hcap, hsize, hbuf⟩
  refine ⟨w, hrun, hsz, hx, hfr, ?_⟩
  rw [hcapw]
  split <;> omega

theorem append_preserves_content_witness :
    ∃ w, uint64_vector_append { data := [5, 0], capacity := 2, size := 1 } 7 = .ok w ∧
      w.size = 1 + 1 ∧ w.data[1]? = some 7 ∧
      (∀ i, i < 1 → w.data[i]? = ([5, 0] : List Nat)[i]?) ∧ 2 ≤ w.capacity :=
  append_preserves_content { data := [5, 0], capacity := 2, size := 1 } 7 (by decide)
    (by decide) (by decide)


/-! ## The growable array, continued -/

set_option maxRecDepth 100000 in
/-- C11, counterexample: a vector of capacity `2` that holds one element has a
free slot, and the append doubles its capacity to `4`. -/
theorem append_doubles_with_free_slot :
    (1 : Nat) < 2 ∧
      uint64_vector_append { data := [5, 0], capacity := 2, size := 1 } 7
        = .ok { data := [5, 7, 0, 0], capacity := 4, size := 2 } := by
  decide

/-- C11, amended: on a vector with `capacity >= 1` and `size <= capacity`, the
capacity after append is exactly `2 * capacity` if `size + 1 >= capacity`
before the call (the array is full or the append would fill its last slot), and
is unchanged if `size + 1 < capacity`. -/
theorem append_doubles_on_last_slot (vector : uint64vec_t) (x : Nat)
    (hcap : 1 ≤ vector.capacity) (hsize : vector.size ≤ vector.capacity)
    (hbuf : vector.data.length = vector.capacity) :
    ∃ w, uint64_vector_append vector x = .ok w ∧
      (vector.capacity ≤ vector.size + 1 → w.capacity = 2 * vector.capacity) ∧
      (vector.size + 1 < vector.capacity → w.capacity = vector.capacity) := by
  obtain ⟨w, hrun, _, _, _, _, hcapw⟩ := append_spec vector x ⟨hcap, hsize, hbuf⟩
  refine ⟨w, hrun, fun h => ?_, fun h => ?_⟩
  · rw [hcapw, if_neg (by omega)]
    omega
  · rw [hcapw, if_pos h]

theorem append_doubles_on_last_slot_witness :
    ∃ w, uint64_vector_append { data := [5, 0], capacity := 2, size := 1 } 7 = .ok w ∧
      (2 ≤ 1 + 1 → w.capacity = 2 * 2) ∧ (1 + 1 < 2 → w.capacity = 2) :=
  append_doubles_on_last_slot { data := [5, 0], capacity := 2, size := 1 } 7 (by decide)
    (by decide) (by decide)

/-- An append on a vector with a free slot keeps a free slot and writes inside
the buffer in force at the write. -/
theorem append_keeps_free_slot (v : uint64vec_t) (x : Nat) (hlt : v.size < v.capacity)
    (hbuf : v.data.length = v.capacity) :
    ∃ w, uint64_vector_append v x = .ok w ∧ w.size = v.size + 1 ∧ w.size < w.capacity ∧
      w.data.length = w.capacity ∧ v.size < w.capacity ∧ w.data[v.size]? = some x := by
  obtain ⟨w, hrun, hwf, hsz, hx, _, hcapw⟩ :=
    append_spec v x ⟨by omega, by omega, hbuf⟩
  refine ⟨w, hrun, hsz, ?_, hwf.2.2, ?_, hx⟩
  · rw [hsz, hcapw]
    split <;> omega
  · rw [hcapw]
    split <;> omega

theorem append_all_spec : ∀ (xs : List Nat) (v : uint64vec_t), v.size < v.capacity →
    v.data.length = v.capacity →
    ∃ w, append_all v xs = .ok w ∧ w.size < w.capacity ∧ w.data.length = w.capacity ∧
      w.size = v.size + xs.length := by
  intro xs
  induction xs with
  | nil => intro v h1 h2; exact ⟨v, rfl, h1, h2, rfl⟩
  | cons x xs ih =>
    intro v h1 h2
    obtain ⟨w, hrun, hsz, hlt, hbuf, _, _⟩ := append_keeps_free_slot v x h1 h2
    obtain ⟨w1, hrun1, hlt1, hbuf1, hsz1⟩ := ih w hlt hbuf
    refine ⟨w1, ?_, hlt1, hbuf1, ?_⟩
    · unfold append_all
      rw [hrun]
      exact hrun1
    · rw [hsz1, hsz, List.length_cons]
      omega

/-- C20: starting from `create_uint64_vector(c)` with `c >= 1`, every finite
sequence of appends succeeds and leaves a vector with `size < capacity` whose
buffer has `capacity` cells; any further append writes its value at the old
size, an index strictly below the capacity in force at the write, which is the
length of the buffer written to. -/
theorem append_stays_in_bounds (c : Nat) (xs : List Nat) (hc : 1 ≤ c) :
    ∃ v, append_all (create_uint64_vector c) xs = .ok v ∧ v.size = xs.length ∧
      v.size < v.capacity ∧ v.data.length = v.capacity ∧
      ∀ x, ∃ w, uint64_vector_append v x = .ok w ∧ v.size < w.capacity ∧
        w.data.length = w.capacity ∧ w.data[v.size]? = some x ∧ w.size < w.capacity := by
  obtain ⟨v, hrun, hlt, hbuf, hsz⟩ :=
    append_all_spec xs (create_uint64_vector c) (by simp [create_uint64_vector]; omega)
      (by simp [create_uint64_vector])
  refine ⟨v, hrun, by rw [hsz]; simp [create_uint64_vector], hlt, hbuf, fun x => ?_⟩
  obtain ⟨w, hrunw, _, hltw, hbufw, hidx, hx⟩ := append_keeps_free_slot v x hlt hbuf
  exact ⟨w, hrunw, hidx, hbufw, hx, hltw⟩

theorem append_stays_in_bounds_witness :
    ∃ v, append_all (create_uint64_vector 1) [3, 5, 7] = .ok v ∧
      v.size = ([3, 5, 7] : List Nat).length ∧
      v.size < v.capacity ∧ v.data.length = v.capacity ∧
      ∀ x, ∃ w, uint64_vector_append v x = .ok w ∧ v.size < w.capacity ∧
        w.data.length = w.capacity ∧ w.data[v.size]? = some x ∧ w.size < w.capacity :=
  append_stays_in_bounds 1 [3, 5, 7] (by decide)

namespace BitSieve

/-! ## The population count -/

set_option maxRecDepth 100000 in
theorem count_loop_sum (sieve : List Nat) (sieve_size : Nat)
    (hlen : sieve_size ≤ sieve.length) (hbytes : ∀ b, b ∈ sieve → b < 256) :
    ∀ fuel (count : Int) n, n ≤ sieve_size → sieve_size + 1 ≤ fuel + n →
      count_loop sieve sieve_size fuel count n
        = .ok (count + ((((sieve.take sieve_size).drop n).map bit_count).sum : Nat)) := by
  intro fuel
  induction fuel with
  | zero => intro count n h1 h2; omega
  | succ fuel ih =>
    intro count n hn hfuel
    unfold count_loop
    split
    · rename_i hlt
      have hnlen : n < sieve.length := by omega
      have hget : sieve[n]? = some sieve[n] := List.getElem?_eq_getElem hnlen
      rw [load_eq_ok.2 hget]
      simp only
      rw [popcnt_spec _ (hbytes _ (List.getElem_mem hnlen))]
      simp only
      rw [ih _ (n + 1) (by omega) (by omega)]
      have htl : n < (sieve.take sieve_size).length := by
        rw [List.length_take]; omega
      rw [List.drop_eq_getElem_cons htl, List.map_cons, List.sum_cons, List.getElem_take]
      unfold bit_count
      push_cast
      rw [add_assoc]
    · rename_i hge
      have : n = sieve_size := by omega
      subst this
      have : ((sieve.take n).drop n) = [] := by
        apply List.drop_eq_nil_of_le
        rw [List.length_take]; omega
      rw [this]
      simp

set_option maxRecDepth 100000 in
/-- C19: for every byte value `b < 256` the table entry `popcnt[b]` is the
number of set bits of `b`, and the harvest loop adds to `count` the total
number of set bits of the first `sieve_size` bytes of the sieve. -/
theorem popcnt_is_exact (sieve : List Nat) (sieve_size F : Nat) (count : Int)
    (hlen : sieve_size ≤ sieve.length) (hbytes : ∀ b, b ∈ sieve → b < 256)
    (hF : sieve_size + 1 ≤ F) :
    (∀ b, b < 256 → popcnt[b]? = some ((bit_count b : Nat) : Int)) ∧
      count_loop sieve sieve_size F count 0
        = .ok (count + ((((sieve.take sieve_size).map bit_count).sum : Nat) : Int)) := by
  refine ⟨fun b hb => popcnt_spec b hb, ?_⟩
  rw [count_loop_sum sieve sieve_size hlen hbytes F count 0 (by omega) (by omega)]
  rfl

set_option maxRecDepth 100000 in
theorem popcnt_is_exact_witness :
    (∀ b, b < 256 → popcnt[b]? = some ((bit_count b : Nat) : Int)) ∧
      count_loop [255, 3, 7] 2 10 5 0
        = .ok (5 + (((([255, 3, 7] : List Nat).take 2).map bit_count).sum : Nat)) :=
  popcnt_is_exact [255, 3, 7] 2 10 5 (by decide) (by decide) (by decide)

end BitSieve


/-! ## What a successful run of a shared loop tells -/

theorem usub_eq_ok {a b r : Nat} (h : usub a b = .ok r) : b ≤ a ∧ r = a - b := by
  unfold usub at h
  split at h
  · rename_i hle
    exact ⟨hle, (Except.ok.inj h).symm⟩
  · cases h

theorem append_loop_trace (d : List Nat) (low high : Nat) :
    ∀ fuel pa mu s pa1 mu1 s1, pa.WF → mu.WF → mu.size = pa.size →
      append_loop d low high fuel pa mu s = .ok (pa1, mu1, s1) →
      pa.size ≤ pa1.size ∧ mu1.size = pa1.size ∧ s ≤ s1 ∧
      (s1 = s ∨ (s1 - 2) * (s1 - 2) ≤ high) ∧
      (∀ idx, idx < pa.size → pa1.data[idx]? = pa.data[idx]? ∧
        mu1.data[idx]? = mu.data[idx]?) ∧
      (∀ idx, pa.size ≤ idx → idx < pa1.size →
        ∃ p, pa1.data[idx]? = some p ∧ mu1.data[idx]? = some (p * p - low) ∧
          low ≤ p * p ∧ p * p ≤ high ∧ usub (p * p) low = .ok (p * p - low)) := by
  intro fuel
  induction fuel with
  | zero =>
    intro pa mu s pa1 mu1 s1 _ _ _ h
    simp [append_loop] at h
  | succ fuel ih =>
    intro pa mu s pa1 mu1 s1 hpa hmu hsz h
    unfold append_loop at h
    split at h
    · rename_i hss
      split at h
      · rename_i v hload
        split at h
        · split at h
          · rename_i pa2 happ1
            split at h
            · rename_i off hsub
              split at h
              · rename_i mu2 happ2
                obtain ⟨w1, hw1, hwf1, hsz1, hx1, hfr1, _⟩ := append_spec pa s hpa
                rw [happ1] at hw1
                cases hw1
                obtain ⟨w2, hw2, hwf2, hsz2, hx2, hfr2, _⟩ := append_spec mu off hmu
                rw [happ2] at hw2
                cases hw2
                obtain ⟨hle, hoffeq⟩ := usub_eq_ok hsub
                obtain ⟨h1, h2, h3, h4, h5, h6⟩ :=
                  ih pa2 mu2 (s + 2) pa1 mu1 s1 hwf1 hwf2 (by rw [hsz1, hsz2, hsz]) h
                refine ⟨by omega, h2, by omega, Or.inr ?_, ?_, ?_⟩
                · rcases h4 with h4 | h4
                  · subst h4; simpa using hss
                  · exact h4
                · intro idx hidx
                  obtain ⟨e1, e2⟩ := h5 idx (by omega)
                  exact ⟨by rw [e1, hfr1 idx hidx],
                    by rw [e2, hfr2 idx (by rw [hsz]; exact hidx)]⟩
                · intro idx hge hlt
                  rcases Nat.eq_or_lt_of_le hge with heq | hgt
                  · subst heq
                    obtain ⟨e1, e2⟩ := h5 pa.size (by omega)
                    refine ⟨s, by rw [e1, hx1], ?_, hle, hss, usub_of_le hle⟩
                    rw [e2, ← hsz, hx2, hoffeq]
                  · exact h6 idx (by omega) hlt
              · cases h
            · cases h
          · cases h
        · obtain ⟨h1, h2, h3, h4, h5, h6⟩ := ih pa mu (s + 2) pa1 mu1 s1 hpa hmu hsz h
          refine ⟨h1, h2, by omega, Or.inr ?_, h5, h6⟩
          rcases h4 with h4 | h4
          · subst h4; simpa using hss
          · exact h4
      · cases h
    · have h' := Except.ok.inj h
      simp only [Prod.mk.injEq] at h'
      obtain ⟨rfl, rfl, rfl⟩ := h'
      exact ⟨le_rfl, hsz, le_rfl, Or.inl rfl, fun _ _ => ⟨rfl, rfl⟩,
        fun idx h1 h2 => by omega⟩

theorem clear_loop_trace (clear : List Nat → Nat → Except Fault (List Nat))
    (segment_size k : Nat) :
    ∀ fuel sv j sv1 j1, clear_loop clear segment_size k fuel sv j = .ok (sv1, j1) →
      segment_size ≤ j1 ∧ ∃ u, j1 = j + k * u ∧ (u = 0 ∨ j1 < segment_size + k) := by
  intro fuel
  induction fuel with
  | zero =>
    intro sv j sv1 j1 h
    simp [clear_loop] at h
  | succ fuel ih =>
    intro sv j sv1 j1 h
    unfold clear_loop at h
    split at h
    · rename_i hj
      split at h
      · rename_i sv2 _
        obtain ⟨hge, u, hu, hlast⟩ := ih sv2 (j + k) sv1 j1 h
        refine ⟨hge, u + 1, by rw [hu]; ring, Or.inr ?_⟩
        rcases hlast with h0 | hlt
        · subst h0
          simp only [Nat.mul_zero, Nat.add_zero] at hu
          omega
        · exact hlt
      · cases h
    · rename_i hj
      have h' := Except.ok.inj h
      simp only [Prod.mk.injEq] at h'
      obtain ⟨_, rfl⟩ := h'
      exact ⟨by omega, 0, by simp, Or.inl rfl⟩

theorem cross_off_loop_trace (clear : List Nat → Nat → Except Fault (List Nat))
    (F segment_size : Nat) (pa : uint64vec_t) :
    ∀ fuel sv md t sv1 md1,
      cross_off_loop clear F segment_size pa fuel sv md t = .ok (sv1, md1) →
      md1.length = md.length ∧
      (∀ idx, idx < t ∨ pa.size ≤ idx → md1[idx]? = md[idx]?) ∧
      (∀ idx, t ≤ idx → idx < pa.size →
        ∃ p off sieveA sieveB j, pa.data[idx]? = some p ∧ md[idx]? = some off ∧
          clear_loop clear segment_size (p * 2) F sieveA off = .ok (sieveB, j) ∧
          segment_size ≤ j ∧ usub j segment_size = .ok (j - segment_size) ∧
          md1[idx]? = some (j - segment_size) ∧
          ∃ u, j = off + p * 2 * u ∧ (u = 0 ∨ j < segment_size + p * 2)) := by
  intro fuel
  induction fuel with
  | zero =>
    intro sv md t sv1 md1 h
    simp [cross_off_loop] at h
  | succ fuel ih =>
    intro sv md t sv1 md1 h
    unfold cross_off_loop at h
    split at h
    · rename_i hlt
      split at h
      · rename_i off hloadm
        split at h
        · rename_i p hloadp
          split at h
          · rename_i sv2 j hclear
            split at h
            · rename_i r hsub
              split at h
              · rename_i md2 hstore
                obtain ⟨hge, u, hu, hlast⟩ := clear_loop_trace clear segment_size (p * 2) F sv off
                  sv2 j hclear
                obtain ⟨_, hr⟩ := usub_eq_ok hsub
                have hmd2 : md2 = md.set t r ∧ t < md.length := by
                  unfold store at hstore
                  split at hstore
                  · rename_i hlen
                    exact ⟨(Except.ok.inj hstore).symm, hlen⟩
                  · cases hstore
                obtain ⟨hmd2eq, htlen⟩ := hmd2
                obtain ⟨hlen1, hframe1, htrace1⟩ := ih sv2 md2 (t + 1) sv1 md1 h
                refine ⟨by rw [hlen1, hmd2eq]; simp, ?_, ?_⟩
                · intro idx hidx
                  rw [hframe1 idx (by omega), hmd2eq, List.getElem?_set_ne (by omega)]
                · intro idx hge1 hlt1
                  rcases Nat.eq_or_lt_of_le hge1 with heq | hgt
                  · subst heq
                    refine ⟨p, off, sv, sv2, j, load_eq_ok.1 hloadp, load_eq_ok.1 hloadm, hclear,
                      hge, usub_of_le hge, ?_, u, hu, hlast⟩
                    rw [hframe1 t (by omega), hmd2eq, List.getElem?_set_self htlen, hr]
                  · obtain ⟨q, o, sA, sB, j2, e1, e2, e3, e4, e5, e6, e7⟩ :=
                      htrace1 idx hgt hlt1
                    refine ⟨q, o, sA, sB, j2, e1, ?_, e3, e4, e5, e6, e7⟩
                    rw [hmd2eq, List.getElem?_set_ne (by omega)] at e2
                    exact e2
              · cases h
            · cases h
          · cases h
        · cases h
      · cases h
    · rename_i hge
      have h' := Except.ok.inj h
      simp only [Prod.mk.injEq] at h'
      obtain ⟨_, rfl⟩ := h'
      exact ⟨rfl, fun _ _ => rfl, fun idx h1 h2 => by omega⟩


section SweepFacts

variable (clear : List Nat → Nat → Except Fault (List Nat))
variable (Good : List Nat → Prop) (Live : List Nat → Nat → Prop) (Pos : Nat → Prop)

/-- The shared loops of a segment, with what holds when crossing-off begins
and how every offset is carried. -/
theorem sweep_facts (segment_size limit F low : Nat)
    (hclear : ClearSpec clear Good Live Pos segment_size)
    (hposstep : ∀ x p, Pos x → Pos (x + p * 2))
    (hposoff : ∀ p off, p % 2 = 1 → OffOK low p off → Pos off)
    (hseg : 1 ≤ segment_size) (hlow : low ≤ limit)
    (hF1 : isqrt limit + 4 ≤ F) (hF2 : segment_size + 2 ≤ F)
    (ip : List Nat) (i s : Nat) (pa mu : uint64vec_t) (sv0 : List Nat)
    (hbase : BaseInv (isqrt limit) i ip) (hi : i % 2 = 1) (hi3 : 3 ≤ i)
    (hpa : pa.WF) (hmu : mu.WF) (hs : s % 2 = 1) (hs3 : 3 ≤ s)
    (hsle : s ≤ isqrt limit + 3) (hlows : low ≤ s * s)
    (hvals : pa.vals = oddPrimesBelow s) (hoff : OffInv low pa mu) (hgood : Good sv0)
    (hsfact : s = 3 ∨ (s - 2) * (s - 2) < low) :
    ∃ w : Sweep, SweepRuns clear F limit segment_size low ip i s pa mu sv0 w ∧
      SweepFacts clear F limit segment_size low s pa mu w ∧ Good w.sieve ∧
      ∀ x, Pos x → x < segment_size →
        (Live w.sieve x ↔ (Live sv0 x ∧ ¬ ∃ p, p ∈ oddPrimesBelow w.s ∧ Hit low p x)) := by
  obtain ⟨ip1, i1, pa1, mu1, s1, sv1, md1, hrun1, hrun2, hrun3, _, _, _, hpa1, hmuwf,
      hs1, hs13, hs1le, hhs1, hvals1, _, hgood1, hlive⟩ :=
    sweep_spec clear Good Live Pos segment_size limit F low hclear hposstep hposoff hseg
      hF1 hF2 ip i s pa mu sv0 hbase hi hi3 hpa hmu hs hs3 hsle hlows hvals hoff hgood
  have hhigh := segment_high_eq low segment_size limit hseg
  obtain ⟨hsz, hsize, hmono, hlast, hkept, happ⟩ :=
    append_loop_trace ip1 low (segment_high low segment_size limit) F pa mu s pa1 mu1 s1
      hpa hmu hoff.1 hrun2
  obtain ⟨hmdlen, _, hcar⟩ :=
    cross_off_loop_trace clear F segment_size pa1 F sv0 mu1.data 0 sv1 md1 hrun3
  refine ⟨⟨ip1, i1, pa1, mu1, s1, sv1, md1⟩, ⟨hrun1, hrun2, hrun3⟩, ?_, hgood1, hlive⟩
  constructor
  · exact hpa1
  · exact hvals1
  · exact hhs1
  · intro p hp
    show p * p ≤ segment_high low segment_size limit
    change p ∈ pa1.vals at hp
    rw [hvals1] at hp
    obtain ⟨hlt, hp2, hpp⟩ := mem_oddPrimesBelow.1 hp
    have hp3 := odd_prime_ge_three hpp hp2
    have hple : p ≤ s1 - 2 := by omega
    have hsq : p * p ≤ (s1 - 2) * (s1 - 2) := Nat.mul_self_le_mul_self hple
    rcases hlast with h | h
    · subst h
      rcases hsfact with h3 | hlt2
      · omega
      · omega
    · omega
  · exact hsize
  · exact hsz
  · refine ⟨hsize, fun idx hidx => ?_⟩
    show ∃ p off, pa1.data[idx]? = some p ∧ mu1.data[idx]? = some off ∧ OffOK low p off
    rcases Nat.lt_or_ge idx pa.size with hold | hnew
    · obtain ⟨p, off, e1, e2, hok⟩ := hoff.2 idx hold
      obtain ⟨k1, k2⟩ := hkept idx hold
      exact ⟨p, off, by rw [k1, e1], by rw [k2, e2], hok⟩
    · obtain ⟨p, e1, e2, hle, _, _⟩ := happ idx hnew hidx
      exact ⟨p, p * p - low, e1, e2, 0, by omega, Or.inl rfl⟩
  · exact hkept
  · exact happ
  · intro idx hidx
    exact hcar idx (Nat.zero_le _) hidx
  · exact hmono
  · exact hs1le
  · show pa1.size ≤ mu1.data.length
    obtain ⟨_, h2, h3⟩ := hmuwf
    simp only at h2 h3
    omega

end SweepFacts

/-- An offset that satisfies the carried-offset invariant designates the least
odd multiple of its prime from the square and from `low` on. -/
theorem least_of_offok {low p off : Nat} (hp : p % 2 = 1) (hoff : OffOK low p off) :
    LeastOddMultiple p low (low + off) := by
  obtain ⟨t, ht, hmin⟩ := hoff
  have hfac : p * p + 2 * p * t = p * (p + 2 * t) := by ring
  refine ⟨⟨⟨p + 2 * t, by rw [ht, hfac]⟩, ?_, by rw [ht]; omega, by omega⟩, ?_⟩
  · rw [ht, hfac, Nat.mul_mod, hp]
    have : (p + 2 * t) % 2 = 1 := by omega
    rw [this]
  · rintro m ⟨r, rfl⟩ hodd hsq hlow
    have hppos : 0 < p := by omega
    have hpr : p ≤ r := Nat.le_of_mul_le_mul_left hsq hppos
    have hrodd : r % 2 = 1 := by
      rcases Nat.mod_two_eq_zero_or_one r with h0 | h1
      · exfalso
        have : (p * r) % 2 = 0 := by rw [Nat.mul_mod, h0]; simp
        omega
      · exact h1
    obtain ⟨v, rfl⟩ : ∃ v, r = p + 2 * v := ⟨(r - p) / 2, by omega⟩
    have htv : t ≤ v := by
      rcases hmin with h0 | hlt
      · omega
      · by_contra hcon
        have h1 : 2 * p * (v + 1) ≤ 2 * p * t := Nat.mul_le_mul_left _ (by omega)
        nlinarith
    have : 2 * p * t ≤ 2 * p * v := Nat.mul_le_mul_left _ htv
    rw [ht]
    nlinarith


theorem steps_bound {k seg limit low : Nat} (h : low + (k + 1 - 1) * seg ≤ limit) :
    low ≤ limit ∧ (k = 0 ∨ low + seg + (k - 1) * seg ≤ limit) := by
  simp only [Nat.add_sub_cancel] at h
  have h0 : low ≤ limit := le_trans (Nat.le_add_right _ _) h
  refine ⟨h0, ?_⟩
  rcases Nat.eq_zero_or_pos k with hk | hk
  · exact Or.inl hk
  · right
    obtain ⟨j, rfl⟩ : ∃ j, k = j + 1 := ⟨k - 1, by omega⟩
    simp only [Nat.add_sub_cancel]
    have : low + seg + j * seg = low + (j + 1) * seg := by ring
    rw [this]
    exact h

namespace Sieve

/-! ## The byte-array engine, segment by segment -/

theorem byte_body_inv (F limit sqrtval segment_size : Nat) (st st1 : State)
    (h : segment_body F limit sqrtval segment_size st = .ok st1) :
    ∃ sv0 ip i pa mu s sv md out count n,
      memset st.sieve.data 1 st.sieve.size = .ok sv0 ∧
      base_loop F sqrtval (segment_high st.low segment_size limit) F st.is_prime.data st.i
        = .ok (ip, i) ∧
      append_loop ip st.low (segment_high st.low segment_size limit) F st.prime_arr
        st.multiples st.s = .ok (pa, mu, s) ∧
      cross_off_loop clear_flag F segment_size pa F sv0 mu.data 0 = .ok (sv, md) ∧
      harvest_loop sv st.low (segment_high st.low segment_size limit) F st.out st.count st.n
        = .ok (out, count, n) ∧
      st1.low = st.low ∧ st1.i = i ∧ st1.s = s ∧ st1.n = n ∧ st1.prime_arr = pa ∧
      st1.multiples.data = md ∧ st1.multiples.size = mu.size ∧
      st1.is_prime.data = ip ∧ st1.sieve.data = sv := by
  unfold segment_body at h
  split at h
  · cases h
  · rename_i sv0 hmem
    simp only at h
    split at h
    · cases h
    · rename_i ip i hbase
      split at h
      · cases h
      · rename_i pa mu s happ
        split at h
        · cases h
        · rename_i sv md hcross
          split at h
          · cases h
          · rename_i out count n hharv
            have h' := Except.ok.inj h
            subst h'
            exact ⟨sv0, ip, i, pa, mu, s, sv, md, out, count, n, hmem, hbase, happ, hcross,
              hharv, rfl, rfl, rfl, rfl, rfl, rfl, rfl, rfl, rfl⟩

theorem byte_reach (F limit segment_size : Nat) (hseg : 1 ≤ segment_size)
    (hF1 : isqrt limit + 4 ≤ F) (hF2 : segment_size + 2 ≤ F) :
    ∀ k st0, Inv limit segment_size st0 →
      (st0.s = 3 ∨ (st0.s - 2) * (st0.s - 2) < st0.low) →
      (k = 0 ∨ st0.low + (k - 1) * segment_size ≤ limit) →
      ∃ st, segment_steps F limit (isqrt limit) segment_size k st0 = .ok st ∧
        Inv limit segment_size st ∧ (st.s = 3 ∨ (st.s - 2) * (st.s - 2) < st.low) ∧
        st.low = st0.low + k * segment_size := by
  intro k
  induction k with
  | zero =>
    intro st0 hinv hs _
    exact ⟨st0, rfl, hinv, hs, by simp⟩
  | succ k ih =>
    intro st0 hinv hs hk
    have hk' : st0.low + (k + 1 - 1) * segment_size ≤ limit := by
      rcases hk with h | h
      · omega
      · exact h
    obtain ⟨hlow, hknext⟩ := steps_bound hk'
    obtain ⟨st1, hrun, hlow1, hinv1⟩ :=
      byte_segment_body_spec F limit segment_size hseg hF1 hF2 st0 hinv hlow
    obtain ⟨sv0, ip, i, pa, mu, s, sv, md, out, count, n, _, _, happ, _, _, _, _, hs1, _⟩ :=
      byte_body_inv F limit (isqrt limit) segment_size st0 st1 hrun
    obtain ⟨_, _, _, hlast, _, _⟩ :=
      append_loop_trace ip st0.low (segment_high st0.low segment_size limit) F st0.prime_arr
        st0.multiples st0.s pa mu s hinv.pa_wf hinv.mu_wf hinv.off.1 happ
    have hhigh := segment_high_eq st0.low segment_size limit hseg
    have hs' : st1.s = 3 ∨ (st1.s - 2) * (st1.s - 2) < st1.low + segment_size := by
      rw [hs1, hlow1]
      rcases hlast with h | h
      · subst h
        rcases hs with h3 | hlt
        · exact Or.inl h3
        · exact Or.inr (by omega)
      · exact Or.inr (by omega)
    obtain ⟨st, hsteps, hinvf, hsf, hlowf⟩ :=
      ih { st1 with low := st1.low + segment_size } hinv1 hs'
        (by simp only [hlow1]; exact hknext)
    refine ⟨st, ?_, hinvf, hsf, ?_⟩
    · unfold segment_steps
      rw [hrun]
      exact hsteps
    · rw [hlowf]
      simp only [hlow1]
      ring

/-- The segment number `k` of a run of the byte-array engine: the state at its
start and the values that the shared loops compute from it. -/
theorem byte_segment_facts (F c a N k : Nat) (hseg : 1 ≤ N ∨ 1 ≤ c) (ha : 1 ≤ a)
    (hF : N + c + 4 ≤ F) (hk : k ≤ N / segment_size c N) :
    ∃ st w, segment_start F c a N k = .ok st ∧ st.low = k * segment_size c N ∧ st.low ≤ N ∧
      Inv N (segment_size c N) st ∧
      memset st.sieve.data 1 st.sieve.size = .ok (List.replicate (segment_size c N) 1) ∧
      SweepRuns clear_flag F N (segment_size c N) st.low st.is_prime.data st.i st.s
        st.prime_arr st.multiples (List.replicate (segment_size c N) 1) w ∧
      SweepFacts clear_flag F N (segment_size c N) st.low st.s st.prime_arr st.multiples w ∧
      GoodB (segment_size c N) w.sieve := by
  have hsq := isqrt_le N
  have hseg1 : 1 ≤ segment_size c N := by
    unfold segment_size
    rcases hseg with h | h
    · have := isqrt_pos h
      split <;> omega
    · split <;> omega
  have hsegle : segment_size c N ≤ N + c := by
    unfold segment_size
    split <;> omega
  have hkN : k * segment_size c N ≤ N := (Nat.le_div_iff_mul_le (by omega)).1 hk
  have hinit : Inv N (segment_size c N) (init_state c a N) := byte_init_inv c a N ha
  obtain ⟨st, hsteps, hinv, hs, hlow⟩ :=
    byte_reach F N (segment_size c N) hseg1 (by omega) (by omega) k (init_state c a N) hinit
      (Or.inl rfl) (by
        rcases Nat.eq_zero_or_pos k with h0 | hpos
        · exact Or.inl h0
        · right
          have : (k - 1) * segment_size c N ≤ k * segment_size c N :=
            Nat.mul_le_mul_right _ (by omega)
          have h0 : (init_state c a N).low = 0 := rfl
          omega)
  have hlow0 : (init_state c a N).low = 0 := rfl
  rw [hlow0, Nat.zero_add] at hlow
  have hlowN : st.low ≤ N := by rw [hlow]; exact hkN
  obtain ⟨hls, _⟩ := hinv.live hlowN
  obtain ⟨w, hruns, hfacts, hgood, _⟩ :=
    sweep_facts clear_flag (GoodB (segment_size c N)) LiveB (fun _ => True) (segment_size c N)
      N F st.low (clear_flag_spec _) (fun _ _ _ => trivial) (fun _ _ _ _ => trivial) hseg1
      hlowN (by omega) (by omega) st.is_prime.data st.i st.s st.prime_arr st.multiples
      (List.replicate (segment_size c N) 1) hinv.base hinv.i_odd hinv.i_ge hinv.pa_wf
      hinv.mu_wf hinv.s_odd hinv.s_ge hinv.s_le hls hinv.vals hinv.off (by simp [GoodB]) hs
  refine ⟨st, w, hsteps, hlow, hlowN, hinv, ?_, hruns, hfacts, hgood⟩
  unfold memset
  rw [hinv.sieve_size, hinv.sieve_len]
  simp [← hinv.sieve_len]

end Sieve


namespace BitSieve

/-! ## The bit-packed engine, segment by segment -/

theorem bit_reach (F limit ss0 : Nat) (hss0 : 1 ≤ ss0)
    (hF1 : isqrt limit + 4 ≤ F) (hF2 : 16 * ss0 + 2 ≤ F) :
    ∀ k st0, Inv limit (16 * ss0) st0 →
      (st0.s = 3 ∨ (st0.s - 2) * (st0.s - 2) < st0.low) →
      (k = 0 ∨ st0.low + (k - 1) * (16 * ss0) ≤ limit) →
      ∃ st, segment_steps F limit (isqrt limit) (16 * ss0) k st0 = .ok st ∧
        Inv limit (16 * ss0) st ∧ (st.s = 3 ∨ (st.s - 2) * (st.s - 2) < st.low) ∧
        st.low = st0.low + k * (16 * ss0) := by
  intro k
  induction k with
  | zero =>
    intro st0 hinv hs _
    exact ⟨st0, rfl, hinv, hs, by simp⟩
  | succ k ih =>
    intro st0 hinv hs hk
    have hk' : st0.low + (k + 1 - 1) * (16 * ss0) ≤ limit := by
      rcases hk with h | h
      · omega
      · exact h
    obtain ⟨hlow, hknext⟩ := steps_bound hk'
    obtain ⟨st1, hrun, hlow1, hinv1⟩ :=
      bit_segment_body_spec F limit ss0 hss0 hF1 hF2 st0 hinv hlow
    obtain ⟨sv0, width, ip, i, pa, mu, s, sv, md, sv2, count, _, _, _, happ, _, _, _, _, _,
        hs1, _⟩ := bit_body_inv F limit (isqrt limit) (16 * ss0) st0 st1 hrun
    obtain ⟨_, _, _, hlast, _, _⟩ :=
      append_loop_trace ip st0.low (segment_high st0.low (16 * ss0) limit) F st0.prime_arr
        st0.multiples st0.s pa mu s hinv.pa_wf hinv.mu_wf hinv.off.1 happ
    have hhigh := segment_high_eq st0.low (16 * ss0) limit (by omega)
    have hs' : st1.s = 3 ∨ (st1.s - 2) * (st1.s - 2) < st1.low + 16 * ss0 := by
      rw [hs1, hlow1]
      rcases hlast with h | h
      · subst h
        rcases hs with h3 | hlt
        · exact Or.inl h3
        · exact Or.inr (by omega)
      · exact Or.inr (by omega)
    obtain ⟨st, hsteps, hinvf, hsf, hlowf⟩ :=
      ih { st1 with low := st1.low + 16 * ss0 } hinv1 hs'
        (by simp only [hlow1]; exact hknext)
    refine ⟨st, ?_, hinvf, hsf, ?_⟩
    · unfold segment_steps
      rw [hrun]
      exact hsteps
    · rw [hlowf]
      simp only [hlow1]
      ring

/-- The segment number `k` of a run of the bit-packed engine whose segment size
is not `0`: the state at its start and the values that the shared loops
compute from it. -/
theorem bit_segment_facts (F c a N k : Nat) (hw : 1 ≤ segment_size c N) (ha : 1 ≤ a)
    (hF : 16 * (N + c) + 4 ≤ F) (hk : k ≤ N / segment_size c N) :
    ∃ st w, segment_start F c a N k = .ok st ∧ st.low = k * segment_size c N ∧ st.low ≤ N ∧
      Inv N (segment_size c N) st ∧
      memset st.sieve.data 0xff st.sieve.size
        = .ok (List.replicate (segment_size c N) 255) ∧
      SweepRuns clear_bit F N (segment_size c N) st.low st.is_prime.data st.i st.s
        st.prime_arr st.multiples (List.replicate (segment_size c N) 255) w ∧
      SweepFacts clear_bit F N (segment_size c N) st.low st.s st.prime_arr st.multiples w ∧
      GoodP (segment_size c N) w.sieve ∧
      ∀ x, x % 2 = 1 → x < segment_size c N →
        (LiveP w.sieve x ↔ (LiveP (List.replicate (segment_size c N) 255) x ∧
          ¬ ∃ p, p ∈ oddPrimesBelow w.s ∧ Hit st.low p x)) := by
  have hsq := isqrt_le N
  have hle := segment_size_le c N
  have hinit := bit_init_inv c a N ha
  unfold segment_start
  rw [segment_size_eq] at hw hle hinit hk ⊢
  obtain ⟨ss0, hss0⟩ : ∃ ss0, (if isqrt N < c then c else isqrt N) % 2 ^ 60 = ss0 :=
    ⟨_, rfl⟩
  rw [hss0] at hw hle hinit hk ⊢
  have hss1 : 1 ≤ ss0 := by omega
  have hkN : k * (16 * ss0) ≤ N := (Nat.le_div_iff_mul_le (by omega)).1 hk
  obtain ⟨st, hsteps, hinv, hs, hlow⟩ :=
    bit_reach F N ss0 hss1 (by omega) (by omega) k (init_state c a N) hinit
      (Or.inl rfl) (by
        rcases Nat.eq_zero_or_pos k with h0 | hpos
        · exact Or.inl h0
        · right
          have : (k - 1) * (16 * ss0) ≤ k * (16 * ss0) :=
            Nat.mul_le_mul_right _ (by omega)
          have h0 : (init_state c a N).low = 0 := rfl
          omega)
  have hlow0 : (init_state c a N).low = 0 := rfl
  rw [hlow0, Nat.zero_add] at hlow
  have hlowN : st.low ≤ N := by rw [hlow]; exact hkN
  have hls := hinv.live hlowN
  have hlow16 := hinv.low16
  obtain ⟨w, hruns, hfacts, hgood, hlive⟩ :=
    sweep_facts clear_bit (GoodP (16 * ss0)) LiveP (fun x => x % 2 = 1) (16 * ss0)
      N F st.low (clear_bit_spec _) (fun x p hx => by omega)
      (fun p off hp hoff => odd_offset (by omega) hp hoff) (by omega)
      hlowN (by omega) (by omega) st.is_prime.data st.i st.s st.prime_arr st.multiples
      (List.replicate (16 * ss0) 255) hinv.base hinv.i_odd hinv.i_ge hinv.pa_wf
      hinv.mu_wf hinv.s_odd hinv.s_ge hinv.s_le hls hinv.vals hinv.off
      ⟨by simp, fun b hb => by rw [List.eq_of_mem_replicate hb]; omega⟩ hs
  refine ⟨st, w, hsteps, hlow, hlowN, hinv, ?_, hruns, hfacts, hgood, hlive⟩
  unfold memset
  rw [hinv.sieve_size, hinv.sieve_len]
  simp [← hinv.sieve_len]

/-! ## The first segment when the segment size is zero -/

theorem segment_high_zero_next (N : Nat) :
    segment_high 0 (segment_high 0 0 N + 1) N = segment_high 0 0 N := by
  unfold segment_high
  simp only [Nat.zero_add, Nat.add_sub_cancel, Nat.add_one_ne_zero, if_false, if_true]
  split
  · rfl
  · split <;> omega

theorem segment_high_zero_le (N : Nat) : segment_high 0 0 N ≤ N := by
  unfold segment_high
  simp only [Nat.zero_add, if_true]
  split <;> omega

/-- With a segment size of `0` the shared loops of the first segment run as
they do for any other size: the base sieve and the append loop depend on `high`
only, and the crossing-off loop clears nothing and keeps every offset. -/
theorem bit_first_segment_zero (clear : List Nat → Nat → Except Fault (List Nat))
    (F c a N : Nat) (ha : 1 ≤ a) (hF1 : isqrt N + 4 ≤ F) (hF2 : N + 3 ≤ F) :
    ∃ w, SweepRuns clear F N 0 0 (init_state c a N).is_prime.data 3 3
        (create_uint64_vector a) (create_uint64_vector a) [] w ∧
      SweepFacts clear F N 0 0 3 (create_uint64_vector a) (create_uint64_vector a) w := by
  have hinit := bit_init_inv c a N ha
  have hhle := segment_high_zero_le N
  have hnext := segment_high_zero_next N
  obtain ⟨h, hh⟩ : ∃ h, segment_high 0 0 N = h := ⟨_, rfl⟩
  rw [hh] at hhle hnext
  obtain ⟨w, hruns, hf, _, _⟩ :=
    sweep_facts clear_bit (GoodP (h + 1)) LiveP (fun x => x % 2 = 1) (h + 1)
      N F 0 (clear_bit_spec _) (fun x p hx => by omega)
      (fun p off hp hoff => odd_offset (by omega) hp hoff) (by omega)
      (Nat.zero_le N) hF1 (by omega) (init_state c a N).is_prime.data 3 3
      (create_uint64_vector a) (create_uint64_vector a)
      (List.replicate (h + 1) 255) hinit.base hinit.i_odd hinit.i_ge hinit.pa_wf
      hinit.mu_wf hinit.s_odd hinit.s_ge hinit.s_le (Nat.zero_le _) hinit.vals hinit.off
      ⟨by simp, fun b hb => by rw [List.eq_of_mem_replicate hb]; omega⟩ (Or.inl rfl)
  have hbase := hruns.run_base
  have happ := hruns.run_append
  rw [hnext] at hbase happ
  have hsize : w.prime_arr.size + 1 ≤ F := by
    have h1 := vals_length w.prime_arr hf.pa_wf
    have h2 := oddPrimesBelow_length_le w.s
    have h3 := hf.s_le
    rw [hf.vals] at h1
    omega
  obtain ⟨F1, hF1eq⟩ : ∃ F1, F = F1 + 1 := ⟨F - 1, by omega⟩
  have hcross : cross_off_loop clear F 0 w.prime_arr F [] w.multiples.data 0
      = .ok ([], w.multiples.data) := by
    have := cross_off_loop_zero clear F w.prime_arr (by omega)
      (by have := hf.pa_wf.2.1; have := hf.pa_wf.2.2; omega) F1 [] w.multiples.data 0
      hf.mu_len (by omega)
    rw [← hF1eq] at this
    exact this
  obtain ⟨_, _, hcar⟩ :=
    cross_off_loop_trace clear F 0 w.prime_arr F [] w.multiples.data 0 [] w.multiples.data
      hcross
  refine ⟨{ w with sieve := [], offsets := w.multiples.data }, ⟨?_, ?_, hcross⟩, ?_⟩
  · rw [hh]
    exact hbase
  · rw [hh]
    exact happ
  · have e1 := hf.high_lt
    have e2 := hf.sq_le
    have e3 := hf.appended
    rw [hnext] at e1 e2 e3
    constructor
    · exact hf.pa_wf
    · exact hf.vals
    · rw [hh]
      exact e1
    · rw [hh]
      exact e2
    · exact hf.size_eq
    · exact hf.size_le
    · exact hf.off
    · exact hf.kept
    · rw [hh]
      exact e3
    · intro idx hidx
      exact hcar idx (Nat.zero_le _) hidx
    · exact hf.s_mono
    · exact hf.s_le
    · exact hf.mu_len

/-- The segment number `k` of a run of the bit-packed engine, for any segment
size: the state at its start and the values that the shared loops compute from
it. When the segment size is `0` there is the segment `0` only. -/
theorem bit_segment_sweep_facts (F c a N k : Nat) (ha : 1 ≤ a)
    (hF : 16 * (N + c) + 4 ≤ F) (hk : k ≤ N / segment_size c N) :
    ∃ st w, segment_start F c a N k = .ok st ∧ st.low = k * segment_size c N ∧ st.low ≤ N ∧
      st.low % 16 = 0 ∧
      memset st.sieve.data 0xff st.sieve.size
        = .ok (List.replicate (segment_size c N) 255) ∧
      SweepRuns clear_bit F N (segment_size c N) st.low st.is_prime.data st.i st.s
        st.prime_arr st.multiples (List.replicate (segment_size c N) 255) w ∧
      SweepFacts clear_bit F N (segment_size c N) st.low st.s st.prime_arr st.multiples w := by
  rcases Nat.eq_zero_or_pos (segment_size c N) with h0 | hpos
  · have hk0 : k = 0 := by
      rw [h0, Nat.div_zero] at hk
      omega
    subst hk0
    have hsq := isqrt_le N
    obtain ⟨w, hruns, hf⟩ := bit_first_segment_zero clear_bit F c a N ha (by omega) (by omega)
    have hdata : (init_state c a N).sieve.data = [] := by
      show List.replicate ((if isqrt N < c then c else isqrt N) * 16 % 2 ^ 64) 255 = []
      have : (if isqrt N < c then c else isqrt N) * 16 % 2 ^ 64 = 0 := h0
      rw [this]
      rfl
    have hsize : (init_state c a N).sieve.size = 0 := h0
    refine ⟨init_state c a N, w, rfl, by rw [Nat.zero_mul]; rfl, Nat.zero_le N, rfl, ?_, ?_, ?_⟩
    · rw [hdata, hsize, h0]
      rfl
    · rw [h0]
      exact hruns
    · rw [h0]
      exact hf
  · obtain ⟨st, w, hstart, hlow, hlowN, hinv, hmem, hruns, hf, _⟩ :=
      bit_segment_facts F c a N k hpos ha hF hk
    exact ⟨st, w, hstart, hlow, hlowN, hinv.low16, hmem, hruns, hf⟩

end BitSieve


/-! ## The sweep of a segment as a function -/

theorem sweep_segment_of_runs (clear : List Nat → Nat → Except Fault (List Nat))
    (F limit segment_size low : Nat) (ip0 : List Nat) (i0 s0 : Nat) (pa0 mu0 : uint64vec_t)
    (sv0 : List Nat) (w : Sweep)
    (h : SweepRuns clear F limit segment_size low ip0 i0 s0 pa0 mu0 sv0 w) :
    sweep_segment clear F limit segment_size low ip0 i0 s0 pa0 mu0 sv0 = .ok w := by
  unfold sweep_segment
  simp only
  rw [h.run_base]
  simp only
  rw [h.run_append]
  simp only
  rw [h.run_cross]

section Congr

variable (clear1 clear2 : List Nat → Nat → Except Fault (List Nat)) (Pos : Nat → Prop)

theorem clear_loop_congr (segment_size k : Nat)
    (hagree : ∀ sv j, Pos j → clear1 sv j = clear2 sv j)
    (hstep : ∀ x, Pos x → Pos (x + k)) :
    ∀ fuel sv j, Pos j →
      clear_loop clear1 segment_size k fuel sv j = clear_loop clear2 segment_size k fuel sv j := by
  intro fuel
  induction fuel with
  | zero => intro sv j _; rfl
  | succ fuel ih =>
    intro sv j hj
    unfold clear_loop
    split
    · rw [hagree sv j hj]
      cases clear2 sv j with
      | error e => rfl
      | ok d => exact ih d (j + k) (hstep j hj)
    · rfl

theorem cross_off_loop_congr (F segment_size : Nat) (pa : uint64vec_t)
    (hagree : ∀ sv j, Pos j → clear1 sv j = clear2 sv j)
    (hstep : ∀ x p, Pos x → Pos (x + p * 2)) :
    ∀ fuel sv md t,
      (∀ idx, t ≤ idx → idx < pa.size → ∀ off, md[idx]? = some off → Pos off) →
      cross_off_loop clear1 F segment_size pa fuel sv md t
        = cross_off_loop clear2 F segment_size pa fuel sv md t := by
  intro fuel
  induction fuel with
  | zero => intro sv md t _; rfl
  | succ fuel ih =>
    intro sv md t hpos
    unfold cross_off_loop
    split
    · rename_i hlt
      cases hload : load md t with
      | error e => rfl
      | ok j =>
        simp only
        cases hloadp : load pa.data t with
        | error e => rfl
        | ok p =>
          simp only
          have hj : Pos j := hpos t le_rfl hlt j (load_eq_ok.1 hload)
          rw [clear_loop_congr clear1 clear2 Pos segment_size (p * 2) hagree
            (fun x hx => hstep x p hx) F sv j hj]
          cases clear_loop clear2 segment_size (p * 2) F sv j with
          | error e => rfl
          | ok r =>
            obtain ⟨d, j1⟩ := r
            simp only
            cases usub j1 segment_size with
            | error e => rfl
            | ok r1 =>
              simp only
              cases hstore : store md t r1 with
              | error e => rfl
              | ok m =>
                simp only
                apply ih
                intro idx hge hlt1 off hoff
                have hm : m = md.set t r1 := by
                  unfold store at hstore
                  split at hstore
                  · exact (Except.ok.inj hstore).symm
                  · cases hstore
                rw [hm, List.getElem?_set_ne (by omega)] at hoff
                exact hpos idx (by omega) hlt1 off hoff
    · rfl

end Congr

namespace Sieve

theorem byte_segment_sweep_eq (F c a N k : Nat) (st : State) (w : Sweep)
    (hstart : segment_start F c a N k = .ok st)
    (hmem : memset st.sieve.data 1 st.sieve.size = .ok (List.replicate (segment_size c N) 1))
    (hruns : SweepRuns clear_flag F N (segment_size c N) st.low st.is_prime.data st.i st.s
      st.prime_arr st.multiples (List.replicate (segment_size c N) 1) w) :
    segment_sweep F c a N k = .ok w := by
  unfold segment_sweep
  rw [hstart]
  simp only
  rw [hmem]
  simp only
  exact sweep_segment_of_runs _ _ _ _ _ _ _ _ _ _ _ _ hruns

end Sieve

namespace BitSieve

theorem bit_segment_sweep_eq (F c a N k : Nat) (st : State) (w : Sweep)
    (hstart : segment_start F c a N k = .ok st)
    (hmem : memset st.sieve.data 0xff st.sieve.size
      = .ok (List.replicate (segment_size c N) 255))
    (hruns : SweepRuns clear_bit F N (segment_size c N) st.low st.is_prime.data st.i st.s
      st.prime_arr st.multiples (List.replicate (segment_size c N) 255) w) :
    segment_sweep F c a N k = .ok w := by
  unfold segment_sweep segment_sweep_with
  rw [hstart]
  simp only
  rw [hmem]
  simp only
  exact sweep_segment_of_runs _ _ _ _ _ _ _ _ _ _ _ _ hruns

end BitSieve

/-! ## Consequences of the facts of a segment -/

section Facts

variable {clear : List Nat → Nat → Except Fault (List Nat)}
variable {F limit segment_size low s0 : Nat} {pa0 mu0 : uint64vec_t} {w : Sweep}

theorem facts_prime_list (hf : SweepFacts clear F limit segment_size low s0 pa0 mu0 w) :
    List.Pairwise (· < ·) w.prime_arr.vals ∧
      (∀ p, p ∈ w.prime_arr.vals ↔
        (Nat.Prime p ∧ p % 2 = 1 ∧ p * p ≤ segment_high low segment_size limit)) := by
  refine ⟨?_, fun p => ⟨fun hp => ?_, fun hp => ?_⟩⟩
  · rw [hf.vals]
    unfold oddPrimesBelow
    exact List.Pairwise.filter _ (List.pairwise_lt_range _)
  · have hsq := hf.sq_le p hp
    rw [hf.vals] at hp
    obtain ⟨_, hp2, hpp⟩ := mem_oddPrimesBelow.1 hp
    exact ⟨hpp, (odd_prime_ge_three hpp hp2).2, hsq⟩
  · obtain ⟨hpp, hodd, hsq⟩ := hp
    rw [hf.vals]
    refine mem_oddPrimesBelow.2 ⟨?_, prime_of_odd_ne_two hpp hodd, hpp⟩
    rw [← Nat.mul_self_lt_mul_self_iff]
    have := hf.high_lt
    omega

theorem facts_prime_at (hf : SweepFacts clear F limit segment_size low s0 pa0 mu0 w)
    {idx p : Nat} (hidx : idx < w.prime_arr.size) (hp : w.prime_arr.data[idx]? = some p) :
    Nat.Prime p ∧ p % 2 = 1 ∧ 3 ≤ p ∧ p * p ≤ segment_high low segment_size limit := by
  have hmem : p ∈ w.prime_arr.vals := (mem_vals_iff _ hf.pa_wf p).2 ⟨idx, hidx, hp⟩
  obtain ⟨h1, h2, h3⟩ := (facts_prime_list hf).2 p |>.1 hmem
  exact ⟨h1, h2, (odd_prime_ge_three h1 (prime_of_odd_ne_two h1 h2)).1, h3⟩

theorem facts_least (hf : SweepFacts clear F limit segment_size low s0 pa0 mu0 w) :
    ∀ idx, idx < w.prime_arr.size → ∃ p off, w.prime_arr.data[idx]? = some p ∧
      w.multiples.data[idx]? = some off ∧ LeastOddMultiple p low (low + off) := by
  intro idx hidx
  obtain ⟨p, off, hp, hm, hok⟩ := hf.off.2 idx hidx
  exact ⟨p, off, hp, hm, least_of_offok (facts_prime_at hf hidx hp).2.1 hok⟩

/-- When crossing-off begins an offset is below the segment size or below twice
its prime. -/
theorem facts_offset_bound (hf : SweepFacts clear F limit segment_size low s0 pa0 mu0 w)
    (hseg : 1 ≤ segment_size) {idx p off : Nat} (hidx : idx < w.prime_arr.size)
    (hp : w.prime_arr.data[idx]? = some p) (hm : w.multiples.data[idx]? = some off) :
    off < segment_size ∨ off < 2 * p := by
  obtain ⟨q, o, hq, ho, t, ht, hmin⟩ := hf.off.2 idx hidx
  rw [hp] at hq
  rw [hm] at ho
  cases hq
  cases ho
  have hsq := (facts_prime_at hf hidx hp).2.2.2
  have hhigh := segment_high_eq low segment_size limit hseg
  rcases hmin with h0 | hlt
  · subst h0
    left
    simp only [Nat.mul_zero, Nat.add_zero] at ht
    omega
  · right
    omega

end Facts


/-! ## Claims on the segments of a run -/

/-- C13: in both engines, for every `N` (in particular every `N >= 1`), cache
budget `>= 1` and segment of the run (`k1` for the byte-array engine, `k2` for
the bit-packed one, whose segment size is the wrapping `uint64_t` product; when
that size is `0` there is the segment `0` only), after the base sieve and
append loops of the segment the elements of `prime_arr` are strictly
increasing and are exactly the odd primes `p` with `p * p <= high`; the
elements that `prime_arr` held at the head of the loop are still in place;
`multiples` has as many elements as `prime_arr`. -/
theorem prime_list_invariant (F L1D_CACHE approx_arr_size N k1 k2 : Nat)
    (hc : 1 ≤ L1D_CACHE) (ha : 1 ≤ approx_arr_size)
    (hF : 16 * (N + L1D_CACHE) + 4 ≤ F)
    (hk1 : k1 ≤ N / Sieve.segment_size L1D_CACHE N)
    (hk2 : k2 ≤ N / BitSieve.segment_size L1D_CACHE N) :
    (∃ st w, Sieve.segment_start F L1D_CACHE approx_arr_size N k1 = .ok st ∧
        Sieve.segment_sweep F L1D_CACHE approx_arr_size N k1 = .ok w ∧
        List.Pairwise (· < ·) w.prime_arr.vals ∧
        (∀ p, p ∈ w.prime_arr.vals ↔ (Nat.Prime p ∧ p % 2 = 1 ∧
          p * p ≤ segment_high st.low (Sieve.segment_size L1D_CACHE N) N)) ∧
        st.prime_arr.size ≤ w.prime_arr.size ∧
        (∀ idx, idx < st.prime_arr.size → w.prime_arr.data[idx]? = st.prime_arr.data[idx]?) ∧
        w.multiples.size = w.prime_arr.size) ∧
    (∃ st w, BitSieve.segment_start F L1D_CACHE approx_arr_size N k2 = .ok st ∧
        BitSieve.segment_sweep F L1D_CACHE approx_arr_size N k2 = .ok w ∧
        List.Pairwise (· < ·) w.prime_arr.vals ∧
        (∀ p, p ∈ w.prime_arr.vals ↔ (Nat.Prime p ∧ p % 2 = 1 ∧
          p * p ≤ segment_high st.low (BitSieve.segment_size L1D_CACHE N) N)) ∧
        st.prime_arr.size ≤ w.prime_arr.size ∧
        (∀ idx, idx < st.prime_arr.size → w.prime_arr.data[idx]? = st.prime_arr.data[idx]?) ∧
        w.multiples.size = w.prime_arr.size) := by
  constructor
  · obtain ⟨st, w, hstart, _, _, _, hmem, hruns, hf, _⟩ :=
      Sieve.byte_segment_facts F L1D_CACHE approx_arr_size N k1 (Or.inr hc) ha (by omega) hk1
    exact ⟨st, w, hstart, Sieve.byte_segment_sweep_eq _ _ _ _ _ st w hstart hmem hruns,
      (facts_prime_list hf).1, (facts_prime_list hf).2, hf.size_le,
      fun idx hidx => (hf.kept idx hidx).1, hf.size_eq⟩
  · obtain ⟨st, w, hstart, _, _, _, hmem, hruns, hf⟩ :=
      BitSieve.bit_segment_sweep_facts F L1D_CACHE approx_arr_size N k2 ha hF hk2
    exact ⟨st, w, hstart, BitSieve.bit_segment_sweep_eq _ _ _ _ _ st w hstart hmem hruns,
      (facts_prime_list hf).1, (facts_prime_list hf).2, hf.size_le,
      fun idx hidx => (hf.kept idx hidx).1, hf.size_eq⟩

set_option maxRecDepth 100000 in
theorem prime_list_invariant_witness :
    (∃ st w, Sieve.segment_start 600 1 1 30 2 = .ok st ∧
        Sieve.segment_sweep 600 1 1 30 2 = .ok w ∧
        List.Pairwise (· < ·) w.prime_arr.vals ∧
        (∀ p, p ∈ w.prime_arr.vals ↔ (Nat.Prime p ∧ p % 2 = 1 ∧
          p * p ≤ segment_high st.low (Sieve.segment_size 1 30) 30)) ∧
        st.prime_arr.size ≤ w.prime_arr.size ∧
        (∀ idx, idx < st.prime_arr.size → w.prime_arr.data[idx]? = st.prime_arr.data[idx]?) ∧
        w.multiples.size = w.prime_arr.size) ∧
    (∃ st w, BitSieve.segment_start 600 1 1 30 0 = .ok st ∧
        BitSieve.segment_sweep 600 1 1 30 0 = .ok w ∧
        List.Pairwise (· < ·) w.prime_arr.vals ∧
        (∀ p, p ∈ w.prime_arr.vals ↔ (Nat.Prime p ∧ p % 2 = 1 ∧
          p * p ≤ segment_high st.low (BitSieve.segment_size 1 30) 30)) ∧
        st.prime_arr.size ≤ w.prime_arr.size ∧
        (∀ idx, idx < st.prime_arr.size → w.prime_arr.data[idx]? = st.prime_arr.data[idx]?) ∧
        w.multiples.size = w.prime_arr.size) :=
  prime_list_invariant 600 1 1 30 2 0 (by decide) (by decide) (by decide) (by decide)
    (by decide)

/-- C14: in both engines, for every `N` (in particular every `N >= 1`), cache
budget `>= 1`, segment of the run (of the bit-packed engine with the wrapping
`uint64_t` segment size, segment `0` only when that size is `0`) and index
`idx < prime_arr.size`, when crossing-off begins
`low + multiples[idx]` is the least odd multiple of `p = prime_arr[idx]` that
is at least `p * p` and at least `low`; an element appended in the segment has
`low <= p * p <= high` and its offset `p * p - low` is computed without
underflow; the value `j - segment_size` stored after the crossing-off of `p` is
computed without underflow from the final `j >= segment_size`. -/
theorem carried_offset_invariant (F L1D_CACHE approx_arr_size N k1 k2 : Nat)
    (hc : 1 ≤ L1D_CACHE) (ha : 1 ≤ approx_arr_size)
    (hF : 16 * (N + L1D_CACHE) + 4 ≤ F)
    (hk1 : k1 ≤ N / Sieve.segment_size L1D_CACHE N)
    (hk2 : k2 ≤ N / BitSieve.segment_size L1D_CACHE N) :
    (∃ st w, Sieve.segment_start F L1D_CACHE approx_arr_size N k1 = .ok st ∧
        Sieve.segment_sweep F L1D_CACHE approx_arr_size N k1 = .ok w ∧
        (∀ idx, idx < w.prime_arr.size → ∃ p off, w.prime_arr.data[idx]? = some p ∧
          w.multiples.data[idx]? = some off ∧ LeastOddMultiple p st.low (st.low + off)) ∧
        (∀ idx, st.prime_arr.size ≤ idx → idx < w.prime_arr.size →
          ∃ p, w.prime_arr.data[idx]? = some p ∧
            w.multiples.data[idx]? = some (p * p - st.low) ∧ st.low ≤ p * p ∧
            p * p ≤ segment_high st.low (Sieve.segment_size L1D_CACHE N) N ∧
            usub (p * p) st.low = .ok (p * p - st.low)) ∧
        (∀ idx, idx < w.prime_arr.size → ∃ p off sieveA sieveB j,
          w.prime_arr.data[idx]? = some p ∧ w.multiples.data[idx]? = some off ∧
          clear_loop Sieve.clear_flag (Sieve.segment_size L1D_CACHE N) (p * 2) F sieveA off
            = .ok (sieveB, j) ∧
          Sieve.segment_size L1D_CACHE N ≤ j ∧
          usub j (Sieve.segment_size L1D_CACHE N) = .ok (j - Sieve.segment_size L1D_CACHE N) ∧
          w.offsets[idx]? = some (j - Sieve.segment_size L1D_CACHE N))) ∧
    (∃ st w, BitSieve.segment_start F L1D_CACHE approx_arr_size N k2 = .ok st ∧
        BitSieve.segment_sweep F L1D_CACHE approx_arr_size N k2 = .ok w ∧
        (∀ idx, idx < w.prime_arr.size → ∃ p off, w.prime_arr.data[idx]? = some p ∧
          w.multiples.data[idx]? = some off ∧ LeastOddMultiple p st.low (st.low + off)) ∧
        (∀ idx, st.prime_arr.size ≤ idx → idx < w.prime_arr.size →
          ∃ p, w.prime_arr.data[idx]? = some p ∧
            w.multiples.data[idx]? = some (p * p - st.low) ∧ st.low ≤ p * p ∧
            p * p ≤ segment_high st.low (BitSieve.segment_size L1D_CACHE N) N ∧
            usub (p * p) st.low = .ok (p * p - st.low)) ∧
        (∀ idx, idx < w.prime_arr.size → ∃ p off sieveA sieveB j,
          w.prime_arr.data[idx]? = some p ∧ w.multiples.data[idx]? = some off ∧
          clear_loop BitSieve.clear_bit (BitSieve.segment_size L1D_CACHE N) (p * 2) F sieveA off
            = .ok (sieveB, j) ∧
          BitSieve.segment_size L1D_CACHE N ≤ j ∧
          usub j (BitSieve.segment_size L1D_CACHE N) = .ok (j - BitSieve.segment_size L1D_CACHE N) ∧
          w.offsets[idx]? = some (j - BitSieve.segment_size L1D_CACHE N))) := by
  constructor
  · obtain ⟨st, w, hstart, _, _, _, hmem, hruns, hf, _⟩ :=
      Sieve.byte_segment_facts F L1D_CACHE approx_arr_size N k1 (Or.inr hc) ha (by omega) hk1
    refine ⟨st, w, hstart, Sieve.byte_segment_sweep_eq _ _ _ _ _ st w hstart hmem hruns,
      facts_least hf, hf.appended, fun idx hidx => ?_⟩
    obtain ⟨p, off, sA, sB, j, e1, e2, e3, e4, e5, e6, _⟩ := hf.carried idx hidx
    exact ⟨p, off, sA, sB, j, e1, e2, e3, e4, e5, e6⟩
  · obtain ⟨st, w, hstart, _, _, _, hmem, hruns, hf⟩ :=
      BitSieve.bit_segment_sweep_facts F L1D_CACHE approx_arr_size N k2 ha hF hk2
    refine ⟨st, w, hstart, BitSieve.bit_segment_sweep_eq _ _ _ _ _ st w hstart hmem hruns,
      facts_least hf, hf.appended, fun idx hidx => ?_⟩
    obtain ⟨p, off, sA, sB, j, e1, e2, e3, e4, e5, e6, _⟩ := hf.carried idx hidx
    exact ⟨p, off, sA, sB, j, e1, e2, e3, e4, e5, e6⟩

set_option maxRecDepth 100000 in
theorem carried_offset_invariant_witness :
    (∃ st w, Sieve.segment_start 600 1 1 30 2 = .ok st ∧
        Sieve.segment_sweep 600 1 1 30 2 = .ok w ∧
        (∀ idx, idx < w.prime_arr.size → ∃ p off, w.prime_arr.data[idx]? = some p ∧
          w.multiples.data[idx]? = some off ∧ LeastOddMultiple p st.low (st.low + off)) ∧
        (∀ idx, st.prime_arr.size ≤ idx → idx < w.prime_arr.size →
          ∃ p, w.prime_arr.data[idx]? = some p ∧
            w.multiples.data[idx]? = some (p * p - st.low) ∧ st.low ≤ p * p ∧
            p * p ≤ segment_high st.low (Sieve.segment_size 1 30) 30 ∧
            usub (p * p) st.low = .ok (p * p - st.low)) ∧
        (∀ idx, idx < w.prime_arr.size → ∃ p off sieveA sieveB j,
          w.prime_arr.data[idx]? = some p ∧ w.multiples.data[idx]? = some off ∧
          clear_loop Sieve.clear_flag (Sieve.segment_size 1 30) (p * 2) 600 sieveA off
            = .ok (sieveB, j) ∧
          Sieve.segment_size 1 30 ≤ j ∧
          usub j (Sieve.segment_size 1 30) = .ok (j - Sieve.segment_size 1 30) ∧
          w.offsets[idx]? = some (j - Sieve.segment_size 1 30))) ∧
    (∃ st w, BitSieve.segment_start 600 1 1 30 0 = .ok st ∧
        BitSieve.segment_sweep 600 1 1 30 0 = .ok w ∧
        (∀ idx, idx < w.prime_arr.size → ∃ p off, w.prime_arr.data[idx]? = some p ∧
          w.multiples.data[idx]? = some off ∧ LeastOddMultiple p st.low (st.low + off)) ∧
        (∀ idx, st.prime_arr.size ≤ idx → idx < w.prime_arr.size →
          ∃ p, w.prime_arr.data[idx]? = some p ∧
            w.multiples.data[idx]? = some (p * p - st.low) ∧ st.low ≤ p * p ∧
            p * p ≤ segment_high st.low (BitSieve.segment_size 1 30) 30 ∧
            usub (p * p) st.low = .ok (p * p - st.low)) ∧
        (∀ idx, idx < w.prime_arr.size → ∃ p off sieveA sieveB j,
          w.prime_arr.data[idx]? = some p ∧ w.multiples.data[idx]? = some off ∧
          clear_loop BitSieve.clear_bit (BitSieve.segment_size 1 30) (p * 2) 600 sieveA off
            = .ok (sieveB, j) ∧
          BitSieve.segment_size 1 30 ≤ j ∧
          usub j (BitSieve.segment_size 1 30) = .ok (j - BitSieve.segment_size 1 30) ∧
          w.offsets[idx]? = some (j - BitSieve.segment_size 1 30))) :=
  carried_offset_invariant 600 1 1 30 2 0 (by decide) (by decide) (by decide) (by decide)
    (by decide)

set_option maxRecDepth 1000000 in
/-- C15, counterexample: for `N = 200` and the cache budget `2^60 + 1` the
product `sieve_size * 16` wraps to the segment size `16`, and in segment `9`
(`low = 144`) of the bit-packed engine crossing-off begins with the offset `21`
for the prime `11`. -/
theorem bit_offset_exceeds_wrapped_segment_size :
    (1 : Nat) ≤ 2 ^ 60 + 1 ∧ BitSieve.segment_size (2 ^ 60 + 1) 200 = 16 ∧
      (BitSieve.segment_start 300 (2 ^ 60 + 1) 5 200 9).map (fun st => st.low) = .ok 144 ∧
      (BitSieve.segment_sweep 300 (2 ^ 60 + 1) 5 200 9).map
          (fun w => (w.prime_arr.vals, w.multiples.vals))
        = .ok ([3, 5, 7, 11], [3, 1, 3, 21]) ∧
      ¬ (21 < 16) := by
  decide

/-- C15, amended: in the bit-packed engine, for every `N` (in particular every
`N >= 1`) and cache budget `>= 1` for which the product `sieve_size * 16` is
exact, that is below `2^64`, for every segment `k` of the run and index
`idx < prime_arr.size`, `multiples[idx]` is below `segment_size` when
crossing-off begins, and after crossing-off `multiples[idx]` is
`j - segment_size` for the final position `j` that the crossing-off loop of
`prime_arr[idx]` reaches. -/
theorem bit_offsets_below_segment_size (F L1D_CACHE approx_arr_size N k : Nat)
    (hc : 1 ≤ L1D_CACHE)
    (hexact : (if isqrt N < L1D_CACHE then L1D_CACHE else isqrt N) * 16 < 2 ^ 64)
    (ha : 1 ≤ approx_arr_size) (hF : 16 * (N + L1D_CACHE) + 4 ≤ F)
    (hk : k ≤ N / BitSieve.segment_size L1D_CACHE N) :
    (∃ st w, BitSieve.segment_start F L1D_CACHE approx_arr_size N k = .ok st ∧
      BitSieve.segment_sweep F L1D_CACHE approx_arr_size N k = .ok w ∧
      ∀ idx, idx < w.prime_arr.size → ∃ p off sieveA sieveB j,
        w.prime_arr.data[idx]? = some p ∧ w.multiples.data[idx]? = some off ∧
        off < BitSieve.segment_size L1D_CACHE N ∧
        clear_loop BitSieve.clear_bit (BitSieve.segment_size L1D_CACHE N) (p * 2) F sieveA off
          = .ok (sieveB, j) ∧
        BitSieve.segment_size L1D_CACHE N ≤ j ∧
        w.offsets[idx]? = some (j - BitSieve.segment_size L1D_CACHE N)) := by
  have hseg1 : 1 ≤ BitSieve.segment_size L1D_CACHE N :=
    BitSieve.segment_size_pos L1D_CACHE N (Or.inr hc) hexact
  obtain ⟨st, w, hstart, _, hlowN, _, hmem, hruns, hf, _⟩ :=
    BitSieve.bit_segment_facts F L1D_CACHE approx_arr_size N k hseg1 ha hF hk
  have hsegsq : 16 * isqrt N ≤ BitSieve.segment_size L1D_CACHE N := by
    rw [BitSieve.segment_size_exact L1D_CACHE N hexact]
    split <;> omega
  have hhigh := segment_high_eq st.low (BitSieve.segment_size L1D_CACHE N) N hseg1
  refine ⟨st, w, hstart, BitSieve.bit_segment_sweep_eq _ _ _ _ _ st w hstart hmem hruns,
    fun idx hidx => ?_⟩
  obtain ⟨p, off, sA, sB, j, e1, e2, e3, e4, _, e6, _⟩ := hf.carried idx hidx
  refine ⟨p, off, sA, sB, j, e1, e2, ?_, e3, e4, e6⟩
  have hsq := (facts_prime_at hf hidx e1).2.2.2
  have hple : p ≤ isqrt N := le_isqrt_iff.2 (by omega)
  rcases facts_offset_bound hf hseg1 hidx e1 e2 with h | h
  · exact h
  · omega

set_option maxRecDepth 100000 in
theorem bit_offsets_below_segment_size_witness :
    (∃ st w, BitSieve.segment_start 600 1 1 30 0 = .ok st ∧
      BitSieve.segment_sweep 600 1 1 30 0 = .ok w ∧
      ∀ idx, idx < w.prime_arr.size → ∃ p off sieveA sieveB j,
        w.prime_arr.data[idx]? = some p ∧ w.multiples.data[idx]? = some off ∧
        off < BitSieve.segment_size 1 30 ∧
        clear_loop BitSieve.clear_bit (BitSieve.segment_size 1 30) (p * 2) 600 sieveA off
          = .ok (sieveB, j) ∧
        BitSieve.segment_size 1 30 ≤ j ∧
        w.offsets[idx]? = some (j - BitSieve.segment_size 1 30)) :=
  bit_offsets_below_segment_size 600 1 1 30 0 (by decide) (by decide) (by decide)
    (by decide) (by decide)

set_option maxRecDepth 1000000 in
/-- C16, counterexample: for `N = 100` and cache budget `1` the segment size of
the byte-array engine is `10`, and in segment `5` (`low = 50`) crossing-off
begins with the offset `13` for the prime `7`. -/
theorem byte_offset_exceeds_segment_size :
    Sieve.segment_size 1 100 = 10 ∧
      (Sieve.segment_sweep 200 1 1 100 5).map
          (fun w => (w.prime_arr.vals, w.multiples.vals))
        = .ok ([3, 5, 7], [1, 5, 13]) ∧
      ¬ (13 < 10) := by
  decide

/-- C16, amended: in the byte-array engine, for every `N >= 1`, cache budget
`>= 1`, segment `k` of the run and index `idx < prime_arr.size`, when
crossing-off begins `multiples[idx]` is below `segment_size` or below
`2 * prime_arr[idx]`, hence below `segment_size` whenever
`2 * prime_arr[idx] <= segment_size`; after crossing-off `multiples[idx]` is
`j - segment_size` for the final position `j` that the crossing-off loop of
`prime_arr[idx]` reaches. -/
theorem byte_offsets_bounded (F L1D_CACHE approx_arr_size N k : Nat)
    (hN : 1 ≤ N) (hc : 1 ≤ L1D_CACHE) (ha : 1 ≤ approx_arr_size)
    (hF : N + L1D_CACHE + 4 ≤ F)
    (hk : k ≤ N / Sieve.segment_size L1D_CACHE N) :
    (∃ st w, Sieve.segment_start F L1D_CACHE approx_arr_size N k = .ok st ∧
      Sieve.segment_sweep F L1D_CACHE approx_arr_size N k = .ok w ∧
      ∀ idx, idx < w.prime_arr.size → ∃ p off sieveA sieveB j,
        w.prime_arr.data[idx]? = some p ∧ w.multiples.data[idx]? = some off ∧
        (off < Sieve.segment_size L1D_CACHE N ∨ off < 2 * p) ∧
        (2 * p ≤ Sieve.segment_size L1D_CACHE N → off < Sieve.segment_size L1D_CACHE N) ∧
        clear_loop Sieve.clear_flag (Sieve.segment_size L1D_CACHE N) (p * 2) F sieveA off
          = .ok (sieveB, j) ∧
        Sieve.segment_size L1D_CACHE N ≤ j ∧
        w.offsets[idx]? = some (j - Sieve.segment_size L1D_CACHE N)) := by
  obtain ⟨st, w, hstart, _, _, _, hmem, hruns, hf, _⟩ :=
    Sieve.byte_segment_facts F L1D_CACHE approx_arr_size N k (Or.inr hc) ha hF hk
  have hseg1 : 1 ≤ Sieve.segment_size L1D_CACHE N := by
    have := isqrt_pos hN
    unfold Sieve.segment_size
    split <;> omega
  refine ⟨st, w, hstart, Sieve.byte_segment_sweep_eq _ _ _ _ _ st w hstart hmem hruns,
    fun idx hidx => ?_⟩
  obtain ⟨p, off, sA, sB, j, e1, e2, e3, e4, _, e6, _⟩ := hf.carried idx hidx
  have hb := facts_offset_bound hf hseg1 hidx e1 e2
  refine ⟨p, off, sA, sB, j, e1, e2, hb, fun h2p => ?_, e3, e4, e6⟩
  rcases hb with h | h
  · exact h
  · omega

set_option maxRecDepth 100000 in
theorem byte_offsets_bounded_witness :
    (∃ st w, Sieve.segment_start 600 1 1 30 2 = .ok st ∧
      Sieve.segment_sweep 600 1 1 30 2 = .ok w ∧
      ∀ idx, idx < w.prime_arr.size → ∃ p off sieveA sieveB j,
        w.prime_arr.data[idx]? = some p ∧ w.multiples.data[idx]? = some off ∧
        (off < Sieve.segment_size 1 30 ∨ off < 2 * p) ∧
        (2 * p ≤ Sieve.segment_size 1 30 → off < Sieve.segment_size 1 30) ∧
        clear_loop Sieve.clear_flag (Sieve.segment_size 1 30) (p * 2) 600 sieveA off
          = .ok (sieveB, j) ∧
        Sieve.segment_size 1 30 ≤ j ∧
        w.offsets[idx]? = some (j - Sieve.segment_size 1 30)) :=
  byte_offsets_bounded 600 1 1 30 2 (by decide) (by decide) (by decide)
    (by decide) (by decide)


namespace BitSieve

/-- With a segment size of `0` the sieve of the first segment has no byte to
mask: for a limit below `2^64` the tail mask faults, whatever the fuel. -/
theorem bit_zero_masked_faults (F c a N : Nat) (h0 : segment_size c N = 0)
    (hN : N < 2 ^ 64) : ∀ sieve, segment_masked F c a N 0 ≠ .ok sieve := by
  intro sieve h
  have hhigh : segment_high 0 0 N = N := by
    have h1 := segment_high_zero_le N
    have h2 : ¬ segment_high 0 0 N < N := by
      unfold segment_high
      simp only [Nat.zero_add, if_true]
      split <;> omega
    omega
  unfold segment_masked at h
  have hstart : segment_start F c a N 0 = .ok (init_state c a N) := rfl
  rw [hstart] at h
  simp only at h
  split at h
  · cases h
  · rename_i w hsweep
    have hlow : (init_state c a N).low = 0 := rfl
    rw [h0, hlow, hhigh] at h
    have hsv : w.sieve = [] := by
      unfold segment_sweep segment_sweep_with at hsweep
      rw [hstart] at hsweep
      simp only at hsweep
      have hdata : (init_state c a N).sieve.data = [] := by
        show List.replicate ((if isqrt N < c then c else isqrt N) * 16 % 2 ^ 64) 255 = []
        have : (if isqrt N < c then c else isqrt N) * 16 % 2 ^ 64 = 0 := h0
        rw [this]
        rfl
      have hsize : (init_state c a N).sieve.size = 0 := h0
      rw [hdata, hsize, h0] at hsweep
      have hmem : memset [] 255 0 = .ok [] := rfl
      rw [hmem] at hsweep
      simp only at hsweep
      unfold sweep_segment at hsweep
      simp only at hsweep
      split at hsweep
      · cases hsweep
      · split at hsweep
        · cases hsweep
        · split at hsweep
          · cases hsweep
          · rename_i sv md hcross
            have hw := Except.ok.inj hsweep
            rw [← hw]
            exact cross_off_loop_zero_sieve clear_bit F _ F [] _ 0 sv md hcross
    rw [hsv, usub_of_le (Nat.zero_le N)] at h
    simp only at h
    unfold mask_tail at h
    rw [if_pos rfl] at h
    simp [load] at h

end BitSieve

/-- C12, counterexample: the cache budget `2^60` is `>= 1`, the segment size
`2^60 * 16` wraps to `0` and the sieve has no byte; in the first segment of the
run for `N = 10` there is no masked sieve, whatever the fuel: the tail mask
addresses byte `0` of the empty sieve. -/
theorem no_sieve_byte_at_wrapped_budget :
    (1 : Nat) ≤ 2 ^ 60 ∧ BitSieve.segment_size (2 ^ 60) 10 = 0 ∧
      (BitSieve.init_state (2 ^ 60) 2 10).sieve.data = [] ∧
      ∀ F sieve, BitSieve.segment_masked F (2 ^ 60) 2 10 0 ≠ .ok sieve :=
  ⟨by decide, by decide, by decide, fun F sieve =>
    BitSieve.bit_zero_masked_faults F (2 ^ 60) 2 10 (by decide) (by decide) sieve⟩

/-- C12, amended: in the count engine, for every `N` (in particular every
`N >= 1`), every cache budget whose segment size, the `uint64_t` product
`sieve_size * 16`, is not `0` (in particular every budget `>= 1` for which the
product is exact) and every segment `k` of the run, when the harvest loop
begins (after crossing-off and tail masking), for every byte index
`b < sieve_size` and bit `kb < 8`, bit `kb` of `sieve.data[b]` is clear exactly
when the odd integer `m = low + 16 * b + 2 * kb + 1` is composite or greater
than `N`, and is set exactly when `m <= N` and `m` is `1` or a prime. -/
theorem sieve_liveness_at_harvest (F L1D_CACHE approx_arr_size N k : Nat)
    (hw : BitSieve.segment_size L1D_CACHE N ≠ 0) (ha : 1 ≤ approx_arr_size)
    (hF : 16 * (N + L1D_CACHE) + 4 ≤ F)
    (hk : k ≤ N / BitSieve.segment_size L1D_CACHE N) :
    ∃ st sieve, BitSieve.segment_start F L1D_CACHE approx_arr_size N k = .ok st ∧
      BitSieve.segment_masked F L1D_CACHE approx_arr_size N k = .ok sieve ∧
      ∀ b kb, b < (segment_high st.low (BitSieve.segment_size L1D_CACHE N) N - st.low) / 16 + 1 →
        kb < 8 → ∃ byte, sieve[b]? = some byte ∧
          (byte.testBit kb = false ↔
            ((1 < st.low + 16 * b + 2 * kb + 1 ∧ ¬ Nat.Prime (st.low + 16 * b + 2 * kb + 1)) ∨
              N < st.low + 16 * b + 2 * kb + 1)) ∧
          (byte.testBit kb = true ↔
            (st.low + 16 * b + 2 * kb + 1 ≤ N ∧
              (st.low + 16 * b + 2 * kb + 1 = 1 ∨ Nat.Prime (st.low + 16 * b + 2 * kb + 1)))) := by
  have hw1 : 1 ≤ BitSieve.segment_size L1D_CACHE N := Nat.pos_of_ne_zero hw
  obtain ⟨st, w, hstart, _, hlowN, hinv, hmem, hruns, hf, hgood, hlive⟩ :=
    BitSieve.bit_segment_facts F L1D_CACHE approx_arr_size N k hw1 ha hF hk
  have hsweep := BitSieve.bit_segment_sweep_eq _ _ _ _ _ st w hstart hmem hruns
  obtain ⟨ss0, hss0⟩ :
      ∃ ss0, (if isqrt N < L1D_CACHE then L1D_CACHE else isqrt N) % 2 ^ 60 = ss0 :=
    ⟨_, rfl⟩
  have hsegeq : BitSieve.segment_size L1D_CACHE N = 16 * ss0 := by
    rw [BitSieve.segment_size_eq, hss0]
  have hss1 : 1 ≤ ss0 := by omega
  have hhigh := segment_high_eq st.low (16 * ss0) N (by omega)
  have hlow16 := hinv.low16
  have hhs := hf.high_lt
  rw [hsegeq] at hgood hlive hhs
  have hbits := BitSieve.sieve_bits st.low (segment_high st.low (16 * ss0) N) w.s ss0 w.sieve
    hgood hhs hlive (by omega)
  obtain ⟨sv2, hrun4, hgood2, hframe, hmask⟩ :=
    BitSieve.mask_tail_spec N (segment_high st.low (16 * ss0) N)
      ((segment_high st.low (16 * ss0) N - st.low) / 16 + 1) (16 * ss0) w.sieve hgood
      (by omega) (by omega)
  have hfinal := BitSieve.masked_bits N st.low (segment_high st.low (16 * ss0) N) ss0 w.sieve
    sv2 hlow16 (by omega) (by omega) hss1 hhigh hbits hgood2 hframe hmask
  refine ⟨st, sv2, hstart, ?_, ?_⟩
  · unfold BitSieve.segment_masked
    rw [hstart]
    simp only
    rw [hsweep]
    simp only
    rw [hsegeq, usub_of_le (by omega)]
    simp only
    exact hrun4
  · rw [hsegeq]
    intro b kb hb hkb
    obtain ⟨byte, hget, _, hiff⟩ := hfinal b hb
    have h1 := hiff kb hkb
    unfold BitSieve.Counted at h1
    rw [Nat.add_assoc (st.low + 16 * b)]
    refine ⟨byte, hget, ?_, ?_⟩
    · constructor
      · intro hfalse
        by_contra hcon
        push_neg at hcon
        have : byte.testBit kb = true :=
          h1.2 ⟨by omega, hcon.2, by
            by_cases h11 : st.low + 16 * b + (2 * kb + 1) = 1
            · exact Or.inl h11
            · exact Or.inr (by
                by_contra hnp
                exact absurd (hcon.1 (by omega)) (by simpa using hnp))⟩
        rw [hfalse] at this
        cases this
      · intro hor
        cases hbit : byte.testBit kb with
        | false => rfl
        | true =>
          exfalso
          obtain ⟨_, hle, hm⟩ := h1.1 hbit
          rcases hor with ⟨hgt, hnp⟩ | hgt
          · rcases hm with h11 | hp
            · omega
            · exact hnp hp
          · omega
    · constructor
      · intro hbit
        exact (h1.1 hbit).2
      · intro hm
        exact h1.2 ⟨by omega, hm.1, hm.2⟩

set_option maxRecDepth 100000 in
theorem sieve_liveness_at_harvest_witness :
    ∃ st sieve, BitSieve.segment_start 600 1 1 30 0 = .ok st ∧
      BitSieve.segment_masked 600 1 1 30 0 = .ok sieve ∧
      ∀ b kb, b < (segment_high st.low (BitSieve.segment_size 1 30) 30 - st.low) / 16 + 1 →
        kb < 8 → ∃ byte, sieve[b]? = some byte ∧
          (byte.testBit kb = false ↔
            ((1 < st.low + 16 * b + 2 * kb + 1 ∧ ¬ Nat.Prime (st.low + 16 * b + 2 * kb + 1)) ∨
              30 < st.low + 16 * b + 2 * kb + 1)) ∧
          (byte.testBit kb = true ↔
            (st.low + 16 * b + 2 * kb + 1 ≤ 30 ∧
              (st.low + 16 * b + 2 * kb + 1 = 1 ∨ Nat.Prime (st.low + 16 * b + 2 * kb + 1)))) :=
  sieve_liveness_at_harvest 600 1 1 30 0 (by decide) (by decide) (by decide) (by decide)

namespace BitSieve

/-- The clearing statement at an odd offset `j` rewrites byte `j / 16` only, and
in it clears bit `(j % 16 - 1) / 2` and keeps the other seven bits. -/
theorem clear_bit_exact (sieve : List Nat) (j byte : Nat) (hodd : j % 2 = 1)
    (hget : sieve[j / 16]? = some byte) :
    ∃ byte1, clear_bit sieve j = .ok (sieve.set (j / 16) byte1) ∧
      byte1.testBit ((j % 16 - 1) / 2) = false ∧
      (∀ kb, kb < 8 → kb ≠ (j % 16 - 1) / 2 → byte1.testBit kb = byte.testBit kb) ∧
      16 * (j / 16) + 2 * ((j % 16 - 1) / 2) + 1 = j := by
  have hshift : j >>> 4 = j / 16 := by rw [Nat.shiftRight_eq_div_pow]
  have hand : j &&& 15 = j % 16 := by
    have := Nat.and_pow_two_sub_one_eq_mod j 4
    simpa using this
  have hbyte : j / 16 < sieve.length := by
    by_contra hcon
    rw [List.getElem?_eq_none (by omega)] at hget
    cases hget
  have hload : load sieve (j / 16) = .ok byte := load_eq_ok.2 hget
  have hr : j % 16 < 16 := Nat.mod_lt _ (by omega)
  have hr2 : j % 16 % 2 = 1 := by omega
  have hidx : (j % 16 - 1) / 2 = j % 16 / 2 := by omega
  obtain ⟨m, hm⟩ : ∃ m, unset_bit[j % 16]? = some m := by
    have := unset_bit_spec (j % 16) hr hr2 0 (by omega)
    cases h : unset_bit[j % 16]? with
    | none => rw [h] at this; simp at this
    | some m => exact ⟨m, rfl⟩
  have hbits : ∀ k, k < 8 → (bits64 m).testBit k = decide (k ≠ j % 16 / 2) := by
    intro k hk
    have := unset_bit_spec (j % 16) hr hr2 k hk
    rw [hm] at this
    simpa using this
  refine ⟨to_uint8 (byte &&& bits64 m), ?_, ?_, fun kb hkb hne => ?_, by omega⟩
  · unfold clear_bit
    rw [hshift, hand, hload]
    simp only
    rw [hm]
    simp only
    exact store_of_lt _ hbyte
  · rw [hidx, testBit_to_uint8 _ _ (by omega), Nat.testBit_land, hbits _ (by omega)]
    simp
  · rw [hidx] at hne
    rw [testBit_to_uint8 _ _ hkb, Nat.testBit_land, hbits _ hkb]
    simp [hne]

end BitSieve

/-- C18: in the count engine, for every `N` and cache budget (in particular
`N >= 1` and a budget `>= 1`) and every segment of the run (with the wrapping
`uint64_t` segment size; segment `0` only when that size is `0`), `low` is a
multiple of `16` and every offset `j` at which
crossing-off clears is odd, so that `low + j` is an odd multiple of the prime;
a clear at an odd `j` clears exactly bit `(j % 16 - 1) / 2` of byte `j / 16`,
the single bit that stands for `low + j`, and distinct odd offsets address
distinct bits. -/
theorem bit_clear_hits_one_odd_integer (F L1D_CACHE approx_arr_size N k : Nat)
    (ha : 1 ≤ approx_arr_size)
    (hF : 16 * (N + L1D_CACHE) + 4 ≤ F)
    (hk : k ≤ N / BitSieve.segment_size L1D_CACHE N) :
    (∃ st w, BitSieve.segment_start F L1D_CACHE approx_arr_size N k = .ok st ∧
        BitSieve.segment_sweep F L1D_CACHE approx_arr_size N k = .ok w ∧
        BitSieve.segment_sweep_with BitSieve.clear_bit_odd_only F L1D_CACHE approx_arr_size N k = .ok w ∧
        st.low % 16 = 0 ∧
        ∀ idx, idx < w.prime_arr.size → ∃ p off, w.prime_arr.data[idx]? = some p ∧
          w.multiples.data[idx]? = some off ∧ p ∣ st.low + off ∧
          ∀ u, (off + p * 2 * u) % 2 = 1 ∧ (st.low + (off + p * 2 * u)) % 2 = 1 ∧
            p ∣ st.low + (off + p * 2 * u)) ∧
      (∀ sieve j byte, j % 2 = 1 → sieve[j / 16]? = some byte →
        ∃ byte1, BitSieve.clear_bit sieve j = .ok (sieve.set (j / 16) byte1) ∧
          byte1.testBit ((j % 16 - 1) / 2) = false ∧
          (∀ kb, kb < 8 → kb ≠ (j % 16 - 1) / 2 → byte1.testBit kb = byte.testBit kb) ∧
          16 * (j / 16) + 2 * ((j % 16 - 1) / 2) + 1 = j) ∧
      (∀ j1 j2, j1 % 2 = 1 → j2 % 2 = 1 → j1 / 16 = j2 / 16 →
        (j1 % 16 - 1) / 2 = (j2 % 16 - 1) / 2 → j1 = j2) := by
  refine ⟨?_, fun sieve j byte hodd hget => BitSieve.clear_bit_exact sieve j byte hodd hget,
    fun j1 j2 h1 h2 hb hk => by omega⟩
  obtain ⟨st, w, hstart, _, _, hlow16, hmem, hruns, hf⟩ :=
    BitSieve.bit_segment_sweep_facts F L1D_CACHE approx_arr_size N k ha hF hk
  have hoffs : ∀ idx, idx < w.prime_arr.size → ∃ p off, w.prime_arr.data[idx]? = some p ∧
      w.multiples.data[idx]? = some off ∧ p % 2 = 1 ∧ off % 2 = 1 ∧ p ∣ st.low + off := by
    intro idx hidx
    obtain ⟨p, off, hp, hm, hok⟩ := hf.off.2 idx hidx
    have hpodd := (facts_prime_at hf hidx hp).2.1
    obtain ⟨hleast, _⟩ := least_of_offok hpodd hok
    exact ⟨p, off, hp, hm, hpodd, BitSieve.odd_offset (by omega) hpodd hok, hleast.1⟩
  have hcross : cross_off_loop BitSieve.clear_bit_odd_only F
      (BitSieve.segment_size L1D_CACHE N) w.prime_arr F
      (List.replicate (BitSieve.segment_size L1D_CACHE N) 255) w.multiples.data 0
      = .ok (w.sieve, w.offsets) := by
    rw [← hruns.run_cross]
    symm
    refine cross_off_loop_congr BitSieve.clear_bit BitSieve.clear_bit_odd_only
      (fun x => x % 2 = 1) F _ w.prime_arr (fun sv j hj => ?_) (fun x p hx => by omega)
      F _ _ 0 (fun idx _ hidx off hoff => ?_)
    · unfold BitSieve.clear_bit_odd_only
      rw [if_pos hj]
    · obtain ⟨p, off1, _, hm, _, hodd, _⟩ := hoffs idx hidx
      rw [hm] at hoff
      cases hoff
      exact hodd
  refine ⟨st, w, hstart, BitSieve.bit_segment_sweep_eq _ _ _ _ _ st w hstart hmem hruns, ?_,
    hlow16, fun idx hidx => ?_⟩
  · unfold BitSieve.segment_sweep_with
    rw [hstart]
    simp only
    rw [hmem]
    simp only
    exact sweep_segment_of_runs _ _ _ _ _ _ _ _ _ _ _ _
      ⟨hruns.run_base, hruns.run_append, hcross⟩
  · obtain ⟨p, off, hp, hm, hpodd, hodd, hdvd⟩ := hoffs idx hidx
    refine ⟨p, off, hp, hm, hdvd, fun u => ?_⟩
    have h2 : p * 2 * u = 2 * (p * u) := by ring
    refine ⟨by omega, by omega, ?_⟩
    rw [← Nat.add_assoc]
    exact Dvd.dvd.add hdvd ⟨2 * u, by ring⟩

set_option maxRecDepth 100000 in
theorem bit_clear_hits_one_odd_integer_witness :
    (∃ st w, BitSieve.segment_start 600 1 1 30 0 = .ok st ∧
        BitSieve.segment_sweep 600 1 1 30 0 = .ok w ∧
        BitSieve.segment_sweep_with BitSieve.clear_bit_odd_only 600 1 1 30 0 = .ok w ∧
        st.low % 16 = 0 ∧
        ∀ idx, idx < w.prime_arr.size → ∃ p off, w.prime_arr.data[idx]? = some p ∧
          w.multiples.data[idx]? = some off ∧ p ∣ st.low + off ∧
          ∀ u, (off + p * 2 * u) % 2 = 1 ∧ (st.low + (off + p * 2 * u)) % 2 = 1 ∧
            p ∣ st.low + (off + p * 2 * u)) ∧
      (∀ sieve j byte, j % 2 = 1 → sieve[j / 16]? = some byte →
        ∃ byte1, BitSieve.clear_bit sieve j = .ok (sieve.set (j / 16) byte1) ∧
          byte1.testBit ((j % 16 - 1) / 2) = false ∧
          (∀ kb, kb < 8 → kb ≠ (j % 16 - 1) / 2 → byte1.testBit kb = byte.testBit kb) ∧
          16 * (j / 16) + 2 * ((j % 16 - 1) / 2) + 1 = j) ∧
      (∀ j1 j2, j1 % 2 = 1 → j2 % 2 = 1 → j1 / 16 = j2 / 16 →
        (j1 % 16 - 1) / 2 = (j2 % 16 - 1) / 2 → j1 = j2) :=
  bit_clear_hits_one_odd_integer 600 1 1 30 0 (by decide) (by decide) (by decide)

end CFastSieve
